import Mathlib

/-!
# `config/config.go`: the profile store

A shallow embedding of package `config` (file `config/config.go`) together with the
parts of the Go standard library its functions call (`strings`, `unicode/utf8`,
`net/url`, `encoding/json`, `path`, and the file operations of `os`), followed by the
properties proved about it.

Conventions of the embedding:

* a Go `string` is its sequence of bytes, `GoString := List Nat` (each byte a number
  below 256); `str` turns a literal into its UTF-8 bytes;
* a Go pointer `*T` is `Option T` (`none` is `nil`), a Go map is `GoMap`, whose `none`
  is the `nil` map;
* an `error` result is `Option E` (`none` is `nil`), a run-time panic is `none` in an
  `Option` result;
* the file system is explicit state (`os.FileSystem`).

The standard-library functions follow the sources of Go 1.22.
-/

/-- A Go string: the sequence of its bytes. -/
abbrev GoString := List Nat

deriving instance DecidableEq for Except

namespace utf8

/-- The constant `utf8.RuneError`, U+FFFD. -/
def RuneError : Nat := 0xFFFD

/-- The function `utf8.AppendRune` applied to an empty buffer: the UTF-8 encoding of rune `r`. -/
def EncodeRune (r : Nat) : GoString :=
  if r ≤ 0x7F then [r]
  else if r ≤ 0x7FF then [0xC0 ||| (r >>> 6), 0x80 ||| (r &&& 0x3F)]
  else
    let r := if r > 0x10FFFF ∨ (0xD800 ≤ r ∧ r ≤ 0xDFFF) then RuneError else r
    if r ≤ 0xFFFF then
      [0xE0 ||| (r >>> 12), 0x80 ||| ((r >>> 6) &&& 0x3F), 0x80 ||| (r &&& 0x3F)]
    else
      [0xF0 ||| (r >>> 18), 0x80 ||| ((r >>> 12) &&& 0x3F), 0x80 ||| ((r >>> 6) &&& 0x3F),
        0x80 ||| (r &&& 0x3F)]

/-- The table `first` with `acceptRanges`: for a leading byte of a multi-byte sequence, the
length of the sequence and the accepted range of its second byte; `none` for the bytes
marked `xx` (invalid). ASCII bytes are handled by the caller. -/
def first (p0 : Nat) : Option (Nat × Nat × Nat) :=
  if 0xC2 ≤ p0 ∧ p0 ≤ 0xDF then some (2, 0x80, 0xBF)
  else if p0 = 0xE0 then some (3, 0xA0, 0xBF)
  else if (0xE1 ≤ p0 ∧ p0 ≤ 0xEC) ∨ p0 = 0xEE ∨ p0 = 0xEF then some (3, 0x80, 0xBF)
  else if p0 = 0xED then some (3, 0x80, 0x9F)
  else if p0 = 0xF0 then some (4, 0x90, 0xBF)
  else if 0xF1 ≤ p0 ∧ p0 ≤ 0xF3 then some (4, 0x80, 0xBF)
  else if p0 = 0xF4 then some (4, 0x80, 0x8F)
  else none

/-- The function `utf8.DecodeRune` (and `DecodeRuneInString`): the first rune of `p` and its
width in bytes; `(RuneError, 0)` for empty input, `(RuneError, 1)` for an invalid encoding. -/
def DecodeRune (p : GoString) : Nat × Nat :=
  match p with
  | [] => (RuneError, 0)
  | p0 :: rest =>
    if p0 < 0x80 then (p0, 1)
    else
      match first p0 with
      | none => (RuneError, 1)
      | some (sz, lo, hi) =>
        if p.length < sz then (RuneError, 1)
        else
          match rest with
          | [] => (RuneError, 1)
          | b1 :: rest1 =>
            if b1 < lo ∨ hi < b1 then (RuneError, 1)
            else if sz ≤ 2 then (((p0 &&& 0x1F) <<< 6) ||| (b1 &&& 0x3F), 2)
            else
              match rest1 with
              | [] => (RuneError, 1)
              | b2 :: rest2 =>
                if b2 < 0x80 ∨ 0xBF < b2 then (RuneError, 1)
                else if sz ≤ 3 then
                  (((p0 &&& 0x0F) <<< 12) ||| ((b1 &&& 0x3F) <<< 6) ||| (b2 &&& 0x3F), 3)
                else
                  match rest2 with
                  | [] => (RuneError, 1)
                  | b3 :: _ =>
                    if b3 < 0x80 ∨ 0xBF < b3 then (RuneError, 1)
                    else
                      (((p0 &&& 0x07) <<< 18) ||| ((b1 &&& 0x3F) <<< 12) |||
                        ((b2 &&& 0x3F) <<< 6) ||| (b3 &&& 0x3F), 4)

/-- The loop of `utf8.ValidString`, one byte at a step: `need` is the number of bytes
that the sequence begun by the last leading byte still lacks, `lo` and `hi` the range that
`acceptRanges` allows for the next of them. -/
def validFrom : Nat → Nat → Nat → GoString → Bool
  | need, _, _, [] => need == 0
  | need, lo, hi, c :: rest =>
    if need = 0 then
      if c < 0x80 then validFrom 0 0x80 0xBF rest
      else
        match first c with
        | none => false
        | some (size, lo1, hi1) => validFrom (size - 1) lo1 hi1 rest
    else if c < lo ∨ hi < c then false
    else validFrom (need - 1) 0x80 0xBF rest

/-- The function `utf8.ValidString`: whether `s` consists entirely of valid UTF-8-encoded
runes. -/
def ValidString (s : GoString) : Bool := validFrom 0 0x80 0xBF s

/-- The two-byte sequences that `first` and `acceptRanges` admit. -/
def Seq2 (b0 b1 : Nat) : Prop := (0xC2 ≤ b0 ∧ b0 ≤ 0xDF) ∧ (0x80 ≤ b1 ∧ b1 ≤ 0xBF)

/-- The three-byte sequences that `first` and `acceptRanges` admit. -/
def Seq3 (b0 b1 b2 : Nat) : Prop :=
  ((b0 = 0xE0 ∧ 0xA0 ≤ b1 ∧ b1 ≤ 0xBF) ∨
    (((0xE1 ≤ b0 ∧ b0 ≤ 0xEC) ∨ b0 = 0xEE ∨ b0 = 0xEF) ∧ 0x80 ≤ b1 ∧ b1 ≤ 0xBF) ∨
    (b0 = 0xED ∧ 0x80 ≤ b1 ∧ b1 ≤ 0x9F)) ∧
  (0x80 ≤ b2 ∧ b2 ≤ 0xBF)

/-- The four-byte sequences that `first` and `acceptRanges` admit. -/
def Seq4 (b0 b1 b2 b3 : Nat) : Prop :=
  ((b0 = 0xF0 ∧ 0x90 ≤ b1 ∧ b1 ≤ 0xBF) ∨
    ((0xF1 ≤ b0 ∧ b0 ≤ 0xF3) ∧ 0x80 ≤ b1 ∧ b1 ≤ 0xBF) ∨
    (b0 = 0xF4 ∧ 0x80 ≤ b1 ∧ b1 ≤ 0x8F)) ∧
  (0x80 ≤ b2 ∧ b2 ≤ 0xBF) ∧ (0x80 ≤ b3 ∧ b3 ≤ 0xBF)

end utf8

/-- The bytes of a string literal: its UTF-8 encoding. -/
def str (s : String) : GoString := s.data.flatMap (fun c => utf8.EncodeRune c.toNat)

namespace strings

/-- The function `strings.HasPrefix`. -/
def HasPrefix (s pre : GoString) : Bool :=
  decide (s.length ≥ pre.length) && (s.take pre.length == pre)

/-- The function `strings.HasSuffix`. -/
def HasSuffix (s suffix : GoString) : Bool :=
  decide (s.length ≥ suffix.length) && (s.drop (s.length - suffix.length) == suffix)

/-- The search loop of `strings.Index`: the offset (counted from `i`) of the first position
of `s` at which `substr` starts, or `-1`. -/
def indexFrom (substr : GoString) : GoString → Nat → Int
  | [], i => if substr = [] then (i : Int) else -1
  | c :: cs, i => if HasPrefix (c :: cs) substr then (i : Int) else indexFrom substr cs (i + 1)

/-- The function `strings.Index`: the index of the first instance of `substr` in `s`,
or `-1` if `substr` is not present in `s`. -/
def Index (s substr : GoString) : Int := indexFrom substr s 0

/-- The search loop of `strings.LastIndex`: the last position of `s` (counted from `i`) at
which `substr` starts, or `-1`. -/
def lastIndexFrom (substr : GoString) : GoString → Nat → Int
  | [], i => if substr = [] then (i : Int) else -1
  | c :: cs, i =>
    let r := lastIndexFrom substr cs (i + 1)
    if r ≠ -1 then r else if HasPrefix (c :: cs) substr then (i : Int) else -1

/-- The function `strings.LastIndex`: the index of the last instance of `substr` in `s`,
or `-1` if `substr` is not present in `s`. (The library finds it with a Rabin-Karp scan
from the end of the string that confirms every candidate by comparing the bytes.) -/
def LastIndex (s substr : GoString) : Int := lastIndexFrom substr s 0

/-- The function `strings.Contains`. -/
def Contains (s substr : GoString) : Bool := decide (Index s substr ≥ 0)

/-- The counting loop of `strings.Count` for a non-empty `substr`: after a match the search
resumes behind it; `skip` is the number of bytes still covered by the last match. -/
def countFrom (substr : GoString) : GoString → Nat → Nat
  | [], _ => 0
  | c :: cs, skip =>
    if skip = 0 then
      if HasPrefix (c :: cs) substr then 1 + countFrom substr cs (substr.length - 1)
      else countFrom substr cs 0
    else countFrom substr cs (skip - 1)

/-- The number of runes of `s` as `utf8.RuneCountInString` counts them, with `fuel`
bounding the number of steps. -/
def runeCount : Nat → GoString → Nat
  | 0, _ => 0
  | _, [] => 0
  | fuel + 1, c :: cs => 1 + runeCount fuel ((c :: cs).drop (utf8.DecodeRune (c :: cs)).2)

/-- The function `strings.Count`: the number of non-overlapping instances of `substr` in
`s`; for an empty `substr`, one more than the number of runes of `s`. -/
def Count (s substr : GoString) : Nat :=
  if substr = [] then runeCount s.length s + 1 else countFrom substr s 0

/-- The function `strings.Cut`: `s` around the first instance of `sep`. -/
def Cut (s sep : GoString) : GoString × GoString × Bool :=
  let i := Index s sep
  if i ≥ 0 then (s.take i.toNat, s.drop (i.toNat + sep.length), true) else (s, [], false)

/-- The function `explode` of package `strings`: `s` split into its UTF-8 sequences, at
most `n` of them (the last one holding the rest). -/
def explode : Nat → GoString → List GoString
  | 0, _ => []
  | _, [] => []
  | 1, s => [s]
  | n + 2, c :: cs =>
    let size := (utf8.DecodeRune (c :: cs)).2
    (c :: cs).take size :: explode (n + 1) ((c :: cs).drop size)

/-- The loop of `genSplit`: at most `n` cuts at the successive instances of `sep`. -/
def genSplitLoop (sep : GoString) : Nat → GoString → List GoString
  | 0, s => [s]
  | n + 1, s =>
    let m := Index s sep
    if m < 0 then [s]
    else s.take m.toNat :: genSplitLoop sep n (s.drop (m.toNat + sep.length))

/-- The function `strings.Split(s, sep)`, that is `genSplit(s, sep, 0, -1)`. -/
def Split (s sep : GoString) : List GoString :=
  if sep = [] then explode (runeCount s.length s) s
  else
    let n := Count s sep + 1
    let n := if n > s.length + 1 then s.length + 1 else n
    genSplitLoop sep (n - 1) s

/-- Lower-casing of one ASCII byte. -/
def toLowerByte (c : Nat) : Nat := if 65 ≤ c ∧ c ≤ 90 then c + 32 else c

/-- The function `strings.ToLower` on a string of ASCII bytes, the only strings the code
applies it to (the scheme returned by `getScheme`). -/
def ToLower (s : GoString) : GoString := s.map toLowerByte

/-- The comparison `a < b` of two Go strings: lexicographic order of the bytes. -/
def Less : GoString → GoString → Bool
  | [], [] => false
  | [], _ :: _ => true
  | _ :: _, [] => false
  | a :: as, b :: bs => decide (a < b) || (decide (a = b) && Less as bs)

end strings

namespace url

/-- The escaping modes of package `net/url` (type `encoding`). -/
inductive encoding where
  | encodePath
  | encodePathSegment
  | encodeHost
  | encodeZone
  | encodeUserPassword
  | encodeQueryComponent
  | encodeFragment
  deriving DecidableEq, Repr

/-- The errors that `parse` and its helpers produce, by the place that creates them. -/
inductive ParseFailure where
  /-- `errors.New("net/url: invalid control character in URL")` -/
  | invalidControlCharacter
  /-- `errors.New("missing protocol scheme")` -/
  | missingProtocolScheme
  /-- `errors.New("first path segment in URL cannot contain colon")` -/
  | firstPathSegmentColon
  /-- `errors.New("net/url: invalid userinfo")` -/
  | invalidUserinfo
  /-- `errors.New("missing ']' in host")` -/
  | missingBracket
  /-- `fmt.Errorf("invalid port %q after host", colonPort)` -/
  | invalidPort (colonPort : GoString)
  /-- `EscapeError(s)` -/
  | EscapeError (s : GoString)
  /-- `InvalidHostError(s)` -/
  | InvalidHostError (s : GoString)
  deriving DecidableEq, Repr

/-- The type `url.Error`: the error that `url.Parse` returns. -/
structure Error where
  Op : GoString
  URL : GoString
  Err : ParseFailure
  deriving DecidableEq, Repr

/-- The type `url.Userinfo`. -/
structure Userinfo where
  username : GoString
  password : GoString
  passwordSet : Bool
  deriving DecidableEq, Repr

/-- The type `url.URL`; the pointer field `User` is an `Option`. -/
structure URL where
  Scheme : GoString := []
  Opaque : GoString := []
  User : Option Userinfo := none
  Host : GoString := []
  Path : GoString := []
  RawPath : GoString := []
  OmitHost : Bool := false
  ForceQuery : Bool := false
  RawQuery : GoString := []
  Fragment : GoString := []
  RawFragment : GoString := []
  deriving DecidableEq, Repr

/-- The function `ishex`. -/
def ishex (c : Nat) : Bool :=
  (48 ≤ c && c ≤ 57) || (97 ≤ c && c ≤ 102) || (65 ≤ c && c ≤ 70)

/-- The function `unhex`. -/
def unhex (c : Nat) : Nat :=
  if 48 ≤ c ∧ c ≤ 57 then c - 48
  else if 97 ≤ c ∧ c ≤ 102 then c - 97 + 10
  else if 65 ≤ c ∧ c ≤ 70 then c - 65 + 10
  else 0

/-- The function `shouldEscape`: whether byte `c` must be escaped in the given mode. -/
def shouldEscape (c : Nat) (mode : encoding) : Bool :=
  -- §2.3 Unreserved characters (alphanum)
  if (97 ≤ c ∧ c ≤ 122) ∨ (65 ≤ c ∧ c ≤ 90) ∨ (48 ≤ c ∧ c ≤ 57) then false
  else if (mode = .encodeHost ∨ mode = .encodeZone) ∧
      c ∈ [33, 36, 38, 39, 40, 41, 42, 43, 44, 59, 61, 58, 91, 93, 60, 62, 34] then false
  -- '-', '_', '.', '~'
  else if c ∈ [45, 95, 46, 126] then false
  -- '$', '&', '+', ',', '/', ':', ';', '=', '?', '@'
  else if c ∈ [36, 38, 43, 44, 47, 58, 59, 61, 63, 64] ∧
      (mode = .encodePath ∨ mode = .encodePathSegment ∨ mode = .encodeUserPassword ∨
        mode = .encodeQueryComponent ∨ mode = .encodeFragment) then
    match mode with
    | .encodePath => c == 63
    | .encodePathSegment => c == 47 || c == 59 || c == 44 || c == 63
    | .encodeUserPassword => c == 64 || c == 47 || c == 63 || c == 58
    | .encodeQueryComponent => true
    | _ => false
  -- '!', '(', ')', '*'
  else if mode = .encodeFragment ∧ c ∈ [33, 40, 41, 42] then false
  else true

/-- The first loop of `unescape`: checks the `%` escapes of `s` and, for the host modes,
its plain bytes; returns the number of escapes and whether a `+` has to be replaced. -/
def unescapeCheck (mode : encoding) : Nat → GoString → Nat → Bool → Except ParseFailure (Nat × Bool)
  | 0, _, n, hasPlus => .ok (n, hasPlus)
  | _, [], n, hasPlus => .ok (n, hasPlus)
  | fuel + 1, c :: cs, n, hasPlus =>
    if c = 37 then
      match cs with
      | h1 :: h2 :: rest =>
        if !ishex h1 || !ishex h2 then .error (.EscapeError ((c :: cs).take 3))
        else if mode = .encodeHost ∧ unhex h1 < 8 ∧ [c, h1, h2] ≠ [37, 50, 53] then
          .error (.EscapeError [c, h1, h2])
        else if mode = .encodeZone ∧ [c, h1, h2] ≠ [37, 50, 53] ∧
            ((unhex h1 <<< 4) ||| unhex h2) ≠ 32 ∧
            shouldEscape ((unhex h1 <<< 4) ||| unhex h2) .encodeHost then
          .error (.EscapeError [c, h1, h2])
        else unescapeCheck mode fuel rest (n + 1) hasPlus
      | _ => .error (.EscapeError ((c :: cs).take 3))
    else if c = 43 then
      unescapeCheck mode fuel cs n (decide (mode = .encodeQueryComponent))
    else if (mode = .encodeHost ∨ mode = .encodeZone) ∧ c < 0x80 ∧ shouldEscape c .encodeHost then
      .error (.InvalidHostError [c])
    else unescapeCheck mode fuel cs n hasPlus

/-- The second loop of `unescape`: replaces the escapes of a checked string. -/
def unescapeBuild (mode : encoding) : Nat → GoString → GoString
  | 0, _ => []
  | _, [] => []
  | fuel + 1, c :: cs =>
    if c = 37 then
      match cs with
      | h1 :: h2 :: rest => ((unhex h1 <<< 4) ||| unhex h2) :: unescapeBuild mode fuel rest
      | _ => []
    else if c = 43 then
      (if mode = .encodeQueryComponent then 32 else 43) :: unescapeBuild mode fuel cs
    else c :: unescapeBuild mode fuel cs

/-- The function `unescape`: `s` with each `%AB` replaced by the byte it stands for. -/
def unescape (s : GoString) (mode : encoding) : Except ParseFailure GoString :=
  match unescapeCheck mode s.length s 0 false with
  | .error e => .error e
  | .ok (n, hasPlus) =>
    if n = 0 ∧ hasPlus = false then .ok s else .ok (unescapeBuild mode s.length s)

/-- The digits of `upperhex`. -/
def upperhex (n : Nat) : Nat := if n < 10 then 48 + n else 65 + (n - 10)

/-- The function `escape`: `s` with every byte that `shouldEscape` in `mode` written as
`%AB` (a space as `+` in a query component). -/
def escape (s : GoString) (mode : encoding) : GoString :=
  s.flatMap (fun c =>
    if c = 32 ∧ mode = .encodeQueryComponent then [43]
    else if shouldEscape c mode then [37, upperhex (c >>> 4), upperhex (c &&& 15)]
    else [c])

/-- The function `stringContainsCTLByte`. -/
def stringContainsCTLByte (s : GoString) : Bool := s.any (fun b => b < 32 || b == 0x7f)

/-- The function `getScheme`: splits off a leading `scheme:`; the scheme is empty when
there is none. -/
def getSchemeLoop (rawURL : GoString) : GoString → Nat → Except ParseFailure (GoString × GoString)
  | [], _ => .ok ([], rawURL)
  | c :: cs, i =>
    if (97 ≤ c ∧ c ≤ 122) ∨ (65 ≤ c ∧ c ≤ 90) then getSchemeLoop rawURL cs (i + 1)
    else if (48 ≤ c ∧ c ≤ 57) ∨ c = 43 ∨ c = 45 ∨ c = 46 then
      if i = 0 then .ok ([], rawURL) else getSchemeLoop rawURL cs (i + 1)
    else if c = 58 then
      if i = 0 then .error .missingProtocolScheme
      else .ok (rawURL.take i, rawURL.drop (i + 1))
    else .ok ([], rawURL)

/-- The function `getScheme`. -/
def getScheme (rawURL : GoString) : Except ParseFailure (GoString × GoString) :=
  getSchemeLoop rawURL rawURL 0

/-- The function `validOptionalPort`: whether `port` is empty or a colon followed by digits. -/
def validOptionalPort (port : GoString) : Bool :=
  match port with
  | [] => true
  | c :: rest => if c ≠ 58 then false else rest.all (fun b => !(b < 48 || b > 57))

/-- The function `validUserinfo`. Its loop ranges over the runes of `s`; every rune it
accepts is a single ASCII byte, so the test is made byte by byte. -/
def validUserinfo (s : GoString) : Bool :=
  s.all (fun r =>
    (65 ≤ r && r ≤ 90) || (97 ≤ r && r ≤ 122) || (48 ≤ r && r ≤ 57) ||
    decide (r ∈ [45, 46, 95, 58, 126, 33, 36, 38, 39, 40, 41, 42, 43, 44, 59, 61, 37, 64]))

/-- The function `parseHost`. -/
def parseHost (host : GoString) : Except ParseFailure GoString :=
  if strings.HasPrefix host [91] then
    -- an IP-literal: "[fe80::1]", "[fe80::1%25en0]", "[fe80::1]:80"
    let i := strings.LastIndex host [93]
    if i < 0 then .error .missingBracket
    else
      let colonPort := host.drop (i.toNat + 1)
      if !validOptionalPort colonPort then .error (.invalidPort colonPort)
      else
        let zone := strings.Index (host.take i.toNat) [37, 50, 53]
        if zone ≥ 0 then
          match unescape (host.take zone.toNat) .encodeHost with
          | .error e => .error e
          | .ok host1 =>
            match unescape ((host.take i.toNat).drop zone.toNat) .encodeZone with
            | .error e => .error e
            | .ok host2 =>
              match unescape (host.drop i.toNat) .encodeHost with
              | .error e => .error e
              | .ok host3 => .ok (host1 ++ host2 ++ host3)
        else unescape host .encodeHost
  else
    let i := strings.LastIndex host [58]
    if i ≠ -1 ∧ !validOptionalPort (host.drop i.toNat) then
      .error (.invalidPort (host.drop i.toNat))
    else unescape host .encodeHost

/-- The function `parseAuthority`: the user information and the host of `authority`. -/
def parseAuthority (authority : GoString) : Except ParseFailure (Option Userinfo × GoString) :=
  let i := strings.LastIndex authority [64]
  match (if i < 0 then parseHost authority else parseHost (authority.drop (i.toNat + 1))) with
  | .error e => .error e
  | .ok host =>
    if i < 0 then .ok (none, host)
    else
      let userinfo := authority.take i.toNat
      if !validUserinfo userinfo then .error .invalidUserinfo
      else if !strings.Contains userinfo [58] then
        match unescape userinfo .encodeUserPassword with
        | .error e => .error e
        | .ok u => .ok (some { username := u, password := [], passwordSet := false }, host)
      else
        let (username, password, _) := strings.Cut userinfo [58]
        match unescape username .encodeUserPassword with
        | .error e => .error e
        | .ok u =>
          match unescape password .encodeUserPassword with
          | .error e => .error e
          | .ok p => .ok (some { username := u, password := p, passwordSet := true }, host)

/-- The method `(*URL).setPath`. -/
def setPath (u : URL) (p : GoString) : Except ParseFailure URL :=
  match unescape p .encodePath with
  | .error e => .error e
  | .ok path =>
    .ok { u with Path := path, RawPath := if p = escape path .encodePath then [] else p }

/-- The method `(*URL).setFragment`. -/
def setFragment (u : URL) (f : GoString) : Except ParseFailure URL :=
  match unescape f .encodeFragment with
  | .error e => .error e
  | .ok frag =>
    .ok { u with Fragment := frag,
                 RawFragment := if f = escape frag .encodeFragment then [] else f }

/-- The function `parse(rawURL, viaRequest)` for `viaRequest = false`, as `Parse` calls it:
a URL without its fragment. -/
def parse (rawURL : GoString) : Except ParseFailure URL :=
  if stringContainsCTLByte rawURL then .error .invalidControlCharacter
  else if rawURL = [42] then .ok { Path := [42] }
  else
    match getScheme rawURL with
    | .error e => .error e
    | .ok (scheme, rest0) =>
      let scheme := strings.ToLower scheme
      let forceQuery := strings.HasSuffix rest0 [63] && decide (strings.Count rest0 [63] = 1)
      let rest := if forceQuery then rest0.take (rest0.length - 1) else (strings.Cut rest0 [63]).1
      let rawQuery := if forceQuery then [] else (strings.Cut rest0 [63]).2.1
      let u : URL := { Scheme := scheme, ForceQuery := forceQuery, RawQuery := rawQuery }
      if !strings.HasPrefix rest [47] ∧ scheme ≠ [] then
        -- rootless paths are opaque
        .ok { u with Opaque := rest }
      else if !strings.HasPrefix rest [47] ∧
          strings.Contains (strings.Cut rest [47]).1 [58] then
        .error .firstPathSegmentColon
      else if (scheme ≠ [] ∨ !strings.HasPrefix rest [47, 47, 47]) ∧
          strings.HasPrefix rest [47, 47] then
        let authority0 := rest.drop 2
        let i := strings.Index authority0 [47]
        let authority := if i ≥ 0 then authority0.take i.toNat else authority0
        let rest := if i ≥ 0 then authority0.drop i.toNat else []
        match parseAuthority authority with
        | .error e => .error e
        | .ok (user, host) => setPath { u with User := user, Host := host } rest
      else if scheme ≠ [] ∧ strings.HasPrefix rest [47] then
        setPath { u with OmitHost := true } rest
      else setPath u rest

/-- The function `url.Parse`: `rawURL` parsed into a `URL`. -/
def Parse (rawURL : GoString) : Except Error URL :=
  let (u, frag, _) := strings.Cut rawURL [35]
  match parse u with
  | .error err => .error { Op := str "parse", URL := u, Err := err }
  | .ok url =>
    if frag = [] then .ok url
    else
      match setFragment url frag with
      | .error err => .error { Op := str "parse", URL := rawURL, Err := err }
      | .ok url => .ok url

/-- The function `validEncoded`. -/
def validEncoded (s : GoString) (mode : encoding) : Bool :=
  s.all (fun c =>
    if c ∈ [33, 36, 38, 39, 40, 41, 42, 43, 44, 59, 61, 58, 64] then true
    else if c = 91 ∨ c = 93 then true
    else if c = 37 then true
    else !shouldEscape c mode)

/-- The method `(*URL).EscapedPath`. -/
def URL.EscapedPath (u : URL) : GoString :=
  if u.RawPath ≠ [] ∧ validEncoded u.RawPath .encodePath ∧
      unescape u.RawPath .encodePath = .ok u.Path then u.RawPath
  else if u.Path = [42] then [42]
  else escape u.Path .encodePath

/-- The method `(*URL).EscapedFragment`. -/
def URL.EscapedFragment (u : URL) : GoString :=
  if u.RawFragment ≠ [] ∧ validEncoded u.RawFragment .encodeFragment ∧
      unescape u.RawFragment .encodeFragment = .ok u.Fragment then u.RawFragment
  else escape u.Fragment .encodeFragment

/-- The method `(*Userinfo).String`. -/
def Userinfo.String (u : Userinfo) : GoString :=
  escape u.username .encodeUserPassword ++
    (if u.passwordSet then 58 :: escape u.password .encodeUserPassword else [])

/-- The method `(*URL).String`: the URL reassembled from its fields. -/
def URL.String (u : URL) : GoString :=
  let buf0 : GoString := if u.Scheme ≠ [] then u.Scheme ++ [58] else []
  let buf1 : GoString :=
    if u.Opaque ≠ [] then buf0 ++ u.Opaque
    else
      let buf :=
        if u.Scheme ≠ [] ∨ u.Host ≠ [] ∨ u.User ≠ none then
          if u.OmitHost = true ∧ u.Host = [] ∧ u.User = none then buf0
          else
            buf0 ++ (if u.Host ≠ [] ∨ u.Path ≠ [] ∨ u.User ≠ none then [47, 47] else []) ++
              (match u.User with
               | some ui => ui.String ++ [64]
               | none => []) ++
              (if u.Host ≠ [] then escape u.Host .encodeHost else [])
        else buf0
      let path := u.EscapedPath
      let buf := if path ≠ [] ∧ path.head? ≠ some 47 ∧ u.Host ≠ [] then buf ++ [47] else buf
      let buf :=
        if buf = [] ∧ strings.Contains (strings.Cut path [47]).1 [58] then buf ++ [46, 47]
        else buf
      buf ++ path
  let buf2 := if u.ForceQuery = true ∨ u.RawQuery ≠ [] then buf1 ++ [63] ++ u.RawQuery else buf1
  if u.Fragment ≠ [] then buf2 ++ [35] ++ u.EscapedFragment else buf2

end url

namespace json

/-- A JSON text as `encoding/json` reads and writes it: `null`, a boolean, a number (kept
as its literal), a string (its bytes, unquoted), an array, or an object with its members
in the order of the text. -/
inductive JValue where
  | null
  | bool (b : Bool)
  | number (lit : GoString)
  | string (s : GoString)
  | array (elems : List JValue)
  | object (members : List (GoString × JValue))

/-- The errors of package `encoding/json`: `*SyntaxError`, `*UnmarshalTypeError` (without
its `Offset`), and, as `other`, an error of a type that this file only stores (a
`MarshalerError`, an error of an `UnmarshalJSON` method and the like). -/
inductive Error where
  | SyntaxError (msg : GoString) (Offset : Nat)
  | UnmarshalTypeError (Value GoType Struct Field : GoString)
  | other (msg : GoString)
  deriving DecidableEq, Repr

/-- The method `Error()` of the errors of `encoding/json`. -/
def Error.Error : Error → GoString
  | .SyntaxError msg _ => msg
  | .UnmarshalTypeError value typ strct field =>
    if strct ≠ [] ∨ field ≠ [] then
      str "json: cannot unmarshal " ++ value ++ str " into Go struct field " ++ strct ++
        str "." ++ field ++ str " of type " ++ typ
    else str "json: cannot unmarshal " ++ value ++ str " into Go value of type " ++ typ
  | .other msg => msg

/-- The constant `maxNestingDepth`. -/
def maxNestingDepth : Nat := 10000

/-! ### Encoding -/

/-- The digits of `hex`. -/
def hex (n : Nat) : Nat := if n < 10 then 48 + n else 97 + (n - 10)

/-- The table `htmlSafeSet`: the ASCII bytes that `appendString` copies unchanged when
`escapeHTML` is set: all from the space on except `"`, `&`, `<`, `>` and the backslash. -/
def htmlSafeSet (b : Nat) : Bool :=
  decide (0x20 ≤ b) && decide (b < 0x80) && !(b == 34 || b == 38 || b == 60 || b == 62 || b == 92)

/-- The `switch` of `appendString`: the escape written for an ASCII byte that is not in
`htmlSafeSet`. -/
def escapeByte (b : Nat) : GoString :=
  if b = 92 ∨ b = 34 then [92, b]
  else if b = 8 then [92, 98]
  else if b = 12 then [92, 102]
  else if b = 10 then [92, 110]
  else if b = 13 then [92, 114]
  else if b = 9 then [92, 116]
  else [92, 117, 48, 48, hex (b >>> 4), hex (b &&& 0xF)]

/-- One turn of the loop of `appendString` with `escapeHTML` set, at byte `b` of `src` with
`rest` behind it: the bytes appended to `dst`, and the part of `src` that is left. -/
def appendStringStep (b : Nat) (rest : GoString) : GoString × GoString :=
  if b < 0x80 then
    if htmlSafeSet b then ([b], rest) else (escapeByte b, rest)
  else
    let (c, size) := utf8.DecodeRune ((b :: rest).take 4)
    if c = utf8.RuneError ∧ size = 1 then (str "\\ufffd", rest)
    else if c = 0x2028 ∨ c = 0x2029 then
      (str "\\u202" ++ [hex (c &&& 0xF)], (b :: rest).drop size)
    else ((b :: rest).take size, (b :: rest).drop size)

/-- The loop of `appendString` with `escapeHTML` set; `fuel` bounds the number of turns. -/
def appendStringLoop : Nat → GoString → GoString
  | 0, _ => []
  | _, [] => []
  | fuel + 1, b :: rest =>
    (appendStringStep b rest).1 ++ appendStringLoop fuel (appendStringStep b rest).2

/-- The function `appendString(dst, src, escapeHTML)` for an empty `dst` and `escapeHTML`
set, as `Encoder.Encode` uses it: `src` as a JSON string literal, coerced to valid UTF-8. -/
def appendString (src : GoString) : GoString :=
  34 :: appendStringLoop src.length src ++ [34]

mutual
/-- The compact JSON text of a value, as the encoder writes it. -/
def JValue.encode : JValue → GoString
  | .null => str "null"
  | .bool true => str "true"
  | .bool false => str "false"
  | .number lit => lit
  | .string s => appendString s
  | .array elems => 91 :: encodeElems elems ++ [93]
  | .object members => 123 :: encodeMembers members ++ [125]
/-- The elements of an array, separated by commas. -/
def encodeElems : List JValue → GoString
  | [] => []
  | v :: vs =>
    match vs with
    | [] => v.encode
    | _ :: _ => v.encode ++ 44 :: encodeElems vs
/-- The members of an object, separated by commas. -/
def encodeMembers : List (GoString × JValue) → GoString
  | [] => []
  | (k, v) :: ms =>
    match ms with
    | [] => appendString k ++ 58 :: v.encode
    | _ :: _ => appendString k ++ 58 :: v.encode ++ 44 :: encodeMembers ms
end

/-! ### Scanning and decoding -/

/-- A failure of the scanner: the message of the `SyntaxError` and the number of bytes of
the input that were not read when it occurred. -/
structure ScanFailure where
  msg : GoString
  remaining : Nat
  deriving DecidableEq, Repr

/-- The function `strconv.IsPrint` on a rune below 256. -/
def isPrintLatin1 (c : Nat) : Bool :=
  (decide (0x20 ≤ c) && decide (c < 0x7F)) || (decide (0xA1 ≤ c) && decide (c ≤ 0xFF) && c != 0xAD)

/-- The function `quoteChar`: byte `c` as a quoted character literal. -/
def quoteChar (c : Nat) : GoString :=
  if c = 39 then [39, 92, 39, 39]
  else if c = 34 then [39, 34, 39]
  else
    let body : GoString :=
      if c = 92 then [92, 92]
      else if isPrintLatin1 c then utf8.EncodeRune c
      else if c = 7 then [92, 97]
      else if c = 8 then [92, 98]
      else if c = 12 then [92, 102]
      else if c = 10 then [92, 110]
      else if c = 13 then [92, 114]
      else if c = 9 then [92, 116]
      else if c = 11 then [92, 118]
      else if c < 0x20 ∨ c = 0x7F then [92, 120, hex (c >>> 4), hex (c &&& 0xF)]
      else [92, 117, 48, 48, hex (c >>> 4), hex (c &&& 0xF)]
    39 :: body ++ [39]

/-- The method `(*scanner).error`: an invalid byte `c`, with `rest` the input behind it. -/
def invalidCharacter (c : Nat) (context : GoString) (rest : GoString) : ScanFailure :=
  { msg := str "invalid character " ++ quoteChar c ++ str " " ++ context,
    remaining := rest.length }

/-- The error of `(*scanner).eof` when the input ends inside a value. -/
def unexpectedEnd : ScanFailure :=
  { msg := str "unexpected end of JSON input", remaining := 0 }

/-- The function `isSpace`. -/
def isSpace (c : Nat) : Bool := c == 32 || c == 9 || c == 13 || c == 10

/-- Skips the white space in front of the next token. -/
def skipSpace : GoString → GoString
  | [] => []
  | c :: cs => if isSpace c then skipSpace cs else c :: cs

/-- The value of a hexadecimal digit. -/
def hexValue (c : Nat) : Option Nat :=
  if 48 ≤ c ∧ c ≤ 57 then some (c - 48)
  else if 97 ≤ c ∧ c ≤ 102 then some (c - 97 + 10)
  else if 65 ≤ c ∧ c ≤ 70 then some (c - 65 + 10)
  else none

/-- The states `stateInStringEscU` to `stateInStringEscU123`: the `n` hexadecimal digits
that are left of a `\u` escape; `acc` is the value of the digits read. The end of the input
counts as a space (see `(*scanner).eof`). -/
def scanHex : Nat → Nat → GoString → Except ScanFailure (Nat × GoString)
  | 0, acc, s => .ok (acc, s)
  | _ + 1, _, [] => .error (invalidCharacter 32 (str "in \\u hexadecimal character escape") [])
  | n + 1, acc, c :: rest =>
    match hexValue c with
    | none => .error (invalidCharacter c (str "in \\u hexadecimal character escape") rest)
    | some d => scanHex n (acc * 16 + d) rest

/-- The function `getu4`: the rune of a `\uXXXX` at the start of `s`, or `none` (the
library returns `-1`). -/
def getu4 (s : GoString) : Option Nat :=
  match s with
  | 92 :: 117 :: h1 :: h2 :: h3 :: h4 :: _ =>
    match hexValue h1, hexValue h2, hexValue h3, hexValue h4 with
    | some d1, some d2, some d3, some d4 => some (((d1 * 16 + d2) * 16 + d3) * 16 + d4)
    | _, _, _, _ => none
  | _ => none

/-- The function `utf16.IsSurrogate`. -/
def isSurrogate (r : Nat) : Bool := decide (0xD800 ≤ r) && decide (r < 0xE000)

/-- The function `utf16.DecodeRune`, with `none` for a missing second half. -/
def utf16DecodeRune (r1 : Nat) (r2 : Option Nat) : Nat :=
  match r2 with
  | some r2 =>
    if 0xD800 ≤ r1 ∧ r1 < 0xDC00 ∧ 0xDC00 ≤ r2 ∧ r2 < 0xE000 then
      (((r1 - 0xD800) <<< 10) ||| (r2 - 0xDC00)) + 0x10000
    else utf8.RuneError
  | none => utf8.RuneError

/-- Puts `pre` in front of the string of a result. -/
def prepend (pre : GoString) :
    Except ScanFailure (GoString × GoString) → Except ScanFailure (GoString × GoString)
  | .error e => .error e
  | .ok (t, rest) => .ok (pre ++ t, rest)

/-- What the scanner and `unquoteBytes` make of the next piece of a string literal: the
closing quote, with the input behind it; a byte, an escape or a multi-byte sequence, with
the bytes it stands for and the input behind it; or an invalid byte. -/
inductive StringStep where
  | done (rest : GoString)
  | emit (bytes rest : GoString)
  | fail (f : ScanFailure)

/-- One piece of a string literal, at byte `c` with `rest` behind it: the states
`stateInString` and `stateInStringEsc` of the scanner together with `unquoteBytes`, which
the decoder applies to the literal it has scanned. (By the time `unquoteBytes` runs the
scanner has accepted the literal, so its failure cases do not arise; it decodes a raw
multi-byte sequence from the bytes of the literal, which gives the same rune as decoding
from the rest of the input, because the closing quote is no continuation byte.) -/
def scanStringStep (c : Nat) (rest : GoString) : StringStep :=
  if c = 34 then .done rest
  else if c = 92 then
    match rest with
    | [] => .fail (invalidCharacter 32 (str "in string escape code") [])
    | e :: rest1 =>
      if e = 34 ∨ e = 92 ∨ e = 47 then .emit [e] rest1
      else if e = 98 then .emit [8] rest1
      else if e = 102 then .emit [12] rest1
      else if e = 110 then .emit [10] rest1
      else if e = 114 then .emit [13] rest1
      else if e = 116 then .emit [9] rest1
      else if e = 117 then
        match scanHex 4 0 rest1 with
        | .error f => .fail f
        | .ok (rr, rest2) =>
          if isSurrogate rr then
            let dec := utf16DecodeRune rr (getu4 rest2)
            if dec ≠ utf8.RuneError then .emit (utf8.EncodeRune dec) (rest2.drop 6)
            else .emit (utf8.EncodeRune utf8.RuneError) rest2
          else .emit (utf8.EncodeRune rr) rest2
      else .fail (invalidCharacter e (str "in string escape code") rest1)
  else if c < 0x20 then .fail (invalidCharacter c (str "in string literal") rest)
  else if c < 0x80 then .emit [c] rest
  else
    let (rr, size) := utf8.DecodeRune (c :: rest)
    .emit (utf8.EncodeRune rr) ((c :: rest).drop size)

/-- A string literal behind its opening quote: the unquoted bytes and the input behind the
closing quote. -/
def scanString : Nat → GoString → Except ScanFailure (GoString × GoString)
  | 0, _ => .error unexpectedEnd
  | _ + 1, [] => .error unexpectedEnd
  | fuel + 1, c :: rest =>
    match scanStringStep c rest with
    | .done rest1 => .ok ([], rest1)
    | .emit bytes rest1 => prepend bytes (scanString fuel rest1)
    | .fail f => .error f

/-- Whether `c` is a decimal digit. -/
def isDigit (c : Nat) : Bool := decide (48 ≤ c) && decide (c ≤ 57)

/-- The longest run of digits at the start of `s`, and what follows it. -/
def spanDigits : GoString → GoString × GoString
  | [] => ([], [])
  | c :: cs =>
    if isDigit c then ((spanDigits cs).1.cons c, (spanDigits cs).2) else ([], c :: cs)

/-- The states `stateE` to `stateE0`: an optional exponent behind the digits `lit`. -/
def scanExponent (lit : GoString) (s : GoString) : Except ScanFailure (GoString × GoString) :=
  match s with
  | e :: rest =>
    if e = 101 ∨ e = 69 then
      let sign : GoString := match rest with
        | c :: _ => if c = 43 ∨ c = 45 then [c] else []
        | [] => []
      let rest1 := rest.drop sign.length
      match rest1 with
      | [] => .error (invalidCharacter 32 (str "in exponent of numeric literal") [])
      | c :: rest2 =>
        if isDigit c then
          .ok (lit ++ e :: sign ++ (spanDigits (c :: rest2)).1, (spanDigits (c :: rest2)).2)
        else .error (invalidCharacter c (str "in exponent of numeric literal") rest2)
    else .ok (lit, s)
  | [] => .ok (lit, [])

/-- The states `state0`, `stateDot` and `stateDot0`: an optional fraction and exponent
behind the integer digits `lit`. -/
def scanFraction (lit : GoString) (s : GoString) : Except ScanFailure (GoString × GoString) :=
  match s with
  | 46 :: rest =>
    match rest with
    | [] => .error (invalidCharacter 32 (str "after decimal point in numeric literal") [])
    | c :: rest1 =>
      if isDigit c then
        scanExponent (lit ++ 46 :: (spanDigits (c :: rest1)).1) (spanDigits (c :: rest1)).2
      else .error (invalidCharacter c (str "after decimal point in numeric literal") rest1)
  | _ => scanExponent lit s

/-- The states `stateNeg`, `state0` and `state1`: the integer digits of a number behind
its sign `lit` (empty or `-`), then the rest of the number. -/
def scanInteger (lit : GoString) (s : GoString) : Except ScanFailure (GoString × GoString) :=
  match s with
  | [] => .error (invalidCharacter 32 (str "in numeric literal") [])
  | c :: rest =>
    if c = 48 then scanFraction (lit ++ [48]) rest
    else if isDigit c then
      scanFraction (lit ++ (spanDigits (c :: rest)).1) (spanDigits (c :: rest)).2
    else .error (invalidCharacter c (str "in numeric literal") rest)

/-- The rest of one of the literals `true`, `false` and `null` behind its first letter:
`word` holds the letters still expected, `name` the literal. -/
def scanLiteral (name : GoString) : GoString → GoString → Except ScanFailure GoString
  | [], s => .ok s
  | w :: _, [] =>
    .error (invalidCharacter 32
      (str "in literal " ++ name ++ str " (expecting " ++ quoteChar w ++ str ")") [])
  | w :: ws, c :: rest =>
    if c = w then scanLiteral name ws rest
    else
      .error (invalidCharacter c
        (str "in literal " ++ name ++ str " (expecting " ++ quoteChar w ++ str ")") rest)

mutual
/-- One JSON value at the start of `s` (behind optional white space), with the input that
follows it. `depth` is the number of arrays and objects that are open, `fuel` bounds the
number of steps. -/
def scanValue : Nat → Nat → GoString → Except ScanFailure (JValue × GoString)
  | 0, _, _ => .error unexpectedEnd
  | fuel + 1, depth, s =>
    match skipSpace s with
    | [] => .error unexpectedEnd
    | c :: rest =>
      if c = 123 then
        if depth + 1 > maxNestingDepth then
          .error (invalidCharacter c (str "exceeded max depth") rest)
        else
          match skipSpace rest with
          | [] => .error unexpectedEnd
          | c1 :: rest1 =>
            if c1 = 125 then .ok (.object [], rest1)
            else
              match scanMembers fuel (depth + 1) (c1 :: rest1) with
              | .error f => .error f
              | .ok (ms, rest2) => .ok (.object ms, rest2)
      else if c = 91 then
        if depth + 1 > maxNestingDepth then
          .error (invalidCharacter c (str "exceeded max depth") rest)
        else
          match skipSpace rest with
          | [] => .error unexpectedEnd
          | c1 :: rest1 =>
            if c1 = 93 then .ok (.array [], rest1)
            else
              match scanElems fuel (depth + 1) (c1 :: rest1) with
              | .error f => .error f
              | .ok (es, rest2) => .ok (.array es, rest2)
      else if c = 34 then
        match scanString rest.length rest with
        | .error f => .error f
        | .ok (t, rest1) => .ok (.string t, rest1)
      else if c = 45 then
        match scanInteger [45] rest with
        | .error f => .error f
        | .ok (lit, rest1) => .ok (.number lit, rest1)
      else if isDigit c then
        match scanInteger [] (c :: rest) with
        | .error f => .error f
        | .ok (lit, rest1) => .ok (.number lit, rest1)
      else if c = 116 then
        match scanLiteral (str "true") (str "rue") rest with
        | .error f => .error f
        | .ok rest1 => .ok (.bool true, rest1)
      else if c = 102 then
        match scanLiteral (str "false") (str "alse") rest with
        | .error f => .error f
        | .ok rest1 => .ok (.bool false, rest1)
      else if c = 110 then
        match scanLiteral (str "null") (str "ull") rest with
        | .error f => .error f
        | .ok rest1 => .ok (.null, rest1)
      else .error (invalidCharacter c (str "looking for beginning of value") rest)
/-- The elements of a non-empty array behind its `[`, up to and including the `]`. -/
def scanElems : Nat → Nat → GoString → Except ScanFailure (List JValue × GoString)
  | 0, _, _ => .error unexpectedEnd
  | fuel + 1, depth, s =>
    match scanValue fuel depth s with
    | .error f => .error f
    | .ok (v, rest) =>
      match skipSpace rest with
      | [] => .error unexpectedEnd
      | c :: rest1 =>
        if c = 44 then
          match scanElems fuel depth rest1 with
          | .error f => .error f
          | .ok (vs, rest2) => .ok (v :: vs, rest2)
        else if c = 93 then .ok ([v], rest1)
        else .error (invalidCharacter c (str "after array element") rest1)
/-- The members of a non-empty object behind its `{`, up to and including the `}`. -/
def scanMembers : Nat → Nat → GoString →
    Except ScanFailure (List (GoString × JValue) × GoString)
  | 0, _, _ => .error unexpectedEnd
  | fuel + 1, depth, s =>
    match skipSpace s with
    | [] => .error unexpectedEnd
    | q :: rest =>
      if q ≠ 34 then
        .error (invalidCharacter q (str "looking for beginning of object key string") rest)
      else
        match scanString rest.length rest with
        | .error f => .error f
        | .ok (key, rest1) =>
          match skipSpace rest1 with
          | [] => .error unexpectedEnd
          | c :: rest2 =>
            if c ≠ 58 then .error (invalidCharacter c (str "after object key") rest2)
            else
              match scanValue fuel depth rest2 with
              | .error f => .error f
              | .ok (v, rest3) =>
                match skipSpace rest3 with
                | [] => .error unexpectedEnd
                | c1 :: rest4 =>
                  if c1 = 44 then
                    match scanMembers fuel depth rest4 with
                    | .error f => .error f
                    | .ok (ms, rest5) => .ok ((key, v) :: ms, rest5)
                  else if c1 = 125 then .ok ([(key, v)], rest4)
                  else .error (invalidCharacter c1 (str "after object key:value pair") rest4)
end

/-- The function `checkValid` together with the reading of the text by the decoder: the
value that `data` holds, or the `SyntaxError` of the scanner. (Two steps for each byte and
two more are enough for every text: a step reads a byte or is followed by one that does.) -/
def parse (data : GoString) : Except Error JValue :=
  match scanValue (2 * data.length + 2) 0 data with
  | .error f => .error (.SyntaxError f.msg (data.length - f.remaining))
  | .ok (v, rest) =>
    match skipSpace rest with
    | [] => .ok v
    | c :: rest1 =>
      .error (.SyntaxError (invalidCharacter c (str "after top-level value") rest1).msg
        (data.length - rest1.length))

/-- The input behind a value in a text that the encoder has written: a comma, a closing
bracket or brace, or the newline at the end. -/
def Terminated (rest : GoString) : Prop :=
  ∃ c t, rest = c :: t ∧ (c = 44 ∨ c = 93 ∨ c = 125 ∨ c = 10)

/-- A number literal of the JSON grammar: an optional `-`, then `0` or a digit from `1` to
`9` followed by digits, then an optional `.` with one or more digits, then an optional `e`
or `E` with an optional sign and one or more digits. -/
def NumberLit (lit : GoString) : Prop :=
  ∃ sign int frac exp : GoString, lit = sign ++ int ++ frac ++ exp ∧
    (sign = [] ∨ sign = [45]) ∧
    (int = [48] ∨ ∃ c ds, int = c :: ds ∧ 49 ≤ c ∧ c ≤ 57 ∧ ∀ d ∈ ds, isDigit d = true) ∧
    (frac = [] ∨ ∃ d ds, frac = 46 :: d :: ds ∧ isDigit d = true ∧ ∀ x ∈ ds, isDigit x = true) ∧
    (exp = [] ∨ ∃ e sg d ds, exp = e :: sg ++ d :: ds ∧ (e = 101 ∨ e = 69) ∧
      (sg = [] ∨ sg = [43] ∨ sg = [45]) ∧ isDigit d = true ∧ ∀ x ∈ ds, isDigit x = true)

mutual
/-- A value is normal when its strings and the keys of its objects are valid UTF-8 and its
numbers are number literals: the values that the encoder writes without changing them. -/
def JValue.Normal : JValue → Prop
  | .null => True
  | .bool _ => True
  | .number lit => NumberLit lit
  | .string s => utf8.ValidString s = true
  | .array elems => normalElems elems
  | .object members => normalMembers members
/-- All elements are normal. -/
def normalElems : List JValue → Prop
  | [] => True
  | v :: vs => v.Normal ∧ normalElems vs
/-- All keys are valid UTF-8 and all values are normal. -/
def normalMembers : List (GoString × JValue) → Prop
  | [] => True
  | (k, v) :: ms => utf8.ValidString k = true ∧ v.Normal ∧ normalMembers ms
end

mutual
/-- The nesting depth of a value: the number of arrays and objects inside each other. -/
def JValue.depth : JValue → Nat
  | .array elems => 1 + depthElems elems
  | .object members => 1 + depthMembers members
  | _ => 0
/-- The greatest depth of an element. -/
def depthElems : List JValue → Nat
  | [] => 0
  | v :: vs => max v.depth (depthElems vs)
/-- The greatest depth of the value of a member. -/
def depthMembers : List (GoString × JValue) → Nat
  | [] => 0
  | (_, v) :: ms => max v.depth (depthMembers ms)
end

mutual
/-- The number of values, elements and members of a value: a bound for the number of steps
in which the scanner reads it. -/
def JValue.size : JValue → Nat
  | .array elems => 1 + sizeElems elems
  | .object members => 1 + sizeMembers members
  | _ => 1
/-- The size of the elements of an array. -/
def sizeElems : List JValue → Nat
  | [] => 0
  | v :: vs => 1 + v.size + sizeElems vs
/-- The size of the members of an object. -/
def sizeMembers : List (GoString × JValue) → Nat
  | [] => 0
  | (_, v) :: ms => 1 + v.size + sizeMembers ms
end

/-- The name of the kind of a JSON value in an `UnmarshalTypeError`. -/
def JValue.kind : JValue → GoString
  | .null => str "null"
  | .bool _ => str "bool"
  | .number _ => str "number"
  | .string _ => str "string"
  | .array _ => str "array"
  | .object _ => str "object"

/-- The function `foldRune` as far as it matters for names of ASCII letters: the smallest
rune of the fold orbit of `r`. The only runes outside ASCII whose orbit holds an ASCII
letter are U+017F (with `S`, `s`) and U+212A (with `K`, `k`); every other rune outside
ASCII folds to a rune outside ASCII and stands for itself here. -/
def foldRune (r : Nat) : Nat :=
  if r = 0x17F then 83 else if r = 0x212A then 75 else r

/-- The function `appendFoldedName` (and `foldName`): the name with its letters folded. -/
def foldName : Nat → GoString → GoString
  | 0, _ => []
  | _, [] => []
  | fuel + 1, c :: rest =>
    if c < 0x80 then (if 97 ≤ c ∧ c ≤ 122 then c - 32 else c) :: foldName fuel rest
    else
      let (r, n) := utf8.DecodeRune (c :: rest)
      utf8.EncodeRune (foldRune r) ++ foldName fuel ((c :: rest).drop n)

/-- The lookup of an object key among the JSON names of the fields of a struct: the field
with exactly that name, else the first field whose name is equal to it under folding. -/
def findField (names : List GoString) (key : GoString) : Option Nat :=
  match names.indexOf? key with
  | some i => some i
  | none => (names.map (fun n => foldName n.length n)).indexOf? (foldName key.length key)

/-- The decoding of a JSON value into a Go `string` variable that holds `cur`: `null`
leaves it, a string sets it, anything else is an `UnmarshalTypeError`. `strct` and
`field` are the error context. -/
def decodeString (strct field : GoString) (v : JValue) (cur : GoString) :
    GoString × Option Error :=
  match v with
  | .null => (cur, none)
  | .string s => (s, none)
  | v => (cur, some (.UnmarshalTypeError v.kind (str "string") strct field))

/-- The first error wins (`(*decodeState).saveError`). -/
def saveError (saved new : Option Error) : Option Error :=
  match saved with
  | some e => some e
  | none => new

end json

/-- The type `syscall.Errno`: the number of an operating-system error. -/
abbrev Errno := Nat

/-- The error number `ENOENT`, "no such file or directory". -/
def ENOENT : Errno := 2

/-- The error number `ENOTDIR`, "not a directory". -/
def ENOTDIR : Errno := 20

/-- The method `Error()` of `syscall.Errno`: the text of the common error numbers of the
table `errors` (Linux), `"errno N"` for a number without an entry. -/
def Errno.Error (e : Errno) : GoString :=
  if e = 1 then str "operation not permitted"
  else if e = 2 then str "no such file or directory"
  else if e = 5 then str "input/output error"
  else if e = 13 then str "permission denied"
  else if e = 17 then str "file exists"
  else if e = 20 then str "not a directory"
  else if e = 21 then str "is a directory"
  else if e = 22 then str "invalid argument"
  else if e = 28 then str "no space left on device"
  else if e = 30 then str "read-only file system"
  else if e = 36 then str "file name too long"
  else str "errno " ++ str (toString e)

/-- The values of the interface `error` that the functions of `config.go` return:
a `*fs.PathError` of package `os`, an error of `encoding/json`, and the `*fmt.wrapError`
that `fmt.Errorf` builds for a format with `%w`. -/
inductive GoError where
  | PathError (Op Path : GoString) (Err : Errno)
  | json (err : json.Error)
  | wrapError (msg : GoString) (err : GoError)
  deriving DecidableEq, Repr

/-- The method `Error()`: the message of an error. -/
def GoError.Error : GoError → GoString
  | .PathError op path err => op ++ str " " ++ path ++ str ": " ++ Errno.Error err
  | .json err => err.Error
  | .wrapError msg _ => msg

/-- The method `Unwrap()`: the error that an error wraps (`nil` for an error of
`encoding/json`; the error number of a `PathError` is not an error of this type). -/
def GoError.Unwrap : GoError → Option GoError
  | .wrapError _ err => some err
  | _ => none

namespace path

/-- The inner loop of the `..` case of `Clean`: the write index `w` moves back while it is
beyond `dotdot` and the byte at `w` is not a slash. -/
def backtrack (out : GoString) (dotdot : Nat) : Nat → Nat
  | 0 => 0
  | w + 1 => if w + 1 > dotdot ∧ out.getD (w + 1) 0 ≠ 47 then backtrack out dotdot w else w + 1

/-- The loop of `path.Clean`: `rest` is the unread part of the path, `out` the buffer
written so far, `dotdot` the index where a `..` must stop. -/
def cleanLoop (rooted : Bool) : Nat → GoString → GoString → Nat → GoString
  | 0, _, out, _ => out
  | _ + 1, [], out, _ => out
  | fuel + 1, c :: rest, out, dotdot =>
    if c = 47 then
      -- empty path element
      cleanLoop rooted fuel rest out dotdot
    else if c = 46 ∧ (rest = [] ∨ rest.head? = some 47) then
      -- . element
      cleanLoop rooted fuel rest out dotdot
    else if c = 46 ∧ rest.head? = some 46 ∧ (rest.tail = [] ∨ rest.tail.head? = some 47) then
      -- .. element: remove to last /
      if out.length > dotdot then
        cleanLoop rooted fuel rest.tail (out.take (backtrack out dotdot (out.length - 1))) dotdot
      else if !rooted then
        let out1 := (if out.length > 0 then out ++ [47] else out) ++ [46, 46]
        cleanLoop rooted fuel rest.tail out1 out1.length
      else cleanLoop rooted fuel rest.tail out dotdot
    else
      -- real path element: add slash if needed, copy element
      let out1 :=
        if (rooted ∧ out.length ≠ 1) ∨ (!rooted ∧ out.length ≠ 0) then out ++ [47] else out
      cleanLoop rooted fuel ((c :: rest).dropWhile (fun b => b != 47))
        (out1 ++ (c :: rest).takeWhile (fun b => b != 47)) dotdot

/-- The function `path.Clean`: the shortest path name equivalent to `path` by purely
lexical processing. -/
def Clean (path : GoString) : GoString :=
  if path = [] then [46]
  else
    let rooted := path.head? == some 47
    let out :=
      if rooted then cleanLoop true path.length (path.drop 1) [47] 1
      else cleanLoop false path.length path [] 0
    if out = [] then [46] else out

/-- The function `path.Dir`: all but the last element of `path`, cleaned. -/
def Dir (path : GoString) : GoString :=
  Clean (path.take (strings.LastIndex path [47] + 1).toNat)

end path

namespace os

/-- Why `os.ReadFile` fails on a name for another reason than the plain absence of the
file: the system call that is refused, `open` or `read`, and the error number. -/
inductive ReadFault where
  /-- The file cannot be opened: a component of the name is not a directory (`ENOTDIR`), a
  directory may not be searched (`EACCES`), ... -/
  | atOpen (errno : Errno)
  /-- The name is opened but cannot be read: it is a directory (`EISDIR`), the device
  fails (`EIO`), ... -/
  | atRead (errno : Errno)
  deriving DecidableEq, Repr

/-- The field `Op` of the `PathError` of a refused system call. -/
def ReadFault.Op : ReadFault → GoString
  | .atOpen _ => str "open"
  | .atRead _ => str "read"

/-- The field `Err` of the `PathError` of a refused system call. -/
def ReadFault.Err : ReadFault → Errno
  | .atOpen errno => errno
  | .atRead errno => errno

/-- The state of the file system as far as `config.go` observes it: the contents of the
regular files by name, and, for each operation and name, the error number with which the
operating system refuses it, if it does (permissions, a directory in place of a file, a
full device, ...). Directories are not tracked. -/
structure FileSystem where
  /-- The content of the regular file of that name, if there is one. -/
  files : GoString → Option GoString
  /-- The failure of `MkdirAll` for that directory, if it fails: the name that the error
  carries (the directory or the ancestor that cannot be made) and the error number. -/
  mkdirAllErr : GoString → Option (GoString × Errno)
  /-- The failure of creating or truncating the file of that name, if it fails. -/
  createErr : GoString → Option Errno
  /-- The failure of writing to the file of that name, if it fails, together with the
  number of bytes written before. -/
  writeErr : GoString → Option (Errno × Nat)
  /-- The failure of opening or reading the file of that name, if it fails for another
  reason than the absence of the file. -/
  readErr : GoString → Option ReadFault

/-- The function `os.IsNotExist`: whether the error reports that a file or directory does
not exist. It looks into a `PathError`, not into an error wrapped by `fmt.Errorf`. -/
def IsNotExist (err : GoError) : Bool :=
  match err with
  | .PathError _ _ errno => errno == ENOENT
  | _ => false

/-- The function `os.ReadFile`: opens the named file and reads it to the end. A name at
which nothing is found cannot be opened (`ENOENT`). -/
def ReadFile (fs : FileSystem) (name : GoString) : Except GoError GoString :=
  match fs.readErr name with
  | some fault => .error (.PathError fault.Op name fault.Err)
  | none =>
    match fs.files name with
    | some content => .ok content
    | none => .error (.PathError (str "open") name ENOENT)

/-- The function `os.MkdirAll`. Directories are not part of the state, so a successful
call leaves it as it is. -/
def MkdirAll (fs : FileSystem) (path : GoString) (_perm : Nat) : Option GoError :=
  match fs.mkdirAllErr path with
  | some (name, errno) => some (.PathError (str "mkdir") name errno)
  | none => none

/-- The function `os.Create`: creates or truncates the named file. The file it returns is
identified by its name. -/
def Create (fs : FileSystem) (name : GoString) : Except GoError FileSystem :=
  match fs.createErr name with
  | some errno => .error (.PathError (str "open") name errno)
  | none => .ok { fs with files := fun n => if n = name then some [] else fs.files n }

/-- The method `(*File).Write` on a file that `Create` has just returned: appends `b` to
the file, or a part of `b` when the write fails. -/
def Write (fs : FileSystem) (name : GoString) (b : GoString) : FileSystem × Option GoError :=
  match fs.writeErr name with
  | some (errno, n) =>
    ({ fs with files := fun f =>
        if f = name then some ((fs.files name).getD [] ++ b.take n) else fs.files f },
     some (.PathError (str "write") name errno))
  | none =>
    ({ fs with files := fun f =>
        if f = name then some ((fs.files name).getD [] ++ b) else fs.files f },
     none)

end os

/-- A Go map with string keys: `none` is the `nil` map, `some es` a map holding the
entries `es` (kept in increasing order of the keys, see `GoMap.WF`). -/
abbrev GoMap (V : Type) := Option (List (GoString × V))

/-- The comma-ok lookup `v, ok := m[k]`; a `nil` map has no entries. -/
def GoMap.lookup {V : Type} (m : GoMap V) (k : GoString) : Option V :=
  match m with
  | none => none
  | some es => (es.find? (fun e => e.1 == k)).map Prod.snd

/-- The index expression `m[k]` of a map of pointers: the zero value `nil` when `k` is
not a key of `m`. -/
def GoMap.index {V : Type} (m : GoMap (Option V)) (k : GoString) : Option V :=
  (m.lookup k).getD none

/-- The keys of a map. -/
def GoMap.keys {V : Type} (m : GoMap V) : List GoString :=
  match m with
  | none => []
  | some es => es.map Prod.fst

/-- The assignment `m[k] = v` on the entries of a map: replaces the entry of `k` or puts a
new one in its place in the order of the keys. -/
def GoMap.insertEntry {V : Type} (k : GoString) (v : V) :
    List (GoString × V) → List (GoString × V)
  | [] => [(k, v)]
  | (k0, v0) :: es =>
    if k = k0 then (k, v) :: es
    else if strings.Less k k0 then (k, v) :: (k0, v0) :: es
    else (k0, v0) :: GoMap.insertEntry k v es

/-- The entries of a map are well-formed when their keys increase strictly: no key occurs
twice, and the entries stand in the order in which `encoding/json` writes them. -/
def GoMap.WF {V : Type} (m : GoMap V) : Prop :=
  match m with
  | none => True
  | some es => (es.map Prod.fst).Pairwise (fun a b => strings.Less a b = true)

/-- `l` has `sub` at index `i`: the Go expression `l[i:i+len(sub)] == sub` is in bounds and
true. -/
def OccursAt (l sub : GoString) (i : Nat) : Prop := sub <+: l.drop i

instance (l sub : GoString) (i : Nat) : Decidable (OccursAt l sub i) := by
  unfold OccursAt; infer_instance

namespace config

/-- The type `ServerConfig`: the config for each server the user has set up. `EC` and `KC`
stand for the types `ExecCredential` and `api.Config`, which this file only stores. -/
structure ServerConfig (EC KC : Type) where
  AccessKey : GoString := []
  SecretKey : GoString := []
  TokenKey : GoString := []
  URL : GoString := []
  Project : GoString := []
  CACerts : GoString := []
  KubeCredentials : GoMap (Option EC) := none
  KubeConfigs : GoMap (Option KC) := none
  deriving DecidableEq, Repr

/-- The type `Config`: the main config for the user. -/
structure Config (EC KC : Type) where
  Servers : GoMap (Option (ServerConfig EC KC)) := none
  Path : GoString := []
  CurrentServer : GoString := []
  deriving DecidableEq, Repr

/-- The method `FocusedServer`: `c.Servers[c.CurrentServer]`. -/
def Config.FocusedServer {EC KC : Type} (c : Config EC KC) : Option (ServerConfig EC KC) :=
  c.Servers.index c.CurrentServer

/-- The method `FocusedCluster`: `strings.Split(c.Project, ":")[0]`; `none` if the index is
out of range (a run-time panic). -/
def ServerConfig.FocusedCluster {EC KC : Type} (c : ServerConfig EC KC) : Option GoString :=
  (strings.Split c.Project (str ":"))[0]?

/-- The method `KubeToken`: `c.KubeCredentials[key]`. -/
def ServerConfig.KubeToken {EC KC : Type} (c : ServerConfig EC KC) (key : GoString) : Option EC :=
  c.KubeCredentials.index key

/-- The function `baseURL`. -/
def baseURL (fullURL : GoString) : GoString × Option url.Error :=
  let idx := strings.LastIndex fullURL (str "/v3")
  if idx = -1 then
    match url.Parse fullURL with
    | .error err => ([], some err)
    | .ok u =>
      let newURL : url.URL := { Scheme := u.Scheme, Host := u.Host }
      (newURL.String, none)
  else (fullURL.take idx.toNat, none)

/-- The method `EnvironmentURL`. -/
def ServerConfig.EnvironmentURL {EC KC : Type} (c : ServerConfig EC KC) :
    GoString × Option url.Error :=
  match baseURL c.URL with
  | (_, some err) => ([], some err)
  | (url, none) => (url, none)

/-! ### Encoding and decoding of the configuration

`encoding/json` works by reflection on the types `Config` and `ServerConfig`; what it does
for these two types is written out here. The types `ExecCredential` and `api.Config` are
not part of this file: how their values are encoded and decoded is a parameter, a `Codec`.
-/

/-- The JSON form of a type that `config.go` only stores: `marshal` is what the encoder
writes for a value (or the error with which it fails), `unmarshal` is the value that the
decoder builds from a JSON value other than `null`, starting from the zero value, and the
error it has saved; `typeName` is the name of the type in messages. -/
structure Codec (α : Type) where
  marshal : α → Except json.Error json.JValue
  unmarshal : json.JValue → α × Option json.Error
  typeName : GoString

/-- The encoding of a pointer: `null` for `nil`. -/
def marshalPtr {α : Type} (enc : α → Except json.Error json.JValue) :
    Option α → Except json.Error json.JValue
  | none => .ok .null
  | some x => enc x

/-- The encoding of the entries of a map, in the order of the keys. -/
def marshalEntries {α : Type} (enc : α → Except json.Error json.JValue) :
    List (GoString × Option α) → Except json.Error (List (GoString × json.JValue))
  | [] => .ok []
  | (k, v) :: es =>
    match marshalPtr enc v with
    | .error e => .error e
    | .ok j =>
      match marshalEntries enc es with
      | .error e => .error e
      | .ok js => .ok ((k, j) :: js)

/-- The encoding of a map of pointers: `null` for a `nil` map, else an object with one
member for each key, in the order of the keys. -/
def marshalMap {α : Type} (enc : α → Except json.Error json.JValue) (m : GoMap (Option α)) :
    Except json.Error json.JValue :=
  match m with
  | none => .ok .null
  | some es =>
    match marshalEntries enc es with
    | .error e => .error e
    | .ok js => .ok (.object js)

/-- The encoding of a `ServerConfig`: an object with the eight fields under the names of
their `json` tags. -/
def ServerConfig.marshal {EC KC : Type} (ec : Codec EC) (kc : Codec KC)
    (c : ServerConfig EC KC) : Except json.Error json.JValue :=
  match marshalMap ec.marshal c.KubeCredentials with
  | .error e => .error e
  | .ok creds =>
    match marshalMap kc.marshal c.KubeConfigs with
    | .error e => .error e
    | .ok configs =>
      .ok (.object [
        (str "accessKey", .string c.AccessKey),
        (str "secretKey", .string c.SecretKey),
        (str "tokenKey", .string c.TokenKey),
        (str "url", .string c.URL),
        (str "project", .string c.Project),
        (str "cacert", .string c.CACerts),
        (str "kubeCredentials", creds),
        (str "kubeConfigs", configs)])

/-- The encoding of a `Config`: an object with the fields `Servers`, `path` (left out
when it is empty: `omitempty`) and `CurrentServer`. -/
def Config.marshal {EC KC : Type} (ec : Codec EC) (kc : Codec KC) (c : Config EC KC) :
    Except json.Error json.JValue :=
  match marshalMap (ServerConfig.marshal ec kc) c.Servers with
  | .error e => .error e
  | .ok servers =>
    .ok (.object ([(str "Servers", servers)] ++
      (if c.Path = [] then [] else [(str "path", .string c.Path)]) ++
      [(str "CurrentServer", .string c.CurrentServer)]))

/-- The decoding of a JSON value into a pointer that is an element of a map: `null` gives
`nil`, another value a pointer to a new variable into which the value is decoded. -/
def unmarshalPtr {α : Type} (dec : json.JValue → α × Option json.Error) (v : json.JValue) :
    Option α × Option json.Error :=
  match v with
  | .null => (none, none)
  | v => (some (dec v).1, (dec v).2)

/-- The decoding of the members of an object into the entries of a map: each member is
decoded into a new element that is then stored under its key. -/
def unmarshalEntries {α : Type} (dec : json.JValue → α × Option json.Error) :
    List (GoString × json.JValue) → List (GoString × Option α) →
    List (GoString × Option α) × Option json.Error
  | [], es => (es, none)
  | (k, v) :: ms, es =>
    let r := unmarshalEntries dec ms (GoMap.insertEntry k (unmarshalPtr dec v).1 es)
    (r.1, json.saveError (unmarshalPtr dec v).2 r.2)

/-- The decoding of a JSON value into a map of pointers that holds `cur`: `null` makes the
map `nil`, an object adds its members to the map (a `nil` map is made first), anything else
is an `UnmarshalTypeError`. -/
def unmarshalMap {α : Type} (typeName strct field : GoString)
    (dec : json.JValue → α × Option json.Error) (v : json.JValue) (cur : GoMap (Option α)) :
    GoMap (Option α) × Option json.Error :=
  match v with
  | .null => (none, none)
  | .object ms =>
    let r := unmarshalEntries dec ms (cur.getD [])
    (some r.1, r.2)
  | v => (cur, some (.UnmarshalTypeError v.kind (str "map[string]*" ++ typeName) strct field))

/-- The JSON names of the fields of `ServerConfig`, in the order of the fields. -/
def serverConfigFields : List GoString :=
  [str "accessKey", str "secretKey", str "tokenKey", str "url", str "project", str "cacert",
    str "kubeCredentials", str "kubeConfigs"]

/-- The JSON names of the fields of `Config`, in the order of the fields. -/
def configFields : List GoString := [str "Servers", str "path", str "CurrentServer"]

/-- The decoding of one member of an object into the field of a `ServerConfig` that its
key names; a key that names no field is skipped. `stack` is the field stack of the error
context in front of the field. -/
def ServerConfig.unmarshalField {EC KC : Type} (ec : Codec EC) (kc : Codec KC)
    (stack : GoString) (key : GoString) (v : json.JValue) (c : ServerConfig EC KC) :
    ServerConfig EC KC × Option json.Error :=
  match json.findField serverConfigFields key with
  | some 0 =>
    let r := json.decodeString (str "ServerConfig") (stack ++ str "accessKey") v c.AccessKey
    ({ c with AccessKey := r.1 }, r.2)
  | some 1 =>
    let r := json.decodeString (str "ServerConfig") (stack ++ str "secretKey") v c.SecretKey
    ({ c with SecretKey := r.1 }, r.2)
  | some 2 =>
    let r := json.decodeString (str "ServerConfig") (stack ++ str "tokenKey") v c.TokenKey
    ({ c with TokenKey := r.1 }, r.2)
  | some 3 =>
    let r := json.decodeString (str "ServerConfig") (stack ++ str "url") v c.URL
    ({ c with URL := r.1 }, r.2)
  | some 4 =>
    let r := json.decodeString (str "ServerConfig") (stack ++ str "project") v c.Project
    ({ c with Project := r.1 }, r.2)
  | some 5 =>
    let r := json.decodeString (str "ServerConfig") (stack ++ str "cacert") v c.CACerts
    ({ c with CACerts := r.1 }, r.2)
  | some 6 =>
    let r := unmarshalMap (str "config." ++ ec.typeName) (str "ServerConfig")
      (stack ++ str "kubeCredentials") ec.unmarshal v c.KubeCredentials
    ({ c with KubeCredentials := r.1 }, r.2)
  | some 7 =>
    let r := unmarshalMap kc.typeName (str "ServerConfig")
      (stack ++ str "kubeConfigs") kc.unmarshal v c.KubeConfigs
    ({ c with KubeConfigs := r.1 }, r.2)
  | _ => (c, none)

/-- The decoding of the members of an object into a `ServerConfig`, one after the other. -/
def ServerConfig.unmarshalFields {EC KC : Type} (ec : Codec EC) (kc : Codec KC)
    (stack : GoString) :
    List (GoString × json.JValue) → ServerConfig EC KC → ServerConfig EC KC × Option json.Error
  | [], c => (c, none)
  | (k, v) :: ms, c =>
    let r := ServerConfig.unmarshalFields ec kc stack ms
      (ServerConfig.unmarshalField ec kc stack k v c).1
    (r.1, json.saveError (ServerConfig.unmarshalField ec kc stack k v c).2 r.2)

/-- The decoding of a JSON value into a `ServerConfig` variable that holds `c`: `null`
leaves it, an object sets the fields that its members name, anything else is an
`UnmarshalTypeError`. `strct` and `field` are the error context of the variable. -/
def ServerConfig.unmarshal {EC KC : Type} (ec : Codec EC) (kc : Codec KC)
    (strct field : GoString) (v : json.JValue) (c : ServerConfig EC KC) :
    ServerConfig EC KC × Option json.Error :=
  match v with
  | .null => (c, none)
  | .object ms => ServerConfig.unmarshalFields ec kc (field ++ str ".") ms c
  | v => (c, some (.UnmarshalTypeError v.kind (str "config.ServerConfig") strct field))

/-- The decoding of one member of an object into the field of a `Config` that its key
names; a key that names no field is skipped. -/
def Config.unmarshalField {EC KC : Type} (ec : Codec EC) (kc : Codec KC)
    (key : GoString) (v : json.JValue) (c : Config EC KC) : Config EC KC × Option json.Error :=
  match json.findField configFields key with
  | some 0 =>
    let r := unmarshalMap (str "config.ServerConfig") (str "Config") (str "Servers")
      (fun j => ServerConfig.unmarshal ec kc (str "Config") (str "Servers") j {}) v c.Servers
    ({ c with Servers := r.1 }, r.2)
  | some 1 =>
    let r := json.decodeString (str "Config") (str "path") v c.Path
    ({ c with Path := r.1 }, r.2)
  | some 2 =>
    let r := json.decodeString (str "Config") (str "CurrentServer") v c.CurrentServer
    ({ c with CurrentServer := r.1 }, r.2)
  | _ => (c, none)

/-- The decoding of the members of an object into a `Config`, one after the other. -/
def Config.unmarshalFields {EC KC : Type} (ec : Codec EC) (kc : Codec KC) :
    List (GoString × json.JValue) → Config EC KC → Config EC KC × Option json.Error
  | [], c => (c, none)
  | (k, v) :: ms, c =>
    let r := Config.unmarshalFields ec kc ms (Config.unmarshalField ec kc k v c).1
    (r.1, json.saveError (Config.unmarshalField ec kc k v c).2 r.2)

/-- The decoding of a JSON value into a `Config` variable that holds `c`. -/
def Config.unmarshal {EC KC : Type} (ec : Codec EC) (kc : Codec KC)
    (v : json.JValue) (c : Config EC KC) : Config EC KC × Option json.Error :=
  match v with
  | .null => (c, none)
  | .object ms => Config.unmarshalFields ec kc ms c
  | v => (c, some (.UnmarshalTypeError v.kind (str "config.Config") [] []))

/-- The call `json.Unmarshal(data, &cf)` for a `Config` variable that holds `cf`: the
variable after the call and the error. A text that is not valid JSON leaves the variable
as it is; an error of a value that does not fit its field is saved and returned at the end,
the other fields are decoded all the same. -/
def Unmarshal {EC KC : Type} (ec : Codec EC) (kc : Codec KC) (data : GoString)
    (cf : Config EC KC) : Config EC KC × Option json.Error :=
  match json.parse data with
  | .error e => (cf, some e)
  | .ok v => Config.unmarshal ec kc v cf

/-- A JSON value that a Go `string` variable takes without error: `null` or a string. -/
def fitsString : json.JValue → Bool
  | .null => true
  | .string _ => true
  | _ => false

/-- A JSON value that a map of pointers takes without error: `null`, or an object each of
whose values is `null` or is taken by the type of the elements. -/
def fitsMap (fitsElem : json.JValue → Bool) : json.JValue → Bool
  | .null => true
  | .object ms =>
    ms.all (fun m =>
      match m.2 with
      | .null => true
      | v => fitsElem v)
  | _ => false

/-- Whether the value of a member of a server object fits the field that the key names,
if it names one (exactly, or else without regard to case): a string or `null` for the six
string fields, a map of stored values for `kubeCredentials` and `kubeConfigs`. A member
whose key names no field fits whatever its value. -/
def ServerConfig.fitsField {EC KC : Type} (ec : Codec EC) (kc : Codec KC)
    (key : GoString) (v : json.JValue) : Bool :=
  match json.findField serverConfigFields key with
  | none => true
  | some i =>
    if i < 6 then fitsString v
    else if i = 6 then fitsMap (fun j => (ec.unmarshal j).2.isNone) v
    else if i = 7 then fitsMap (fun j => (kc.unmarshal j).2.isNone) v
    else true

/-- The shape of a server entry: `null`, or an object whose members fit their fields. -/
def ServerConfig.Fits {EC KC : Type} (ec : Codec EC) (kc : Codec KC) : json.JValue → Bool
  | .null => true
  | .object ms => ms.all (fun m => ServerConfig.fitsField ec kc m.1 m.2)
  | _ => false

/-- Whether the value of a member of the top-level object fits the field that the key
names, if it names one: a map of server entries for `Servers`, a string or `null` for
`path` and `CurrentServer`. -/
def Config.fitsField {EC KC : Type} (ec : Codec EC) (kc : Codec KC)
    (key : GoString) (v : json.JValue) : Bool :=
  match json.findField configFields key with
  | none => true
  | some i =>
    if i = 0 then fitsMap (ServerConfig.Fits ec kc) v
    else if i < 3 then fitsString v
    else true

/-- The shape of a configuration file: `null`, or an object whose members fit their
fields. Keys that name no field, fields without a member and members in any order or
number all fit. -/
def Config.Fits {EC KC : Type} (ec : Codec EC) (kc : Codec KC) : json.JValue → Bool
  | .null => true
  | .object ms => ms.all (fun m => Config.fitsField ec kc m.1 m.2)
  | _ => false

/-- The function `LoadFromPath`: attempts to load a config from the given file path. If the
file doesn't exist, an empty config is returned. -/
def LoadFromPath {EC KC : Type} (ec : Codec EC) (kc : Codec KC) (fs : os.FileSystem)
    (path : GoString) : Config EC KC × Option GoError :=
  let cf : Config EC KC := { Path := path, Servers := some [] }
  match os.ReadFile fs path with
  | .error err =>
    -- it's okay if the file is empty, we still return a valid config
    if os.IsNotExist err then (cf, none) else (cf, some err)
  | .ok content =>
    match Unmarshal ec kc content cf with
    | (cf, some err) =>
      (cf, some (.wrapError (str "unmarshaling " ++ path ++ str ": " ++ err.Error) (.json err)))
    | (cf, none) => ({ cf with Path := path }, none)

/-- What a call `c.Write()` leaves behind: the error it returns, the file system, the
lines it has logged, and the value of its receiver variable when it returns. The receiver
is a copy of the caller's `Config` (a value receiver), so the caller's variable keeps the
value it had. -/
structure WriteResult (EC KC : Type) where
  err : Option GoError
  fs : os.FileSystem
  logged : List GoString
  receiver : Config EC KC

/-- The method `Write`. -/
def Config.Write {EC KC : Type} (ec : Codec EC) (kc : Codec KC) (c : Config EC KC)
    (fs : os.FileSystem) : WriteResult EC KC :=
  match os.MkdirAll fs (path.Dir c.Path) 0o700 with
  | some err => { err := some err, fs := fs, logged := [], receiver := c }
  | none =>
    let logged := [str "Saving config to " ++ c.Path]
    let p := c.Path
    let c := { c with Path := [] }
    match os.Create fs p with
    | .error err => { err := some err, fs := fs, logged := logged, receiver := c }
    | .ok fs1 =>
      -- json.NewEncoder(output).Encode(c)
      match Config.marshal ec kc c with
      | .error e => { err := some (.json e), fs := fs1, logged := logged, receiver := c }
      | .ok v =>
        let r := os.Write fs1 p (v.encode ++ [10])
        { err := r.2, fs := r.1, logged := logged, receiver := c }

/-- A value of a stored type survives the way through JSON: what the encoder writes for
it is not `null`, is normal, keeps the nesting of the whole text within the limit of the
decoder (the value stands four levels deep), and is decoded to the value again. -/
def Codec.RoundTrips {α : Type} (cd : Codec α) (x : α) : Prop :=
  ∀ j, cd.marshal x = .ok j →
    j ≠ .null ∧ j.Normal ∧ j.depth + 4 ≤ json.maxNestingDepth ∧ cd.unmarshal j = (x, none)

/-- A map of pointers is written and read back as it is when its keys are valid UTF-8 and
increase strictly, and the values it points to have the property `P`. -/
def GoMap.RoundTrips {α : Type} (P : α → Prop) (m : GoMap (Option α)) : Prop :=
  GoMap.WF m ∧
  ∀ k v, (k, v) ∈ m.getD [] → utf8.ValidString k = true ∧ ∀ x, v = some x → P x

/-- A `ServerConfig` whose strings are valid UTF-8 and whose stored values survive the way
through JSON. -/
def ServerConfig.RoundTrips {EC KC : Type} (ec : Codec EC) (kc : Codec KC)
    (c : ServerConfig EC KC) : Prop :=
  utf8.ValidString c.AccessKey = true ∧ utf8.ValidString c.SecretKey = true ∧
  utf8.ValidString c.TokenKey = true ∧ utf8.ValidString c.URL = true ∧
  utf8.ValidString c.Project = true ∧ utf8.ValidString c.CACerts = true ∧
  GoMap.RoundTrips ec.RoundTrips c.KubeCredentials ∧
  GoMap.RoundTrips kc.RoundTrips c.KubeConfigs

/-- A `Config` whose strings (the names of the servers included) are valid UTF-8 and
whose stored values survive the way through JSON. -/
def Config.RoundTrips {EC KC : Type} (ec : Codec EC) (kc : Codec KC) (c : Config EC KC) :
    Prop :=
  utf8.ValidString c.CurrentServer = true ∧
  GoMap.RoundTrips (ServerConfig.RoundTrips ec kc) c.Servers

/-- The JSON form of the Go type `struct{}`, which stands for `ExecCredential` and
`api.Config` in the examples: it is written as `{}` and read from any object. -/
def unitCodec : Codec Unit :=
  { marshal := fun _ => .ok (.object []),
    unmarshal := fun v =>
      match v with
      | .object _ => ((), none)
      | v => ((), some (.UnmarshalTypeError v.kind (str "struct {}") [] [])),
    typeName := str "struct {}" }

/-- A file system without files in which no operation is refused. -/
def emptyFS : os.FileSystem :=
  { files := fun _ => none, mkdirAllErr := fun _ => none, createErr := fun _ => none,
    writeErr := fun _ => none, readErr := fun _ => none }

/-- The file system `emptyFS` with one file. -/
def oneFileFS (name content : GoString) : os.FileSystem :=
  { emptyFS with files := fun n => if n = name then some content else none }

/-- A file system in which `/home/user/.rancher` is a regular file, not a directory: no
name below it can be opened (`ENOTDIR`). -/
def fileInTheWayFS : os.FileSystem :=
  { emptyFS with
    files := fun n => if n = str "/home/user/.rancher" then some [] else none,
    readErr := fun n =>
      if strings.HasPrefix n (str "/home/user/.rancher/") then some (.atOpen ENOTDIR)
      else none }

/-- A byte of a scheme: a letter, a digit, `+`, `-` or `.`. -/
def isSchemeByte (c : Nat) : Bool :=
  (97 ≤ c && c ≤ 122) || (65 ≤ c && c ≤ 90) || (48 ≤ c && c ≤ 57) ||
    c == 43 || c == 45 || c == 46

/-- A well-formed scheme (RFC 3986, section 3.1): a letter followed by scheme bytes. -/
def WellFormedScheme (s : GoString) : Bool :=
  match s with
  | [] => false
  | c :: cs => ((97 ≤ c && c ≤ 122) || (65 ≤ c && c ≤ 90)) && cs.all isSchemeByte

/-- A byte of a registered name: a letter, a digit, one of the unreserved marks
`-`, `.`, `_`, `~`, or one of the sub-delimiters `!`, `$`, `&`, the apostrophe, `(`, `)`,
`*`, `+`, `,`, `;`, `=`. -/
def isHostByte (c : Nat) : Bool :=
  (97 ≤ c && c ≤ 122) || (65 ≤ c && c ≤ 90) || (48 ≤ c && c ≤ 57) ||
    decide (c ∈ [45, 46, 95, 126, 33, 36, 38, 39, 40, 41, 42, 43, 44, 59, 61])

/-- A well-formed non-empty host (RFC 3986, section 3.2.2, without percent-escapes):
a registered name, which is a non-empty string of host bytes (the DNS names and the IPv4
addresses are such), or an IP literal, which is a non-empty string of host bytes and
colons between `[` and `]`. -/
def WellFormedHost (h : GoString) : Bool :=
  match h with
  | [] => false
  | 91 :: t =>
    decide (2 ≤ t.length) && (t.getLast? == some 93) &&
      t.dropLast.all (fun c => isHostByte c || c == 58)
  | c :: t => (c :: t).all isHostByte

/-- A well-formed optional port: empty, or `:` followed by digits. -/
def WellFormedPort (p : GoString) : Bool :=
  match p with
  | [] => true
  | c :: ds => c == 58 && ds.all (fun d => 48 ≤ d && d ≤ 57)

/-- A sample server entry. -/
def sampleServer : ServerConfig Unit Unit :=
  { URL := str "https://host.example/v3", Project := str "c-abc123:p-xyz456" }

/-- A sample configuration with one server, which is the focused one. -/
def sampleConfig : Config Unit Unit :=
  { Servers := some [(str "prod", some sampleServer)],
    Path := str "/home/user/.rancher/cli2.json",
    CurrentServer := str "prod" }

/-- A server entry with a stored credential and a token that is not ASCII. -/
def tokenServer : ServerConfig Unit Unit :=
  { sampleServer with
    TokenKey := str "token-\u00e9:s3cr\u00e8t",
    KubeCredentials := some [(str "c-abc123", some ())] }

/-- A configuration with two servers, one of them a `nil` entry. -/
def twoServerConfig : Config Unit Unit :=
  { Servers := some [(str "dev", none), (str "prod", some tokenServer)],
    Path := str "/home/user/.rancher/cli2.json",
    CurrentServer := str "prod" }

/-- A configuration whose only server is stored under the empty name. -/
def emptyKeyConfig : Config Unit Unit :=
  { Servers := some [([], some sampleServer)], CurrentServer := [] }

end config

/-! ## Properties of the string functions -/

namespace strings

theorem hasPrefix_iff (s pre : GoString) : HasPrefix s pre = true ↔ pre <+: s := by
  unfold HasPrefix
  rw [Bool.and_eq_true, decide_eq_true_eq, beq_iff_eq, List.prefix_iff_eq_take]
  constructor
  · rintro ⟨_, h⟩; exact h.symm
  · intro h
    refine ⟨?_, h.symm⟩
    have := congrArg List.length h
    rw [List.length_take] at this
    omega

theorem occursAt_zero (s sub : GoString) : OccursAt s sub 0 ↔ HasPrefix s sub = true := by
  rw [hasPrefix_iff]; rfl

theorem occursAt_succ (c : Nat) (cs sub : GoString) (k : Nat) :
    OccursAt (c :: cs) sub (k + 1) ↔ OccursAt cs sub k := by
  unfold OccursAt; rfl

theorem not_occursAt_nil (sub : GoString) (h : sub ≠ []) (k : Nat) : ¬ OccursAt [] sub k := by
  unfold OccursAt
  rw [List.drop_nil]
  intro hp
  exact h (List.prefix_nil.mp hp)

/-- What `lastIndexFrom` computes for a non-empty `sub`: `-1` when `sub` occurs nowhere in
`s`, and otherwise `i` plus the last index at which it occurs. -/
theorem lastIndexFrom_spec (sub : GoString) (hsub : sub ≠ []) (s : GoString) : ∀ i : Nat,
    (lastIndexFrom sub s i = -1 ∧ ∀ k, ¬ OccursAt s sub k) ∨
    (∃ k : Nat, lastIndexFrom sub s i = ((i + k : Nat) : Int) ∧ OccursAt s sub k ∧
      ∀ j, k < j → ¬ OccursAt s sub j) := by
  induction s with
  | nil =>
    intro i
    left
    exact ⟨by simp [lastIndexFrom, hsub], not_occursAt_nil sub hsub⟩
  | cons c cs ih =>
    intro i
    rcases ih (i + 1) with ⟨hr, hno⟩ | ⟨k, hr, hocc, hlast⟩
    · by_cases hp : HasPrefix (c :: cs) sub = true
      · right
        refine ⟨0, ?_, (occursAt_zero _ _).mpr hp, ?_⟩
        · simp [lastIndexFrom, hr, hp]
        · intro j hj
          obtain ⟨j, rfl⟩ : ∃ j0, j = j0 + 1 := ⟨j - 1, by omega⟩
          rw [occursAt_succ]; exact hno j
      · left
        refine ⟨by simp [lastIndexFrom, hr, hp], ?_⟩
        intro k
        cases k with
        | zero => rw [occursAt_zero]; exact hp
        | succ k => rw [occursAt_succ]; exact hno k
    · right
      refine ⟨k + 1, ?_, (occursAt_succ _ _ _ _).mpr hocc, ?_⟩
      · have hne : lastIndexFrom sub cs (i + 1) ≠ -1 := by rw [hr]; omega
        simp only [lastIndexFrom, hne, ne_eq, not_false_eq_true, if_true]
        rw [hr]; congr 1; omega
      · intro j hj
        obtain ⟨j, rfl⟩ : ∃ j0, j = j0 + 1 := ⟨j - 1, by omega⟩
        rw [occursAt_succ]; exact hlast j (by omega)

/-- The function `strings.LastIndex` on a non-empty `sub`. -/
theorem lastIndex_spec (s sub : GoString) (hsub : sub ≠ []) :
    (LastIndex s sub = -1 ∧ ∀ k, ¬ OccursAt s sub k) ∨
    (∃ k : Nat, LastIndex s sub = (k : Int) ∧ OccursAt s sub k ∧
      ∀ j, k < j → ¬ OccursAt s sub j) := by
  rcases lastIndexFrom_spec sub hsub s 0 with h | ⟨k, h1, h2, h3⟩
  · left; exact h
  · right; exact ⟨k, by simpa [LastIndex] using h1, h2, h3⟩

end strings

namespace strings

theorem hasPrefix_singleton (c b : Nat) (cs : GoString) :
    HasPrefix (c :: cs) [b] = decide (c = b) := by
  by_cases h : c = b <;> simp [HasPrefix, h]

/-- The function `strings.Index` for a separator of one byte: the length of the longest
prefix of `s` without that byte, or `-1` when the byte does not occur. -/
theorem indexFrom_singleton (b : Nat) (s : GoString) : ∀ i : Nat,
    indexFrom [b] s i =
      if b ∈ s then (((i + (s.takeWhile (fun x => x != b)).length : Nat)) : Int) else -1 := by
  induction s with
  | nil => intro i; simp [indexFrom]
  | cons c cs ih =>
    intro i
    rw [indexFrom, hasPrefix_singleton]
    by_cases h : c = b
    · subst h; simp
    · have h2 : ¬ b = c := fun e => h e.symm
      rw [ih (i + 1)]
      have hb : (c != b) = true := by simpa using h
      by_cases hm : b ∈ cs
      · simp only [h, h2, hm, List.mem_cons, false_or, if_true, decide_False, Bool.false_eq_true,
          if_false, List.takeWhile_cons, hb, List.length_cons]
        congr 1; omega
      · simp [h, h2, hm]

theorem take_length_takeWhile (p : Nat → Bool) (s : GoString) :
    s.take (s.takeWhile p).length = s.takeWhile p := by
  induction s with
  | nil => rfl
  | cons c cs ih =>
    rw [List.takeWhile_cons]
    cases p c <;> simp [ih]

theorem countFrom_singleton (b : Nat) (s : GoString) :
    countFrom [b] s 0 = s.count b := by
  induction s with
  | nil => simp [countFrom]
  | cons c cs ih =>
    rw [countFrom, hasPrefix_singleton]
    by_cases h : c = b
    · subst h; simp [ih]; omega
    · simp [h, ih, List.count_cons]

/-- The first element of `strings.Split(s, sep)` for a separator of one byte: the part of
`s` before the first separator, all of `s` when there is none. -/
theorem split_singleton_head (s : GoString) (b : Nat) :
    (Split s [b])[0]? = some (s.takeWhile (fun x => x != b)) := by
  have hcount : Count s [b] = s.count b := by simp [Count, countFrom_singleton]
  have hle : s.count b ≤ s.length := List.count_le_length _ _
  simp only [Split, List.cons_ne_nil, if_false, hcount]
  have hn : (if s.count b + 1 > s.length + 1 then s.length + 1 else s.count b + 1) - 1
      = s.count b := by
    split <;> omega
  rw [hn]
  by_cases hm : b ∈ s
  · have hpos : 0 < s.count b := List.count_pos_iff.mpr hm
    obtain ⟨n, hn⟩ : ∃ n, s.count b = n + 1 := ⟨s.count b - 1, by omega⟩
    rw [hn, genSplitLoop]
    have hidx : Index s [b] = (((s.takeWhile (fun x => x != b)).length : Nat) : Int) := by
      simp [Index, indexFrom_singleton, hm]
    simp only [hidx]
    have hnot : ¬ ((((s.takeWhile (fun x => x != b)).length : Nat) : Int) < 0) := by omega
    simp only [hnot, if_false, Int.toNat_ofNat, List.getElem?_cons_zero]
    congr 1
    exact take_length_takeWhile _ s
  · have hz : s.count b = 0 := List.count_eq_zero.mpr hm
    rw [hz, genSplitLoop]
    have : s.takeWhile (fun x => x != b) = s := by
      rw [List.takeWhile_eq_self_iff]
      intro x hx
      simp only [bne_iff_ne, ne_eq]
      intro e; exact hm (e ▸ hx)
    simp [this]

end strings

/-! ## Properties of package `config` -/

namespace config

theorem v3_ne_nil : str "/v3" ≠ [] := by decide

/-- Claim C1. For every server configuration whose URL contains the substring `"/v3"`,
`EnvironmentURL` returns, with no error, the URL cut off at the index `i` of the last
occurrence of `"/v3"`: nothing is parsed or validated, whatever the URL looks like. -/
theorem environmentURL_truncates_at_last_v3 {EC KC : Type} (c : ServerConfig EC KC)
    (h : ∃ j, OccursAt c.URL (str "/v3") j) :
    ∃ i, OccursAt c.URL (str "/v3") i ∧ (∀ j, i < j → ¬ OccursAt c.URL (str "/v3") j) ∧
      c.EnvironmentURL = (c.URL.take i, none) := by
  rcases strings.lastIndex_spec c.URL (str "/v3") v3_ne_nil with ⟨_, hno⟩ | ⟨k, hk, hocc, hlast⟩
  · obtain ⟨j, hj⟩ := h
    exact absurd hj (hno j)
  · refine ⟨k, hocc, hlast, ?_⟩
    have hne : (k : Int) ≠ -1 := by omega
    simp [ServerConfig.EnvironmentURL, baseURL, hk, hne]

/-- The two examples of claim C1: `"https://host.example/v3"` and
`"https://host.example/v3/clusters/foo"` both give `"https://host.example"`. -/
theorem environmentURL_truncates_at_last_v3_witness :
    (∃ i, OccursAt (str "https://host.example/v3/clusters/foo") (str "/v3") i ∧
      (∀ j, i < j → ¬ OccursAt (str "https://host.example/v3/clusters/foo") (str "/v3") j) ∧
      ({ URL := str "https://host.example/v3/clusters/foo" } : ServerConfig Unit Unit).EnvironmentURL
        = ((str "https://host.example/v3/clusters/foo").take i, none)) ∧
    ({ URL := str "https://host.example/v3/clusters/foo" } : ServerConfig Unit Unit).EnvironmentURL
      = (str "https://host.example", none) ∧
    ({ URL := str "https://host.example/v3" } : ServerConfig Unit Unit).EnvironmentURL
      = (str "https://host.example", none) :=
  ⟨environmentURL_truncates_at_last_v3
      ({ URL := str "https://host.example/v3/clusters/foo" } : ServerConfig Unit Unit)
      ⟨20, by decide⟩,
    by decide, by decide⟩

/-- Claim C5. `FocusedCluster` never fails (the index `[0]` into the result of
`strings.Split` is in range) and returns the first colon-separated segment of `Project`:
the part before the first `':'` when there is one, all of `Project` when it has no `':'`,
and the empty string when `Project` is empty. -/
theorem focusedCluster_first_segment {EC KC : Type} (c : ServerConfig EC KC) :
    c.FocusedCluster = some (c.Project.takeWhile (fun x => x != 58)) ∧
    (∀ a b : GoString, c.Project = a ++ 58 :: b → 58 ∉ a → c.FocusedCluster = some a) ∧
    (58 ∉ c.Project → c.FocusedCluster = some c.Project) ∧
    (c.Project = [] → c.FocusedCluster = some []) := by
  have h : c.FocusedCluster = some (c.Project.takeWhile (fun x => x != 58)) := by
    have h58 : str ":" = [58] := by decide
    simp only [ServerConfig.FocusedCluster, h58]
    exact strings.split_singleton_head c.Project 58
  refine ⟨h, ?_, ?_, ?_⟩
  · intro a b hab ha
    rw [h, hab]
    congr 1
    rw [List.takeWhile_append_of_pos]
    · simp [List.takeWhile]
    · intro x hx
      simp only [bne_iff_ne, ne_eq]
      intro e; exact ha (e ▸ hx)
  · intro hno
    rw [h]
    congr 1
    rw [List.takeWhile_eq_self_iff]
    intro x hx
    simp only [bne_iff_ne, ne_eq]
    intro e; exact hno (e ▸ hx)
  · intro he
    rw [h, he]; rfl

/-- The examples of claim C5. -/
theorem focusedCluster_examples :
    ({ Project := str "c-abc123:p-xyz456" } : ServerConfig Unit Unit).FocusedCluster
      = some (str "c-abc123") ∧
    ({ Project := str "" } : ServerConfig Unit Unit).FocusedCluster = some (str "") ∧
    ({ Project := str "justacluster" } : ServerConfig Unit Unit).FocusedCluster
      = some (str "justacluster") := by
  decide

/-- Claim C6 as stated fails: with the empty string as a key of `Servers` and an empty
`CurrentServer`, `FocusedServer` returns that entry and not `nil`. -/
theorem focusedServer_empty_current_counterexample :
    emptyKeyConfig.CurrentServer = [] ∧ emptyKeyConfig.FocusedServer = some sampleServer := by
  constructor <;> rfl

/-- Claim C6, amended. `FocusedServer` is a plain map lookup that never fails: when
`CurrentServer` is a key of `Servers` it returns an entry stored under that key (also for
the empty key), and it returns `nil` whenever `CurrentServer` is not a key of `Servers`,
in particular when `Servers` is `nil` or empty. -/
theorem focusedServer_lookup {EC KC : Type} (c : Config EC KC) :
    (c.CurrentServer ∈ GoMap.keys c.Servers →
      ∃ es v, c.Servers = some es ∧ (c.CurrentServer, v) ∈ es ∧ c.FocusedServer = v) ∧
    (c.CurrentServer ∉ GoMap.keys c.Servers → c.FocusedServer = none) ∧
    (c.Servers = none ∨ c.Servers = some [] → c.FocusedServer = none) := by
  refine ⟨?_, ?_, ?_⟩
  · intro hk
    cases hs : c.Servers with
    | none => simp [GoMap.keys, hs] at hk
    | some es =>
      simp only [GoMap.keys, hs, List.mem_map] at hk
      obtain ⟨⟨k, v⟩, hmem, hkeq⟩ := hk
      have hsome : (es.find? (fun e => e.1 == c.CurrentServer)).isSome = true := by
        rw [List.find?_isSome]
        exact ⟨(k, v), hmem, by simpa using hkeq⟩
      obtain ⟨⟨k2, v2⟩, hf⟩ := Option.isSome_iff_exists.mp hsome
      have hk2 : k2 = c.CurrentServer := by
        have := List.find?_some hf
        simpa using this
      refine ⟨es, v2, rfl, ?_, ?_⟩
      · rw [← hk2]; exact List.mem_of_find?_eq_some hf
      · simp [Config.FocusedServer, GoMap.index, GoMap.lookup, hs, hf]
  · intro hk
    cases hs : c.Servers with
    | none => simp [Config.FocusedServer, GoMap.index, GoMap.lookup, hs]
    | some es =>
      simp only [GoMap.keys, hs, List.mem_map, not_exists, not_and] at hk
      have hf : es.find? (fun e => e.1 == c.CurrentServer) = none := by
        rw [List.find?_eq_none]
        intro e he
        simpa using hk e he
      simp [Config.FocusedServer, GoMap.index, GoMap.lookup, hs, hf]
  · rintro (hs | hs) <;> simp [Config.FocusedServer, GoMap.index, GoMap.lookup, hs]

/-- An instance of the amended claim C6 with `CurrentServer` a key of `Servers`. -/
theorem focusedServer_lookup_witness :
    sampleConfig.CurrentServer ∈ GoMap.keys sampleConfig.Servers ∧
    ∃ es v, sampleConfig.Servers = some es ∧ (sampleConfig.CurrentServer, v) ∈ es ∧
      sampleConfig.FocusedServer = v :=
  ⟨by decide, (focusedServer_lookup sampleConfig).1 (by decide)⟩

theorem lastIndex_of_not_occurs (s sub : GoString) (hsub : sub ≠ [])
    (h : ∀ j, ¬ OccursAt s sub j) : strings.LastIndex s sub = -1 := by
  rcases strings.lastIndex_spec s sub hsub with ⟨h1, _⟩ | ⟨k, _, hocc, _⟩
  · exact h1
  · exact absurd hocc (h k)

theorem not_occurs_of_lastIndex (s sub : GoString) (hsub : sub ≠ [])
    (h : strings.LastIndex s sub = -1) : ∀ j, ¬ OccursAt s sub j := by
  rcases strings.lastIndex_spec s sub hsub with ⟨_, h2⟩ | ⟨k, hk, _, _⟩
  · exact h2
  · rw [h] at hk; omega

/-- The string form of a URL that holds only a scheme and a host. -/
theorem string_scheme_host (scheme host : GoString) :
    url.URL.String { Scheme := scheme, Host := host } =
      (if scheme = [] then [] else scheme ++ [58]) ++
        (if host = [] then [] else [47, 47] ++ url.escape host .encodeHost) := by
  have hcut : strings.Contains (strings.Cut [] [47]).1 [58] = false := by decide
  have hesc : url.escape [] .encodePath = [] := rfl
  by_cases hs : scheme = [] <;> by_cases hh : host = [] <;>
    simp [url.URL.String, url.URL.EscapedPath, hs, hh, hcut, hesc]

/-- Claim C3 as stated fails: the relative URL `"/api"` has no `"/v3"` and parses, with an
empty scheme and an empty host; `EnvironmentURL` returns the empty string, which is not of
the shape `scheme://host`. -/
theorem environmentURL_relative_counterexample :
    (∀ j, ¬ OccursAt (str "/api") (str "/v3") j) ∧
    (∃ p, url.Parse (str "/api") = .ok p ∧ p.Scheme = [] ∧ p.Host = [] ∧
      ({ URL := str "/api" } : ServerConfig Unit Unit).EnvironmentURL = ([], none) ∧
      ({ URL := str "/api" } : ServerConfig Unit Unit).EnvironmentURL
        ≠ (p.Scheme ++ str "://" ++ p.Host, none)) := by
  refine ⟨?_, ?_⟩
  · exact not_occurs_of_lastIndex _ _ v3_ne_nil (by decide)
  · exact ⟨{ Path := str "/api" }, by decide, rfl, rfl, by decide, by decide⟩

/-- Claim C3, amended. For every URL without `"/v3"`: if `url.Parse` fails, `EnvironmentURL`
returns the empty string and that error; otherwise it returns, with no error, the string
form of a URL that holds only the parsed scheme and host (no user information, path, query
or fragment), which is the scheme followed by `":"` when the scheme is not empty, followed
by `"//"` and the escaped host when the host is not empty. -/
theorem environmentURL_without_v3 {EC KC : Type} (c : ServerConfig EC KC)
    (h : ∀ j, ¬ OccursAt c.URL (str "/v3") j) :
    (∀ err, url.Parse c.URL = .error err → c.EnvironmentURL = ([], some err)) ∧
    (∀ p, url.Parse c.URL = .ok p →
      c.EnvironmentURL = (url.URL.String { Scheme := p.Scheme, Host := p.Host }, none) ∧
      url.URL.String { Scheme := p.Scheme, Host := p.Host } =
        (if p.Scheme = [] then [] else p.Scheme ++ [58]) ++
          (if p.Host = [] then [] else [47, 47] ++ url.escape p.Host .encodeHost)) := by
  have hidx := lastIndex_of_not_occurs c.URL (str "/v3") v3_ne_nil h
  refine ⟨?_, ?_⟩
  · intro err he
    simp [ServerConfig.EnvironmentURL, baseURL, hidx, he]
  · intro p hp
    exact ⟨by simp [ServerConfig.EnvironmentURL, baseURL, hidx, hp], string_scheme_host _ _⟩

/-- The example of claim C3: `"https://host.example:8443/api"` has no `"/v3"` and gives
`"https://host.example:8443"`. -/
theorem environmentURL_without_v3_witness :
    (∀ j, ¬ OccursAt (str "https://host.example:8443/api") (str "/v3") j) ∧
    ((∀ err, url.Parse (str "https://host.example:8443/api") = .error err →
        ({ URL := str "https://host.example:8443/api" } : ServerConfig Unit Unit).EnvironmentURL
          = ([], some err)) ∧
      (∀ p, url.Parse (str "https://host.example:8443/api") = .ok p →
        ({ URL := str "https://host.example:8443/api" } : ServerConfig Unit Unit).EnvironmentURL
          = (url.URL.String { Scheme := p.Scheme, Host := p.Host }, none) ∧
        url.URL.String { Scheme := p.Scheme, Host := p.Host } =
          (if p.Scheme = [] then [] else p.Scheme ++ [58]) ++
            (if p.Host = [] then [] else [47, 47] ++ url.escape p.Host .encodeHost))) ∧
    ({ URL := str "https://host.example:8443/api" } : ServerConfig Unit Unit).EnvironmentURL
      = (str "https://host.example:8443", none) :=
  ⟨not_occurs_of_lastIndex _ _ v3_ne_nil (by decide),
   environmentURL_without_v3
     ({ URL := str "https://host.example:8443/api" } : ServerConfig Unit Unit)
     (not_occurs_of_lastIndex _ _ v3_ne_nil (by decide)),
   by decide⟩

end config

/-! ## The base URL of `scheme://host[:port]` -/

namespace config
open strings url

theorem occursAt_mem (s x : GoString) (a j : Nat) (h : OccursAt s (a :: x) j) : a ∈ s :=
  List.mem_of_mem_drop (h.subset (List.mem_cons_self a x))

theorem index_singleton_not_mem (s : GoString) (b : Nat) (h : b ∉ s) : Index s [b] = -1 := by
  simp [Index, indexFrom_singleton, h]

theorem indexFrom_head_not_mem (a : Nat) (x : GoString) : ∀ (s : GoString) (i : Nat),
    a ∉ s → indexFrom (a :: x) s i = -1 := by
  intro s
  induction s with
  | nil => intro i _; simp [indexFrom]
  | cons c cs ih =>
    intro i h
    have hne : c ≠ a := fun e => h (e ▸ List.mem_cons_self _ _)
    have hp : HasPrefix (c :: cs) (a :: x) = false := by
      cases hh : HasPrefix (c :: cs) (a :: x) with
      | false => rfl
      | true =>
        exfalso
        rw [hasPrefix_iff, List.cons_prefix_cons] at hh
        exact hne hh.1.symm
    rw [indexFrom, hp]
    simpa using ih (i + 1) (fun hm => h (List.mem_cons_of_mem _ hm))

theorem index_head_not_mem (s x : GoString) (a : Nat) (h : a ∉ s) : Index s (a :: x) = -1 :=
  indexFrom_head_not_mem a x s 0 h

theorem lastIndex_singleton_not_mem (s : GoString) (b : Nat) (h : b ∉ s) :
    LastIndex s [b] = -1 :=
  lastIndex_of_not_occurs s [b] (by simp) (fun j hj => h (occursAt_mem s [] b j hj))

theorem cut_singleton_not_mem (s : GoString) (b : Nat) (h : b ∉ s) :
    Cut s [b] = (s, [], false) := by
  simp [Cut, index_singleton_not_mem s b h]

theorem contains_singleton_not_mem (s : GoString) (b : Nat) (h : b ∉ s) :
    Contains s [b] = false := by
  simp [Contains, index_singleton_not_mem s b h]

theorem hasSuffix_singleton_not_mem (s : GoString) (b : Nat) (h : b ∉ s) :
    HasSuffix s [b] = false := by
  cases hs : HasSuffix s [b] with
  | false => rfl
  | true =>
    exfalso
    simp only [HasSuffix, Bool.and_eq_true, decide_eq_true_eq, beq_iff_eq] at hs
    apply h
    have : b ∈ s.drop (s.length - [b].length) := by rw [hs.2]; simp
    exact List.mem_of_mem_drop this

theorem occursAt_append_left (a : Nat) (x t : GoString) : ∀ (s : GoString) (j : Nat), a ∉ s →
    OccursAt (s ++ t) (a :: x) j → ∃ j0, j = s.length + j0 ∧ OccursAt t (a :: x) j0 := by
  intro s
  induction s with
  | nil => intro j _ h; exact ⟨j, by simp, h⟩
  | cons c cs ih =>
    intro j ha h
    have hne : c ≠ a := fun e => ha (e ▸ List.mem_cons_self _ _)
    cases j with
    | zero =>
      exfalso
      have h0 : a :: x <+: c :: (cs ++ t) := h
      rw [List.cons_prefix_cons] at h0
      exact hne h0.1.symm
    | succ j =>
      rw [List.cons_append, occursAt_succ] at h
      obtain ⟨j0, hj, hocc⟩ := ih j (fun hm => ha (List.mem_cons_of_mem _ hm)) h
      exact ⟨j0, by simp; omega, hocc⟩

theorem occursAt_length_append (s t sub : GoString) (h : sub <+: t) :
    OccursAt (s ++ t) sub s.length := by
  unfold OccursAt
  rw [List.drop_left]
  exact h

theorem lastIndex_append_self (x sub : GoString) (hsub : sub ≠ []) :
    LastIndex (x ++ sub) sub = (x.length : Int) := by
  have hocc : OccursAt (x ++ sub) sub x.length := occursAt_length_append x sub sub (List.prefix_refl _)
  rcases lastIndex_spec (x ++ sub) sub hsub with ⟨_, hno⟩ | ⟨k, hk, hko, hlast⟩
  · exact absurd hocc (hno _)
  · rw [hk]
    have h1 : ¬ x.length > k := fun hgt => hlast x.length hgt hocc
    have h2 : k ≤ x.length := by
      have hl := hko.length_le
      simp only [List.length_drop, List.length_append] at hl
      have : 0 < sub.length := List.length_pos.mpr hsub
      omega
    congr 1; omega

/-- The last index of a byte that does not occur behind one of its places. -/
theorem lastIndex_singleton_append (s t : GoString) (b : Nat) (h : b ∉ t) :
    LastIndex (s ++ b :: t) [b] = (s.length : Int) := by
  have hocc : OccursAt (s ++ b :: t) [b] s.length :=
    occursAt_length_append s (b :: t) [b] (by rw [List.cons_prefix_cons]; exact ⟨rfl, List.nil_prefix⟩)
  rcases lastIndex_spec (s ++ b :: t) [b] (by simp) with ⟨_, hno⟩ | ⟨k, hk, hko, hlast⟩
  · exact absurd hocc (hno _)
  · rw [hk]
    have h1 : ¬ s.length > k := fun hgt => hlast s.length hgt hocc
    have h2 : ¬ s.length < k := by
      intro hlt
      obtain ⟨d, rfl⟩ : ∃ d, k = s.length + (d + 1) := ⟨k - s.length - 1, by omega⟩
      have hd : OccursAt t [b] d := by
        unfold OccursAt at hko ⊢
        rw [List.drop_append, List.drop_succ_cons] at hko
        exact hko
      exact h (occursAt_mem t [] b d hd)
    congr 1; omega

end config

namespace config
open strings url

theorem schemeByte_props : ∀ c, c < 128 → isSchemeByte c = true →
    c ≠ 47 ∧ c ≠ 35 ∧ 32 ≤ c ∧ c ≠ 127 ∧ isSchemeByte (toLowerByte c) = true ∧
      toLowerByte c ≠ 47 := by
  decide

theorem schemeByte_lt (c : Nat) (h : isSchemeByte c = true) : c < 128 := by
  simp only [isSchemeByte, Bool.or_eq_true, Bool.and_eq_true, decide_eq_true_eq, beq_iff_eq] at h
  omega

theorem getSchemeLoop_scheme (raw t : GoString) : ∀ (sfx : GoString) (i : Nat),
    (∀ c ∈ sfx, isSchemeByte c = true) →
    (i = 0 → ∃ c cs, sfx = c :: cs ∧ ((97 ≤ c ∧ c ≤ 122) ∨ (65 ≤ c ∧ c ≤ 90))) →
    getSchemeLoop raw (sfx ++ 58 :: t) i =
      .ok (raw.take (i + sfx.length), raw.drop (i + sfx.length + 1)) := by
  intro sfx
  induction sfx with
  | nil =>
    intro i _ h0
    have hi : i ≠ 0 := by
      intro e
      obtain ⟨c, cs, h, _⟩ := h0 e
      cases h
    simp [getSchemeLoop, hi]
  | cons c cs ih =>
    intro i hall h0
    have hc : isSchemeByte c = true := hall c (List.mem_cons_self _ _)
    have hrest := ih (i + 1) (fun x hx => hall x (List.mem_cons_of_mem _ hx)) (by omega)
    have hlen : i + 1 + cs.length = i + (c :: cs).length := by simp; omega
    rw [hlen] at hrest
    rw [List.cons_append, getSchemeLoop]
    by_cases hl : (97 ≤ c ∧ c ≤ 122) ∨ (65 ≤ c ∧ c ≤ 90)
    · simp only [hl, if_true, hrest]
    · have hi : i ≠ 0 := by
        intro e
        obtain ⟨c', cs', h, h1⟩ := h0 e
        cases h
        exact hl h1
      have hd : (48 ≤ c ∧ c ≤ 57) ∨ c = 43 ∨ c = 45 ∨ c = 46 := by
        simp only [isSchemeByte, Bool.or_eq_true, Bool.and_eq_true, decide_eq_true_eq,
          beq_iff_eq] at hc
        omega
      simp only [hl, if_false, hd, if_true, hi, hrest]

theorem wellFormedScheme_bytes (s : GoString) (h : WellFormedScheme s = true) :
    (∃ c cs, s = c :: cs ∧ ((97 ≤ c ∧ c ≤ 122) ∨ (65 ≤ c ∧ c ≤ 90))) ∧
      ∀ c ∈ s, isSchemeByte c = true := by
  cases s with
  | nil => simp [WellFormedScheme] at h
  | cons c cs =>
    simp only [WellFormedScheme, Bool.and_eq_true, Bool.or_eq_true, decide_eq_true_eq,
      List.all_eq_true] at h
    refine ⟨⟨c, cs, rfl, h.1⟩, ?_⟩
    intro x hx
    rcases List.mem_cons.mp hx with rfl | hx
    · simp only [isSchemeByte, Bool.or_eq_true, Bool.and_eq_true, decide_eq_true_eq, beq_iff_eq]
      have := h.1
      omega
    · exact h.2 x hx

/-- A string without upper-case letters is its own lower-case form. -/
theorem toLower_eq_self (s : GoString) (h : ∀ b ∈ s, ¬ (65 ≤ b ∧ b ≤ 90)) : ToLower s = s := by
  induction s with
  | nil => rfl
  | cons c cs ih =>
    have hc := h c (List.mem_cons_self _ _)
    have := ih (fun x hx => h x (List.mem_cons_of_mem _ hx))
    simp only [ToLower, List.map_cons, toLowerByte, hc, if_false] at this ⊢
    rw [this]

theorem toLower_ne_nil (s : GoString) (h : s ≠ []) : ToLower s ≠ [] := by
  cases s with
  | nil => exact absurd rfl h
  | cons c cs => simp [ToLower]

end config
namespace config
open strings url

/-- Bytes of a well-formed `host[:port]`. -/
theorem hostPortByte_props : ∀ c, c < 128 →
    (isHostByte c = true ∨ c = 58 ∨ c = 91 ∨ c = 93) →
    c ≠ 37 ∧ c ≠ 47 ∧ c ≠ 35 ∧ c ≠ 63 ∧ c ≠ 64 ∧ 32 < c ∧ c ≠ 127 ∧
      shouldEscape c .encodeHost = false := by
  decide

theorem hostByte_lt (c : Nat) (h : isHostByte c = true ∨ c = 58 ∨ c = 91 ∨ c = 93) :
    c < 128 := by
  simp only [isHostByte, Bool.or_eq_true, Bool.and_eq_true, decide_eq_true_eq,
    List.mem_cons, List.mem_singleton, List.not_mem_nil, or_false] at h
  omega

theorem hostByte_facts : ∀ c, c < 128 → isHostByte c = true → c ≠ 58 ∧ c ≠ 91 ∧ c ≠ 93 := by
  decide

theorem unescapeCheck_host : ∀ (fuel : Nat) (s : GoString) (n : Nat),
    (∀ c ∈ s, c ≠ 37 ∧ (c < 0x80 → shouldEscape c .encodeHost = false)) →
    unescapeCheck .encodeHost fuel s n false = .ok (n, false) := by
  intro fuel
  induction fuel with
  | zero => intro s n _; cases s <;> rfl
  | succ fuel ih =>
    intro s n h
    cases s with
    | nil => rfl
    | cons c cs =>
      obtain ⟨h1, h3⟩ := h c (List.mem_cons_self _ _)
      have hrest := ih cs n (fun x hx => h x (List.mem_cons_of_mem _ hx))
      unfold unescapeCheck
      simp only [h1, if_false]
      by_cases h2 : c = 43
      · simp [h2, hrest]
      · by_cases hlt : c < 0x80
        · simp [h2, h3 hlt, hrest]
        · simp [h2, hlt, hrest]

theorem unescape_host (s : GoString)
    (h : ∀ c ∈ s, c ≠ 37 ∧ (c < 0x80 → shouldEscape c .encodeHost = false)) :
    unescape s .encodeHost = .ok s := by
  simp [unescape, unescapeCheck_host s.length s 0 h]

theorem escape_clean (mode : encoding) (s : GoString)
    (h : ∀ c ∈ s, c ≠ 32 ∧ shouldEscape c mode = false) : escape s mode = s := by
  induction s with
  | nil => rfl
  | cons c cs ih =>
    obtain ⟨h1, h2⟩ := h c (List.mem_cons_self _ _)
    have := ih (fun x hx => h x (List.mem_cons_of_mem _ hx))
    simp only [escape] at this ⊢
    simp [List.flatMap_cons, h1, h2, this]

theorem hostPort_clean (hp : GoString)
    (hb : ∀ c ∈ hp, isHostByte c = true ∨ c = 58 ∨ c = 91 ∨ c = 93) :
    unescape hp .encodeHost = .ok hp ∧ escape hp .encodeHost = hp ∧
      (37 : Nat) ∉ hp ∧ (47 : Nat) ∉ hp ∧ (35 : Nat) ∉ hp ∧ (63 : Nat) ∉ hp ∧ (64 : Nat) ∉ hp ∧
      ∀ c ∈ hp, 32 < c ∧ c ≠ 127 := by
  have hall := fun c hc => hostPortByte_props c (hostByte_lt c (hb c hc)) (hb c hc)
  refine ⟨?_, ?_, ?_, ?_, ?_, ?_, ?_, ?_⟩
  · exact unescape_host hp (fun c hc => ⟨(hall c hc).1, fun _ => (hall c hc).2.2.2.2.2.2.2⟩)
  · apply escape_clean
    intro c hc
    have := hall c hc
    exact ⟨by omega, this.2.2.2.2.2.2.2⟩
  · exact fun hm => (hall 37 hm).1 rfl
  · exact fun hm => (hall 47 hm).2.1 rfl
  · exact fun hm => (hall 35 hm).2.2.1 rfl
  · exact fun hm => (hall 63 hm).2.2.2.1 rfl
  · exact fun hm => (hall 64 hm).2.2.2.2.1 rfl
  · exact fun c hc => ⟨(hall c hc).2.2.2.2.2.1, (hall c hc).2.2.2.2.2.2.1⟩

theorem wellFormedPort_cases (port : GoString) (h : WellFormedPort port = true) :
    port = [] ∨ ∃ ds, port = 58 :: ds ∧ ∀ d ∈ ds, 48 ≤ d ∧ d ≤ 57 := by
  cases port with
  | nil => left; rfl
  | cons c ds =>
    right
    simp only [WellFormedPort, Bool.and_eq_true, beq_iff_eq, List.all_eq_true,
      decide_eq_true_eq] at h
    exact ⟨ds, by rw [h.1], h.2⟩

theorem wellFormedPort_valid (port : GoString) (h : WellFormedPort port = true) :
    validOptionalPort port = true ∧ (93 : Nat) ∉ port ∧
      ∀ c ∈ port, isHostByte c = true ∨ c = 58 ∨ c = 91 ∨ c = 93 := by
  rcases wellFormedPort_cases port h with rfl | ⟨ds, rfl, hds⟩
  · exact ⟨rfl, by simp, by simp⟩
  · refine ⟨?_, ?_, ?_⟩
    · simp only [validOptionalPort, ne_eq, not_true_eq_false, if_false, List.all_eq_true,
        Bool.not_eq_true', Bool.or_eq_false_iff, decide_eq_false_iff_not]
      intro d hd
      have := hds d hd
      omega
    · intro hm
      rcases List.mem_cons.mp hm with h0 | h0
      · omega
      · have := hds 93 h0; omega
    · intro c hc
      rcases List.mem_cons.mp hc with rfl | hc
      · exact Or.inr (Or.inl rfl)
      · left
        have := hds c hc
        simp only [isHostByte, Bool.or_eq_true, Bool.and_eq_true, decide_eq_true_eq]
        omega

/-- The two forms of a well-formed host. -/
theorem wellFormedHost_cases (host : GoString) (h : WellFormedHost host = true) :
    (host ≠ [] ∧ ∀ c ∈ host, isHostByte c = true) ∨
    (∃ content, host = 91 :: content ++ [93] ∧ content ≠ [] ∧
      ∀ c ∈ content, isHostByte c = true ∨ c = 58) := by
  cases host with
  | nil => simp [WellFormedHost] at h
  | cons a t =>
    by_cases ha : a = 91
    · subst ha
      right
      simp only [WellFormedHost, Bool.and_eq_true, decide_eq_true_eq, beq_iff_eq,
        List.all_eq_true, Bool.or_eq_true] at h
      obtain ⟨⟨hlen, hlast⟩, hall⟩ := h
      have ht : t.dropLast ++ [93] = t := List.dropLast_append_getLast? 93 (by simp [hlast])
      refine ⟨t.dropLast, by rw [List.cons_append, ht], ?_, hall⟩
      intro e
      have := congrArg List.length e
      simp at this
      omega
    · left
      have : WellFormedHost (a :: t) = (a :: t).all isHostByte := by
        unfold WellFormedHost
        split
        · rename_i h0; cases h0
        · rename_i h0; cases h0; exact absurd rfl ha
        · rename_i h0; cases h0; rfl
      rw [this, List.all_eq_true] at h
      exact ⟨by simp, h⟩

end config

namespace config
open strings url

/-- The function `parseHost` on a well-formed `host[:port]`: it is taken as it stands. -/
theorem parseHost_wellFormed (host port : GoString) (hh : WellFormedHost host = true)
    (hp : WellFormedPort port = true) :
    parseHost (host ++ port) = .ok (host ++ port) ∧ host ≠ [] ∧
      ∀ c ∈ host ++ port, isHostByte c = true ∨ c = 58 ∨ c = 91 ∨ c = 93 := by
  obtain ⟨hvalid, h93, hpb⟩ := wellFormedPort_valid port hp
  rcases wellFormedHost_cases host hh with ⟨hne, hhb⟩ | ⟨content, rfl, hcne, hcb⟩
  · -- a registered name
    have hb : ∀ c ∈ host ++ port, isHostByte c = true ∨ c = 58 ∨ c = 91 ∨ c = 93 := by
      intro c hc
      rcases List.mem_append.mp hc with hc | hc
      · exact Or.inl (hhb c hc)
      · exact hpb c hc
    refine ⟨?_, hne, hb⟩
    obtain ⟨hun, _⟩ := hostPort_clean (host ++ port) hb
    have hfacts := fun c hc => hostByte_facts c (hostByte_lt c (Or.inl (hhb c hc))) (hhb c hc)
    have h58 : (58 : Nat) ∉ host := fun hm => (hfacts 58 hm).1 rfl
    have hpre : HasPrefix (host ++ port) [91] = false := by
      cases host with
      | nil => exact absurd rfl hne
      | cons a t =>
        rw [List.cons_append, hasPrefix_singleton]
        have := (hfacts a (List.mem_cons_self _ _)).2.1
        simp [this]
    unfold parseHost
    simp only [hpre, Bool.false_eq_true, if_false]
    rcases wellFormedPort_cases port hp with rfl | ⟨ds, rfl, hds⟩
    · rw [List.append_nil] at hun ⊢
      have : LastIndex host [58] = -1 := lastIndex_singleton_not_mem _ _ h58
      simp [this, hun]
    · have h58d : (58 : Nat) ∉ ds := by
        intro hm
        have := hds 58 hm
        omega
      have hidx := lastIndex_singleton_append host ds 58 h58d
      have hdrop : (host ++ 58 :: ds).drop host.length = 58 :: ds := List.drop_left _ _
      simp [hidx, hdrop, hvalid, hun]
  · -- an IP literal
    have hb : ∀ c ∈ (91 :: content ++ [93]) ++ port,
        isHostByte c = true ∨ c = 58 ∨ c = 91 ∨ c = 93 := by
      intro c hc
      simp only [List.cons_append, List.mem_cons, List.mem_append, List.mem_singleton,
        List.not_mem_nil, or_false] at hc
      rcases hc with rfl | (hc | rfl) | hc
      · exact Or.inr (Or.inr (Or.inl rfl))
      · rcases hcb c hc with h | h
        · exact Or.inl h
        · exact Or.inr (Or.inl h)
      · exact Or.inr (Or.inr (Or.inr rfl))
      · exact hpb c hc
    refine ⟨?_, by simp, hb⟩
    obtain ⟨hun, _, h37, _⟩ := hostPort_clean _ hb
    have hshape : (91 :: content ++ [93]) ++ port = (91 :: content) ++ 93 :: port := by simp
    have hpre : HasPrefix ((91 :: content ++ [93]) ++ port) [91] = true := by
      simp [hasPrefix_singleton]
    have hidx : LastIndex ((91 :: content ++ [93]) ++ port) [93]
        = ((91 :: content).length : Int) := by
      rw [hshape]
      exact lastIndex_singleton_append (91 :: content) port 93 h93
    have hnn : ¬ (((91 :: content).length : Int) < 0) := by omega
    have hdrop : ((91 :: content ++ [93]) ++ port).drop ((91 :: content).length + 1) = port := by
      have : (91 :: content).length + 1 = (91 :: content ++ [93]).length := by simp
      rw [this, List.drop_left]
    have hzone : Index (((91 :: content ++ [93]) ++ port).take (91 :: content).length)
        [37, 50, 53] = -1 :=
      index_head_not_mem _ _ 37 (fun hm => h37 (List.mem_of_mem_take hm))
    unfold parseHost
    simp only [hpre, if_true, hidx, hnn, if_false, Int.toNat_ofNat, hdrop, hvalid,
      Bool.not_true, Bool.false_eq_true, hzone]
    simpa using hun

theorem parseAuthority_wellFormed (hp : GoString) (hparse : parseHost hp = .ok hp)
    (h64 : (64 : Nat) ∉ hp) : parseAuthority hp = .ok (none, hp) := by
  simp [parseAuthority, lastIndex_singleton_not_mem hp 64 h64, hparse]

/-- The function `url.Parse` on `scheme://host[:port]`: the scheme in lower case and the
host with its port. -/
theorem parse_scheme_hostport (scheme host port : GoString)
    (hs : WellFormedScheme scheme = true) (hh : WellFormedHost host = true)
    (hp : WellFormedPort port = true) :
    url.Parse (scheme ++ 58 :: 47 :: 47 :: (host ++ port))
      = .ok { Scheme := ToLower scheme, Host := host ++ port } := by
  obtain ⟨hfirst, hsb⟩ := wellFormedScheme_bytes scheme hs
  obtain ⟨hparse, _, hb⟩ := parseHost_wellFormed host port hh hp
  obtain ⟨_, _, _, h47, h35p, h63p, h64, hctlp⟩ := hostPort_clean (host ++ port) hb
  generalize host ++ port = hp at *
  have hs_props : ∀ c ∈ scheme, c ≠ 47 ∧ c ≠ 35 ∧ 32 ≤ c ∧ c ≠ 127 := by
    intro c hc
    have := schemeByte_props c (schemeByte_lt c (hsb c hc)) (hsb c hc)
    exact ⟨this.1, this.2.1, this.2.2.1, this.2.2.2.1⟩
  have h35 : (35 : Nat) ∉ scheme ++ 58 :: 47 :: 47 :: hp := by
    simp only [List.mem_append, List.mem_cons, not_or]
    exact ⟨fun h => (hs_props 35 h).2.1 rfl, by omega, by omega, by omega, h35p⟩
  have hctl : stringContainsCTLByte (scheme ++ 58 :: 47 :: 47 :: hp) = false := by
    simp only [stringContainsCTLByte, List.any_eq_false, List.mem_append, List.mem_cons,
      Bool.or_eq_true, decide_eq_true_eq, beq_iff_eq, not_or]
    rintro x (hx | rfl | rfl | rfl | hx)
    · have := hs_props x hx; omega
    · omega
    · omega
    · omega
    · have := hctlp x hx; omega
  have hstar : scheme ++ 58 :: 47 :: 47 :: hp ≠ [42] := by
    intro e
    have := congrArg List.length e
    simp at this
    omega
  have hsch : getScheme (scheme ++ 58 :: 47 :: 47 :: hp) = .ok (scheme, 47 :: 47 :: hp) := by
    have := getSchemeLoop_scheme (scheme ++ 58 :: 47 :: 47 :: hp) (47 :: 47 :: hp) scheme 0 hsb
      (fun _ => hfirst)
    rw [getScheme, this]
    simp
  have h63 : (63 : Nat) ∉ (47 :: 47 :: hp) := by
    simp only [List.mem_cons, not_or]
    exact ⟨by omega, by omega, h63p⟩
  have hsuf := hasSuffix_singleton_not_mem _ _ h63
  have hcutq := cut_singleton_not_mem _ _ h63
  have hidx := index_singleton_not_mem hp 47 h47
  have hauth := parseAuthority_wellFormed hp hparse h64
  have hsne : scheme ≠ [] := by
    obtain ⟨c, cs, h, _⟩ := hfirst
    rw [h]; simp
  have hlne := toLower_ne_nil scheme hsne
  have hpre1 : HasPrefix (47 :: 47 :: hp) [47] = true := by simp [hasPrefix_singleton]
  have hpre2 : HasPrefix (47 :: 47 :: hp) [47, 47] = true := by simp [HasPrefix]
  have hsetp : ∀ u : URL, setPath u [] = .ok { u with Path := [], RawPath := [] } := by
    intro u; rfl
  simp [url.Parse, cut_singleton_not_mem _ _ h35, url.parse, hctl, hstar, hsch, hsuf,
    hcutq, hpre1, hpre2, hlne, hidx, hauth, hsetp]

/-- Where `"/v3"` can stand in `scheme://host[:port]`: only on the second slash, in front
of a host that begins with `v3`. -/
theorem v3_in_scheme_hostport (scheme hp : GoString) (hs : (47 : Nat) ∉ scheme)
    (hh : (47 : Nat) ∉ hp) :
    ∀ j, OccursAt (scheme ++ 58 :: 47 :: 47 :: hp) [47, 118, 51] j →
      j = scheme.length + 2 ∧ [118, 51] <+: hp := by
  intro j hj
  obtain ⟨j0, hj0, hocc⟩ := occursAt_append_left 47 [118, 51] _ scheme j hs hj
  match j0, hj0, hocc with
  | 0, _, hocc =>
    have h0 : [47, 118, 51] <+: 58 :: 47 :: 47 :: hp := hocc
    rw [List.cons_prefix_cons] at h0
    omega
  | 1, _, hocc =>
    have h0 : [47, 118, 51] <+: 47 :: 47 :: hp := hocc
    rw [List.cons_prefix_cons, List.cons_prefix_cons] at h0
    omega
  | 2, hj0, hocc =>
    have h0 : [47, 118, 51] <+: 47 :: hp := hocc
    rw [List.cons_prefix_cons] at h0
    exact ⟨hj0, h0.2⟩
  | j1 + 3, _, hocc =>
    have h0 : OccursAt hp [47, 118, 51] j1 := hocc
    exact absurd (occursAt_mem hp _ 47 j1 h0) hh

/-- A host that begins with `v3` is a registered name; so does the host with its port. -/
theorem v3_prefix_hostport (host port : GoString) (hh : WellFormedHost host = true)
    (hp : WellFormedPort port = true) :
    [118, 51] <+: host ++ port ↔ HasPrefix host (str "v3") = true := by
  have e3 : str "v3" = [118, 51] := by decide
  rw [hasPrefix_iff, e3]
  constructor
  · intro hpre
    match host, hh, hpre with
    | [], hh, _ => simp [WellFormedHost] at hh
    | [a], _, hpre =>
      exfalso
      rcases wellFormedPort_cases port hp with rfl | ⟨ds, rfl, _⟩
      · have := hpre.length_le; simp at this
      · have h0 : [118, 51] <+: a :: 58 :: ds := hpre
        rw [List.cons_prefix_cons, List.cons_prefix_cons] at h0
        have := h0.2.1
        omega
    | a :: b :: rest, _, hpre =>
      have h0 : [118, 51] <+: a :: b :: (rest ++ port) := hpre
      rw [List.cons_prefix_cons, List.cons_prefix_cons] at h0 ⊢
      exact ⟨h0.1, h0.2.1, List.nil_prefix⟩
  · intro hpre
    exact hpre.trans (List.prefix_append _ _)

end config

namespace config
open strings url

/-- Claim C2 as stated fails. An upper-case scheme is well-formed, but on the path without
`"/v3"` the URL is rebuilt from its parsed parts and `url.Parse` lower-cases the scheme:
`"HTTPS://host.example"` gives `"https://host.example"`. And a host that begins with `v3`
is cut inside the `"//"`: `"https://v3.example.com"` gives `"https:/"`. -/
theorem environmentURL_scheme_host_counterexample :
    (WellFormedScheme (str "HTTPS") = true ∧ WellFormedHost (str "host.example") = true ∧
      ({ URL := str "HTTPS://host.example" } : ServerConfig Unit Unit).EnvironmentURL
        = (str "https://host.example", none) ∧
      str "https://host.example" ≠ str "HTTPS://host.example") ∧
    (WellFormedScheme (str "https") = true ∧ WellFormedHost (str "v3.example.com") = true ∧
      ({ URL := str "https://v3.example.com" } : ServerConfig Unit Unit).EnvironmentURL
        = (str "https:/", none)) := by
  decide

/-- Claim C2, amended. A stored URL that ends with the suffix `"/v3"` gives exactly what
stands in front of the suffix, with no error, whatever that is; so `scheme://host[:port]`
followed by `"/v3"` gives `scheme://host[:port]`. A stored URL `scheme://host[:port]`
without the suffix, with a well-formed scheme, host and port and a host that does not begin
with `v3`, gives `scheme://host[:port]` with the scheme in lower case and no error: exactly
the URL when the scheme has no upper-case letter. -/
theorem environmentURL_scheme_host {EC KC : Type} (c : ServerConfig EC KC) :
    (∀ x : GoString, c.URL = x ++ str "/v3" → c.EnvironmentURL = (x, none)) ∧
    (∀ scheme host port : GoString, WellFormedScheme scheme = true →
      WellFormedHost host = true → WellFormedPort port = true →
      c.URL = scheme ++ str "://" ++ host ++ port →
      strings.HasPrefix host (str "v3") = false →
      c.EnvironmentURL = (strings.ToLower scheme ++ str "://" ++ host ++ port, none) ∧
      ((∀ b ∈ scheme, ¬ (65 ≤ b ∧ b ≤ 90)) →
        c.EnvironmentURL = (scheme ++ str "://" ++ host ++ port, none))) := by
  have e1 : str "://" = [58, 47, 47] := by decide
  have e2 : str "/v3" = [47, 118, 51] := by decide
  refine ⟨?_, ?_⟩
  · intro x hu
    have hidx := lastIndex_append_self x (str "/v3") v3_ne_nil
    have hne : ((x.length : Nat) : Int) ≠ -1 := by omega
    simp only [ServerConfig.EnvironmentURL, baseURL, hu, hidx, hne, if_false, Int.toNat_ofNat]
    rw [List.take_left]
  · intro scheme host port hs hh hp hu hv
    obtain ⟨hfirst, hsb⟩ := wellFormedScheme_bytes scheme hs
    obtain ⟨_, hhne, hb⟩ := parseHost_wellFormed host port hh hp
    obtain ⟨_, hesc, _, hp47, _⟩ := hostPort_clean (host ++ port) hb
    have hs47 : (47 : Nat) ∉ scheme := fun hm =>
      (schemeByte_props 47 (by omega) (hsb 47 hm)).1 rfl
    have hurl : c.URL = scheme ++ 58 :: 47 :: 47 :: (host ++ port) := by
      rw [hu, e1]; simp
    have hocc := v3_in_scheme_hostport scheme (host ++ port) hs47 hp47
    have hno : ∀ j, ¬ OccursAt (scheme ++ 58 :: 47 :: 47 :: (host ++ port)) [47, 118, 51] j := by
      intro j hj
      have := (v3_prefix_hostport host port hh hp).mp (hocc j hj).2
      rw [hv] at this
      cases this
    have hidx : LastIndex c.URL (str "/v3") = -1 := by
      rw [hurl, e2]
      exact lastIndex_of_not_occurs _ _ (by simp) hno
    have hparse := parse_scheme_hostport scheme host port hs hh hp
    have hsne : scheme ≠ [] := by
      obtain ⟨a, as, h, _⟩ := hfirst
      rw [h]; simp
    have hlne := toLower_ne_nil scheme hsne
    have hpne : host ++ port ≠ [] := by simp [hhne]
    have hmain : c.EnvironmentURL
        = (strings.ToLower scheme ++ str "://" ++ host ++ port, none) := by
      simp only [ServerConfig.EnvironmentURL, baseURL, hidx, if_true]
      rw [hurl, hparse]
      simp only [string_scheme_host, hlne, hpne, if_false, hesc, e1]
      simp
    refine ⟨hmain, ?_⟩
    intro hlow
    rw [hmain, toLower_eq_self scheme hlow]

/-- An instance of the amended claim C2: `"https://host.example:8443"`, with and without
`"/v3"`, gives `"https://host.example:8443"`. -/
theorem environmentURL_scheme_host_witness :
    (WellFormedScheme (str "https") = true ∧ WellFormedHost (str "host.example") = true ∧
      WellFormedPort (str ":8443") = true ∧ (∀ b ∈ str "https", ¬ (65 ≤ b ∧ b ≤ 90)) ∧
      strings.HasPrefix (str "host.example") (str "v3") = false) ∧
    ({ URL := str "https://host.example:8443/v3" } : ServerConfig Unit Unit).EnvironmentURL
      = (str "https://host.example:8443", none) ∧
    ({ URL := str "https://host.example:8443" } : ServerConfig Unit Unit).EnvironmentURL
      = (str "https" ++ str "://" ++ str "host.example" ++ str ":8443", none) :=
  ⟨by decide,
   (environmentURL_scheme_host
      ({ URL := str "https://host.example:8443/v3" } : ServerConfig Unit Unit)).1
      (str "https://host.example:8443") (by decide),
   ((environmentURL_scheme_host
      ({ URL := str "https://host.example:8443" } : ServerConfig Unit Unit)).2
      (str "https") (str "host.example") (str ":8443") (by decide) (by decide) (by decide)
      (by decide) (by decide)).2 (by decide)⟩

/-- Hosts of the other well-formed kinds, and an upper-case scheme in front of the suffix:
an IP literal with a port, a name with sub-delimiters, `"HTTPS://host.example/v3"`, a host
that begins with `v3` in front of the suffix, and the two examples of the specification. -/
theorem environmentURL_scheme_host_examples :
    (WellFormedHost (str "[2001:db8::1]") = true ∧
      ({ URL := str "http://[2001:db8::1]:8080" } : ServerConfig Unit Unit).EnvironmentURL
        = (str "http://[2001:db8::1]:8080", none)) ∧
    (WellFormedHost (str "a_b~c!$&()*+,;=d") = true ∧
      ({ URL := str "http://a_b~c!$&()*+,;=d" } : ServerConfig Unit Unit).EnvironmentURL
        = (str "http://a_b~c!$&()*+,;=d", none)) ∧
    ({ URL := str "HTTPS://host.example/v3" } : ServerConfig Unit Unit).EnvironmentURL
      = (str "HTTPS://host.example", none) ∧
    ({ URL := str "https://v3.example.com/v3" } : ServerConfig Unit Unit).EnvironmentURL
      = (str "https://v3.example.com", none) ∧
    ({ URL := str "https://host.example/v3" } : ServerConfig Unit Unit).EnvironmentURL
      = (str "https://host.example", none) ∧
    ({ URL := str "https://host.example:8443/api" } : ServerConfig Unit Unit).EnvironmentURL
      = (str "https://host.example:8443", none) := by
  decide!

/-- A percent-escape in a host is not part of `WellFormedHost`: the escape of an ASCII byte
makes `url.Parse` fail, and `EnvironmentURL` returns the error. -/
theorem environmentURL_escaped_host_example :
    ({ URL := str "http://ex%41mple.com" } : ServerConfig Unit Unit).EnvironmentURL
      = ([], some { Op := str "parse", URL := str "http://ex%41mple.com",
                    Err := .EscapeError (str "%41") }) := by
  decide!

end config

/-! ## The values that the decoder takes -/

namespace config

theorem saveError_eq_none (a b : Option json.Error) :
    json.saveError a b = none ↔ a = none ∧ b = none := by
  cases a <;> simp [json.saveError]

theorem decodeString_err (strct field : GoString) (v : json.JValue) (cur : GoString) :
    (json.decodeString strct field v cur).2 = none ↔ fitsString v = true := by
  cases v <;> simp [json.decodeString, fitsString]

theorem unmarshalPtr_err {α : Type} (dec : json.JValue → α × Option json.Error)
    (v : json.JValue) :
    (unmarshalPtr dec v).2 = none ↔
      (match v with
       | .null => true
       | v => (dec v).2.isNone) = true := by
  cases v <;> simp [unmarshalPtr, Option.isNone_iff_eq_none]

theorem unmarshalEntries_err {α : Type} (dec : json.JValue → α × Option json.Error) :
    ∀ (ms : List (GoString × json.JValue)) (es : List (GoString × Option α)),
      (unmarshalEntries dec ms es).2 = none ↔ ∀ m ∈ ms, (unmarshalPtr dec m.2).2 = none := by
  intro ms
  induction ms with
  | nil => intro es; simp [unmarshalEntries]
  | cons m ms ih =>
    intro es
    obtain ⟨k, v⟩ := m
    simp only [unmarshalEntries, saveError_eq_none, ih, List.mem_cons, forall_eq_or_imp]

theorem unmarshalMap_err {α : Type} (typeName strct field : GoString)
    (dec : json.JValue → α × Option json.Error) (v : json.JValue) (cur : GoMap (Option α)) :
    (unmarshalMap typeName strct field dec v cur).2 = none ↔
      fitsMap (fun j => (dec j).2.isNone) v = true := by
  cases v with
  | object ms =>
    simp only [unmarshalMap, fitsMap, unmarshalEntries_err, List.all_eq_true]
    constructor
    · intro h m hm; exact (unmarshalPtr_err dec m.2).mp (h m hm)
    · intro h m hm; exact (unmarshalPtr_err dec m.2).mpr (h m hm)
  | _ => simp [unmarshalMap, fitsMap]

theorem fitsMap_congr (f g : json.JValue → Bool) (h : ∀ v, f v = g v) (v : json.JValue) :
    fitsMap f v = fitsMap g v := by
  have : f = g := funext h
  rw [this]

theorem serverConfig_unmarshalField_err {EC KC : Type} (ec : Codec EC) (kc : Codec KC)
    (stack key : GoString) (v : json.JValue) (c : ServerConfig EC KC) :
    (ServerConfig.unmarshalField ec kc stack key v c).2 = none ↔
      ServerConfig.fitsField ec kc key v = true := by
  cases hf : json.findField serverConfigFields key with
  | none => simp [ServerConfig.unmarshalField, ServerConfig.fitsField, hf]
  | some i =>
    rcases i with _ | _ | _ | _ | _ | _ | _ | _ | i <;>
      simp [ServerConfig.unmarshalField, ServerConfig.fitsField, hf, decodeString_err,
        unmarshalMap_err]

theorem serverConfig_unmarshalFields_err {EC KC : Type} (ec : Codec EC) (kc : Codec KC)
    (stack : GoString) : ∀ (ms : List (GoString × json.JValue)) (c : ServerConfig EC KC),
      (ServerConfig.unmarshalFields ec kc stack ms c).2 = none ↔
        ∀ m ∈ ms, ServerConfig.fitsField ec kc m.1 m.2 = true := by
  intro ms
  induction ms with
  | nil => intro c; simp [ServerConfig.unmarshalFields]
  | cons m ms ih =>
    intro c
    obtain ⟨k, v⟩ := m
    simp only [ServerConfig.unmarshalFields, saveError_eq_none, ih,
      serverConfig_unmarshalField_err, List.mem_cons, forall_eq_or_imp]

theorem serverConfig_unmarshal_err {EC KC : Type} (ec : Codec EC) (kc : Codec KC)
    (strct field : GoString) (v : json.JValue) (c : ServerConfig EC KC) :
    (ServerConfig.unmarshal ec kc strct field v c).2 = none ↔
      ServerConfig.Fits ec kc v = true := by
  cases v with
  | object ms =>
    simp only [ServerConfig.unmarshal, ServerConfig.Fits, serverConfig_unmarshalFields_err,
      List.all_eq_true]
  | _ => simp [ServerConfig.unmarshal, ServerConfig.Fits]

theorem config_unmarshalField_err {EC KC : Type} (ec : Codec EC) (kc : Codec KC)
    (key : GoString) (v : json.JValue) (c : Config EC KC) :
    (Config.unmarshalField ec kc key v c).2 = none ↔ Config.fitsField ec kc key v = true := by
  have hs : fitsMap (fun j =>
      (ServerConfig.unmarshal ec kc (str "Config") (str "Servers") j {}).2.isNone) v
        = fitsMap (ServerConfig.Fits ec kc) v := by
    apply fitsMap_congr
    intro j
    cases hj : ServerConfig.Fits ec kc j with
    | true =>
      rw [Option.isNone_iff_eq_none]
      exact (serverConfig_unmarshal_err ec kc _ _ j {}).mpr hj
    | false =>
      cases he : (ServerConfig.unmarshal ec kc (str "Config") (str "Servers") j {}).2 with
      | none =>
        have := (serverConfig_unmarshal_err ec kc _ _ j {}).mp he
        rw [hj] at this
        cases this
      | some e => rfl
  cases hf : json.findField configFields key with
  | none => simp [Config.unmarshalField, Config.fitsField, hf]
  | some i =>
    rcases i with _ | _ | _ | i <;>
      simp [Config.unmarshalField, Config.fitsField, hf, decodeString_err, unmarshalMap_err, hs]

theorem config_unmarshalFields_err {EC KC : Type} (ec : Codec EC) (kc : Codec KC) :
    ∀ (ms : List (GoString × json.JValue)) (c : Config EC KC),
      (Config.unmarshalFields ec kc ms c).2 = none ↔
        ∀ m ∈ ms, Config.fitsField ec kc m.1 m.2 = true := by
  intro ms
  induction ms with
  | nil => intro c; simp [Config.unmarshalFields]
  | cons m ms ih =>
    intro c
    obtain ⟨k, v⟩ := m
    simp only [Config.unmarshalFields, saveError_eq_none, ih, config_unmarshalField_err,
      List.mem_cons, forall_eq_or_imp]

/-- The decoder returns no error exactly for the values of the shape `Config.Fits`. -/
theorem config_unmarshal_err {EC KC : Type} (ec : Codec EC) (kc : Codec KC)
    (v : json.JValue) (c : Config EC KC) :
    (Config.unmarshal ec kc v c).2 = none ↔ Config.Fits ec kc v = true := by
  cases v with
  | object ms =>
    simp only [Config.unmarshal, Config.Fits, config_unmarshalFields_err, List.all_eq_true]
  | _ => simp [Config.unmarshal, Config.Fits]

/-- The call `json.Unmarshal` returns no error exactly for a text that is valid JSON and
whose value has the shape `Config.Fits`. -/
theorem unmarshal_err {EC KC : Type} (ec : Codec EC) (kc : Codec KC)
    (data : GoString) (c : Config EC KC) :
    (Unmarshal ec kc data c).2 = none ↔
      ∃ v, json.parse data = .ok v ∧ Config.Fits ec kc v = true := by
  cases hp : json.parse data with
  | error e => simp [Unmarshal, hp]
  | ok v => simp [Unmarshal, hp, config_unmarshal_err]

end config

/-! ## Loading and saving -/

namespace config

/-- Claim C8 as stated fails. No file exists at `/home/user/.rancher/cli2.json` when
`/home/user/.rancher` is a regular file, so the path cannot name a file at all; the open
is refused with `ENOTDIR`, an error that `os.IsNotExist` does not hold for, and
`LoadFromPath` returns that error. -/
theorem loadFromPath_missing_file_counterexample :
    fileInTheWayFS.files (str "/home/user/.rancher/cli2.json") = none ∧
    (LoadFromPath unitCodec unitCodec fileInTheWayFS (str "/home/user/.rancher/cli2.json")).2
      = some (.PathError (str "open") (str "/home/user/.rancher/cli2.json") ENOTDIR) ∧
    (LoadFromPath unitCodec unitCodec fileInTheWayFS
        (str "/home/user/.rancher/cli2.json")).2.map GoError.Error
      = some (str "open /home/user/.rancher/cli2.json: not a directory") := by
  decide!

/-- Claim C8, amended. For every path at which no file exists, `LoadFromPath` returns a
`Config` with that path, an empty but initialized `Servers` map and an empty
`CurrentServer`. It returns no error when the operating system reports the absence
(`ENOENT`: nothing is found under the name, or the refusal carries that number); a refusal
with any other number is returned as the `PathError` of `os.ReadFile`. -/
theorem loadFromPath_missing_file {EC KC : Type} (ec : Codec EC) (kc : Codec KC)
    (fs : os.FileSystem) (path : GoString) (h : fs.files path = none) :
    LoadFromPath ec kc fs path
      = ({ Servers := some [], Path := path, CurrentServer := [] },
         match fs.readErr path with
         | none => none
         | some fault =>
           if fault.Err = ENOENT then none else some (.PathError fault.Op path fault.Err)) := by
  cases hr : fs.readErr path with
  | none => simp [LoadFromPath, os.ReadFile, hr, h, os.IsNotExist]
  | some fault =>
    by_cases he : fault.Err = ENOENT
    · simp [LoadFromPath, os.ReadFile, hr, os.IsNotExist, he]
    · simp [LoadFromPath, os.ReadFile, hr, os.IsNotExist, he]

/-- An instance of the amended claim C8: a path in a file system that holds no file and
refuses nothing. -/
theorem loadFromPath_missing_file_witness :
    emptyFS.files (str "/home/user/.rancher/cli2.json") = none ∧
    LoadFromPath unitCodec unitCodec emptyFS (str "/home/user/.rancher/cli2.json")
      = ({ Servers := some [], Path := str "/home/user/.rancher/cli2.json",
           CurrentServer := [] }, none) :=
  ⟨rfl,
   loadFromPath_missing_file unitCodec unitCodec emptyFS (str "/home/user/.rancher/cli2.json")
     rfl⟩

/-- The comment in `LoadFromPath` says that an empty file is fine; the code treats only a
missing file so. A file of zero bytes is read, is not valid JSON, and the load fails. -/
theorem loadFromPath_empty_file_example :
    (LoadFromPath unitCodec unitCodec (oneFileFS (str "/x") []) (str "/x")).2.map GoError.Error
      = some (str "unmarshaling /x: unexpected end of JSON input") := by
  decide!

/-- Claim C9. For every path and every file content that is decoded without error, the
`Config` that `LoadFromPath` returns is the decoded one with its `Path` set to the path
argument: a `"path"` key of the content is never the one returned. -/
theorem loadFromPath_sets_path {EC KC : Type} (ec : Codec EC) (kc : Codec KC)
    (fs : os.FileSystem) (path content : GoString)
    (hread : os.ReadFile fs path = .ok content)
    (hok : (Unmarshal ec kc content { Path := path, Servers := some [] }).2 = none) :
    (LoadFromPath ec kc fs path).2 = none ∧
    (LoadFromPath ec kc fs path).1.Path = path ∧
    (LoadFromPath ec kc fs path).1
      = { (Unmarshal ec kc content { Path := path, Servers := some [] }).1 with Path := path } := by
  cases hu : Unmarshal ec kc content { Path := path, Servers := some [] } with
  | mk cf err =>
    rw [hu] at hok
    simp only at hok
    subst hok
    simp [LoadFromPath, hread, hu]

/-- An instance of claim C9: the content carries a `"path"` key with another path, which
the decoder stores in `Path`; `LoadFromPath` returns the path it was given. -/
theorem loadFromPath_sets_path_witness :
    (Unmarshal unitCodec unitCodec (str "\x7b\"path\":\"/elsewhere\",\"CurrentServer\":\"prod\"\x7d")
        ({ Path := str "/x", Servers := some [] } : Config Unit Unit)).1.Path
      = str "/elsewhere" ∧
    (LoadFromPath unitCodec unitCodec
        (oneFileFS (str "/x") (str "\x7b\"path\":\"/elsewhere\",\"CurrentServer\":\"prod\"\x7d"))
        (str "/x")).2 = none ∧
    (LoadFromPath unitCodec unitCodec
        (oneFileFS (str "/x") (str "\x7b\"path\":\"/elsewhere\",\"CurrentServer\":\"prod\"\x7d"))
        (str "/x")).1.Path = str "/x" :=
  ⟨by decide!,
   (loadFromPath_sets_path unitCodec unitCodec
      (oneFileFS (str "/x") (str "\x7b\"path\":\"/elsewhere\",\"CurrentServer\":\"prod\"\x7d"))
      (str "/x") (str "\x7b\"path\":\"/elsewhere\",\"CurrentServer\":\"prod\"\x7d")
      (by decide!) (by decide!)).1,
   (loadFromPath_sets_path unitCodec unitCodec
      (oneFileFS (str "/x") (str "\x7b\"path\":\"/elsewhere\",\"CurrentServer\":\"prod\"\x7d"))
      (str "/x") (str "\x7b\"path\":\"/elsewhere\",\"CurrentServer\":\"prod\"\x7d")
      (by decide!) (by decide!)).2.1⟩

/-- Claim C10 as stated fails. A file that holds `null` is well-formed JSON that is not
an object, and a file that holds an object none of whose keys is a field of `Config` is an
object of another shape; `json.Unmarshal` takes both without error, and `LoadFromPath`
returns no error and the empty `Config` of the path. -/
theorem loadFromPath_unmarshal_error_counterexample :
    LoadFromPath unitCodec unitCodec (oneFileFS (str "/x") (str "null")) (str "/x")
      = ({ Servers := some [], Path := str "/x", CurrentServer := [] }, none) ∧
    LoadFromPath unitCodec unitCodec
        (oneFileFS (str "/x") (str "\x7b\"name\":\"cli\",\"version\":[3]\x7d")) (str "/x")
      = ({ Servers := some [], Path := str "/x", CurrentServer := [] }, none) := by
  decide!

/-- Claim C10, amended. For every path whose file is read successfully, `LoadFromPath`
returns no error exactly when the content is valid JSON whose value has the shape
`Config.Fits`: `null`, or an object in which every member that names a field (exactly, or
else without regard to case) has `null` or a value of the kind of the field, down to the
stored values. For every other content (not well-formed, or a value that does not fit) it
returns an error that wraps the error of the decoder and whose message is
`"unmarshaling "`, the path, `": "` and the message of that error; for content that is
not well-formed the error of the decoder is the syntax error. -/
theorem loadFromPath_unmarshal_error {EC KC : Type} (ec : Codec EC) (kc : Codec KC)
    (fs : os.FileSystem) (path content : GoString)
    (hread : os.ReadFile fs path = .ok content) :
    ((LoadFromPath ec kc fs path).2 = none ↔
      ∃ v, json.parse content = .ok v ∧ Config.Fits ec kc v = true) ∧
    ((¬ ∃ v, json.parse content = .ok v ∧ Config.Fits ec kc v = true) →
      ∃ err e, (Unmarshal ec kc content { Path := path, Servers := some [] }).2 = some err ∧
        (LoadFromPath ec kc fs path).2 = some e ∧
        e.Error = str "unmarshaling " ++ path ++ str ": " ++ (GoError.json err).Error ∧
        e.Unwrap = some (GoError.json err)) ∧
    (∀ err, json.parse content = .error err →
      (Unmarshal ec kc content { Path := path, Servers := some [] }).2 = some err) := by
  have hiff := unmarshal_err ec kc content ({ Path := path, Servers := some [] } : Config EC KC)
  refine ⟨?_, ?_, ?_⟩
  · rw [← hiff]
    cases hu : Unmarshal ec kc content { Path := path, Servers := some [] } with
    | mk cf e0 =>
      cases e0 with
      | none => simp [LoadFromPath, hread, hu]
      | some err => simp [LoadFromPath, hread, hu]
  · intro hno
    rw [← hiff] at hno
    cases hu : Unmarshal ec kc content { Path := path, Servers := some [] } with
    | mk cf e0 =>
      cases e0 with
      | none => rw [hu] at hno; exact absurd rfl hno
      | some err =>
        refine ⟨err, .wrapError (str "unmarshaling " ++ path ++ str ": " ++ err.Error) (.json err),
          rfl, ?_, rfl, rfl⟩
        simp [LoadFromPath, hread, hu]
  · intro err herr
    simp [Unmarshal, herr]

/-- An instance of the amended claim C10: a file whose `Servers` member is an array. -/
theorem loadFromPath_unmarshal_error_witness :
    os.ReadFile (oneFileFS (str "/x") (str "\x7b\"Servers\":[]\x7d")) (str "/x")
      = .ok (str "\x7b\"Servers\":[]\x7d") ∧
    (∃ err e, (Unmarshal unitCodec unitCodec (str "\x7b\"Servers\":[]\x7d")
        ({ Path := str "/x", Servers := some [] } : Config Unit Unit)).2 = some err ∧
      (LoadFromPath unitCodec unitCodec (oneFileFS (str "/x") (str "\x7b\"Servers\":[]\x7d"))
        (str "/x")).2 = some e ∧
      e.Error = str "unmarshaling " ++ str "/x" ++ str ": " ++ (GoError.json err).Error ∧
      e.Unwrap = some (GoError.json err)) ∧
    ((LoadFromPath unitCodec unitCodec (oneFileFS (str "/x") (str "\x7b\"Servers\":[]\x7d"))
        (str "/x")).2.map GoError.Error
      = some (str ("unmarshaling /x: json: cannot unmarshal array into Go struct field " ++
          "Config.Servers of type map[string]*config.ServerConfig"))) :=
  ⟨by decide!,
   (loadFromPath_unmarshal_error unitCodec unitCodec
      (oneFileFS (str "/x") (str "\x7b\"Servers\":[]\x7d")) (str "/x")
      (str "\x7b\"Servers\":[]\x7d") (by decide!)).2.1
     (fun h => absurd
       ((loadFromPath_unmarshal_error unitCodec unitCodec
          (oneFileFS (str "/x") (str "\x7b\"Servers\":[]\x7d")) (str "/x")
          (str "\x7b\"Servers\":[]\x7d") (by decide!)).1.mpr h)
       (by decide!)),
   by decide!⟩

/-- Values that do not fit: an array in place of the object, a number in a string field,
a truth value in a string field of a server. Each is rejected with the error of the
decoder for the first value that does not fit. -/
theorem loadFromPath_shape_error_examples :
    ((LoadFromPath unitCodec unitCodec (oneFileFS (str "/x") (str "[]")) (str "/x")).2.map
        GoError.Error
      = some (str ("unmarshaling /x: json: cannot unmarshal array into Go value of type " ++
          "config.Config"))) ∧
    ((LoadFromPath unitCodec unitCodec
        (oneFileFS (str "/x") (str "\x7b\"CurrentServer\":5\x7d")) (str "/x")).2.map
        GoError.Error
      = some (str ("unmarshaling /x: json: cannot unmarshal number into Go struct field " ++
          "Config.CurrentServer of type string"))) ∧
    ((LoadFromPath unitCodec unitCodec
        (oneFileFS (str "/x") (str "\x7b\"Servers\":\x7b\"a\":\x7b\"url\":true\x7d\x7d\x7d"))
        (str "/x")).2.map GoError.Error
      = some (str ("unmarshaling /x: json: cannot unmarshal bool into Go struct field " ++
          "ServerConfig.Servers.url of type string"))) := by
  decide!

/-- A file that ends inside an object is not well-formed: the load fails with the syntax
error of the decoder. -/
theorem loadFromPath_syntax_error_example :
    (LoadFromPath unitCodec unitCodec (oneFileFS (str "/x") (str "\x7b\"Servers\":"))
        (str "/x")).2.map GoError.Error
      = some (str "unmarshaling /x: unexpected end of JSON input") := by
  decide!

end config

namespace config

/-- What `Config.marshal` gives for a `Config` whose `Path` is empty: an object with the
members `Servers` and `CurrentServer` and no other. -/
theorem marshal_cleared_path {EC KC : Type} (ec : Codec EC) (kc : Codec KC) (c : Config EC KC)
    (v : json.JValue) (h : Config.marshal ec kc { c with Path := [] } = .ok v) :
    ∃ servers, marshalMap (ServerConfig.marshal ec kc) c.Servers = .ok servers ∧
      v = .object [(str "Servers", servers), (str "CurrentServer", .string c.CurrentServer)] := by
  unfold Config.marshal at h
  cases hs : marshalMap (ServerConfig.marshal ec kc) c.Servers with
  | error e => simp [hs] at h
  | ok servers =>
    simp only [hs, if_true, List.append_nil, List.singleton_append, Except.ok.injEq] at h
    exact ⟨servers, rfl, h.symm⟩

/-- Claim C7. For every `Config` and every file system, whether `Write` succeeds or fails:
the receiver variable of the call, a copy of the caller's `Config`, differs from the
caller's value at most in its `Path`, which is cleared, so `Servers` and `CurrentServer`
are untouched and the caller's variable keeps its `Path`; no other file is touched; and
what is written to the file is the encoding of the copy with the cleared `Path`, an object
with the members `Servers` and `CurrentServer` and no `path` member (all of it when `Write`
succeeds, the first bytes of it when the write fails). -/
theorem write_omits_path {EC KC : Type} (ec : Codec EC) (kc : Codec KC) (c : Config EC KC)
    (fs : os.FileSystem) :
    ((c.Write ec kc fs).receiver = c ∨ (c.Write ec kc fs).receiver = { c with Path := [] }) ∧
    (c.Write ec kc fs).receiver.Servers = c.Servers ∧
    (c.Write ec kc fs).receiver.CurrentServer = c.CurrentServer ∧
    (∀ q, q ≠ c.Path → (c.Write ec kc fs).fs.files q = fs.files q) ∧
    ((c.Write ec kc fs).fs.files c.Path = fs.files c.Path ∨
      (c.Write ec kc fs).fs.files c.Path = some [] ∨
      ∃ servers n, marshalMap (ServerConfig.marshal ec kc) c.Servers = .ok servers ∧
        (c.Write ec kc fs).fs.files c.Path = some (((json.JValue.object
          [(str "Servers", servers), (str "CurrentServer", .string c.CurrentServer)]).encode
            ++ [10]).take n)) ∧
    ((c.Write ec kc fs).err = none →
      ∃ servers, marshalMap (ServerConfig.marshal ec kc) c.Servers = .ok servers ∧
        (c.Write ec kc fs).fs.files c.Path = some ((json.JValue.object
          [(str "Servers", servers), (str "CurrentServer", .string c.CurrentServer)]).encode
            ++ [10])) := by
  unfold Config.Write
  cases hm : os.MkdirAll fs (path.Dir c.Path) 0o700 with
  | some err => simp
  | none =>
    simp only
    cases hc : os.Create fs c.Path with
    | error err => simp
    | ok fs1 =>
      have hfs1 : fs1 = { fs with files := fun n => if n = c.Path then some [] else fs.files n } := by
        unfold os.Create at hc
        cases hce : fs.createErr c.Path with
        | some e => simp [hce] at hc
        | none => simpa [hce] using hc.symm
      simp only
      cases hj : Config.marshal ec kc { c with Path := [] } with
      | error e =>
        simp only [hfs1]
        refine ⟨Or.inr trivial, trivial, trivial, ?_, Or.inr (Or.inl ?_), ?_⟩
        · intro q hq; simp [hq]
        · simp
        · intro h; simp at h
      | ok v =>
        obtain ⟨servers, hs, hv⟩ := marshal_cleared_path ec kc c v hj
        subst hv
        simp only [hfs1, os.Write]
        cases hw : fs.writeErr c.Path with
        | some en =>
          obtain ⟨errno, n⟩ := en
          refine ⟨Or.inr trivial, trivial, trivial, ?_, Or.inr (Or.inr ⟨servers, n, hs, ?_⟩), ?_⟩
          · intro q hq; simp [hq]
          · simp
          · intro h; simp at h
        | none =>
          refine ⟨Or.inr trivial, trivial, trivial, ?_, Or.inr (Or.inr ⟨servers, ((json.JValue.object
              [(str "Servers", servers), (str "CurrentServer", .string c.CurrentServer)]).encode
                ++ [10]).length, hs, ?_⟩), ?_⟩
          · intro q hq; simp [hq]
          · simp
          · intro _
            exact ⟨servers, hs, by simp⟩

/-- An instance of claim C7: the file that `Write` leaves for the sample configuration. -/
theorem write_omits_path_example :
    (sampleConfig.Write unitCodec unitCodec emptyFS).err = none ∧
    (sampleConfig.Write unitCodec unitCodec emptyFS).receiver.Path = [] ∧
    (sampleConfig.Write unitCodec unitCodec emptyFS).logged
      = [str "Saving config to /home/user/.rancher/cli2.json"] ∧
    (sampleConfig.Write unitCodec unitCodec emptyFS).fs.files sampleConfig.Path
      = some (str ("\x7b\"Servers\":\x7b\"prod\":\x7b\"accessKey\":\"\",\"secretKey\":\"\"," ++
          "\"tokenKey\":\"\",\"url\":\"https://host.example/v3\"," ++
          "\"project\":\"c-abc123:p-xyz456\",\"cacert\":\"\",\"kubeCredentials\":null," ++
          "\"kubeConfigs\":null\x7d\x7d,\"CurrentServer\":\"prod\"\x7d\n")) := by
  decide!

end config

/-! ## UTF-8: decoding and encoding of valid sequences -/

namespace utf8

theorem and_3F (x : Nat) : x &&& 0x3F = x % 64 := Nat.and_pow_two_sub_one_eq_mod x 6
theorem and_1F (x : Nat) : x &&& 0x1F = x % 32 := Nat.and_pow_two_sub_one_eq_mod x 5
theorem and_0F (x : Nat) : x &&& 0x0F = x % 16 := Nat.and_pow_two_sub_one_eq_mod x 4
theorem and_07 (x : Nat) : x &&& 0x07 = x % 8 := Nat.and_pow_two_sub_one_eq_mod x 3

theorem or_80 (x : Nat) (h : x < 64) : 0x80 ||| x = 128 + x :=
  (Nat.mul_add_lt_is_or (i := 6) h 2).symm
theorem or_C0 (x : Nat) (h : x < 64) : 0xC0 ||| x = 192 + x :=
  (Nat.mul_add_lt_is_or (i := 6) h 3).symm
theorem or_E0 (x : Nat) (h : x < 16) : 0xE0 ||| x = 224 + x :=
  (Nat.mul_add_lt_is_or (i := 4) h 14).symm
theorem or_F0 (x : Nat) (h : x < 8) : 0xF0 ||| x = 240 + x :=
  (Nat.mul_add_lt_is_or (i := 3) h 30).symm

theorem shl_or (a b i : Nat) (h : b < 2 ^ i) : (a <<< i) ||| b = a * 2 ^ i + b := by
  rw [Nat.shiftLeft_eq, Nat.mul_comm a, ← Nat.mul_add_lt_is_or h]

/-- The rune of a two-byte sequence. -/
theorem rune2 (b0 b1 : Nat) : ((b0 &&& 0x1F) <<< 6) ||| (b1 &&& 0x3F) = b0 % 32 * 64 + b1 % 64 := by
  rw [and_1F, and_3F, shl_or _ _ 6 (by norm_num; omega)]
  norm_num

/-- The rune of a three-byte sequence. -/
theorem rune3 (b0 b1 b2 : Nat) :
    ((b0 &&& 0x0F) <<< 12) ||| ((b1 &&& 0x3F) <<< 6) ||| (b2 &&& 0x3F)
      = b0 % 16 * 4096 + b1 % 64 * 64 + b2 % 64 := by
  rw [and_0F, and_3F, and_3F]
  have h1 : (b1 % 64) <<< 6 = b1 % 64 * 64 := by rw [Nat.shiftLeft_eq]
  rw [h1, shl_or _ _ 12 (by norm_num; omega)]
  have h2 : b0 % 16 * 2 ^ 12 + b1 % 64 * 64 = (b0 % 16 * 64 + b1 % 64) <<< 6 := by
    rw [Nat.shiftLeft_eq]; norm_num; ring
  rw [h2, shl_or _ _ 6 (by norm_num; omega)]
  norm_num; ring

/-- The rune of a four-byte sequence. -/
theorem rune4 (b0 b1 b2 b3 : Nat) :
    ((b0 &&& 0x07) <<< 18) ||| ((b1 &&& 0x3F) <<< 12) ||| ((b2 &&& 0x3F) <<< 6) ||| (b3 &&& 0x3F)
      = b0 % 8 * 262144 + b1 % 64 * 4096 + b2 % 64 * 64 + b3 % 64 := by
  rw [and_07, and_3F, and_3F, and_3F]
  have h1 : (b1 % 64) <<< 12 = b1 % 64 * 4096 := by rw [Nat.shiftLeft_eq]
  have h2 : (b2 % 64) <<< 6 = b2 % 64 * 64 := by rw [Nat.shiftLeft_eq]
  rw [h1, h2, shl_or _ _ 18 (by norm_num; omega)]
  have h3 : b0 % 8 * 2 ^ 18 + b1 % 64 * 4096 = (b0 % 8 * 64 + b1 % 64) <<< 12 := by
    rw [Nat.shiftLeft_eq]; norm_num; ring
  rw [h3, shl_or _ _ 12 (by norm_num; omega)]
  have h4 : (b0 % 8 * 64 + b1 % 64) * 2 ^ 12 + b2 % 64 * 64
      = ((b0 % 8 * 64 + b1 % 64) * 64 + b2 % 64) <<< 6 := by
    rw [Nat.shiftLeft_eq]; norm_num; ring
  rw [h4, shl_or _ _ 6 (by norm_num; omega)]
  norm_num; ring

theorem shr (r n : Nat) : r >>> n = r / 2 ^ n := Nat.shiftRight_eq_div_pow r n

/-- The encoding of a rune, in arithmetic form. -/
theorem encodeRune_eq (r : Nat) :
    EncodeRune r =
      if r ≤ 0x7F then [r]
      else if r ≤ 0x7FF then [192 + r / 64, 128 + r % 64]
      else if r > 0x10FFFF ∨ (0xD800 ≤ r ∧ r ≤ 0xDFFF) then [0xEF, 0xBF, 0xBD]
      else if r ≤ 0xFFFF then [224 + r / 4096, 128 + r / 64 % 64, 128 + r % 64]
      else [240 + r / 262144, 128 + r / 4096 % 64, 128 + r / 64 % 64, 128 + r % 64] := by
  unfold EncodeRune
  by_cases h1 : r ≤ 0x7F
  · simp [h1]
  · by_cases h2 : r ≤ 0x7FF
    · simp only [h1, h2, if_true, if_false, and_3F, shr]
      rw [or_C0 _ (by norm_num; omega), or_80 _ (by omega)]
      norm_num
    · by_cases h3 : r > 0x10FFFF ∨ (0xD800 ≤ r ∧ r ≤ 0xDFFF)
      · simp only [h1, h2, h3, if_true, if_false]
        decide
      · have h4 : r ≤ 0x10FFFF := by omega
        by_cases h5 : r ≤ 0xFFFF
        · simp only [h1, h2, h3, h5, if_true, if_false, and_3F, shr]
          rw [or_E0 _ (by norm_num; omega), or_80 _ (by omega), or_80 _ (by omega)]
          norm_num
        · simp only [h1, h2, h3, h5, if_true, if_false, and_3F, shr]
          rw [or_F0 _ (by norm_num; omega), or_80 _ (by omega), or_80 _ (by omega),
            or_80 _ (by omega)]
          norm_num

end utf8

namespace utf8

theorem first_eq (p0 : Nat) (h : 0x80 ≤ p0) :
    (first p0 = none ∧ (p0 < 0xC2 ∨ 0xF4 < p0)) ∨
    (first p0 = some (2, 0x80, 0xBF) ∧ 0xC2 ≤ p0 ∧ p0 ≤ 0xDF) ∨
    (first p0 = some (3, 0xA0, 0xBF) ∧ p0 = 0xE0) ∨
    (first p0 = some (3, 0x80, 0xBF) ∧ ((0xE1 ≤ p0 ∧ p0 ≤ 0xEC) ∨ p0 = 0xEE ∨ p0 = 0xEF)) ∨
    (first p0 = some (3, 0x80, 0x9F) ∧ p0 = 0xED) ∨
    (first p0 = some (4, 0x90, 0xBF) ∧ p0 = 0xF0) ∨
    (first p0 = some (4, 0x80, 0xBF) ∧ 0xF1 ≤ p0 ∧ p0 ≤ 0xF3) ∨
    (first p0 = some (4, 0x80, 0x8F) ∧ p0 = 0xF4) := by
  unfold first
  split_ifs <;> simp <;> omega

theorem decodeRune_ascii (b : Nat) (t : GoString) (h : b < 0x80) : DecodeRune (b :: t) = (b, 1) := by
  simp [DecodeRune, h]

theorem decodeRune_seq2 (b0 b1 : Nat) (t : GoString) (h : Seq2 b0 b1) :
    DecodeRune (b0 :: b1 :: t) = (b0 % 32 * 64 + b1 % 64, 2) := by
  obtain ⟨⟨h0, h0'⟩, h1, h1'⟩ := h
  have hf : first b0 = some (2, 0x80, 0xBF) := by
    rcases first_eq b0 (by omega) with h | h | h | h | h | h | h | h <;> first | exact h.1 | omega
  have hn : ¬ b0 < 0x80 := by omega
  have hr : ¬ (b1 < 0x80 ∨ 0xBF < b1) := by omega
  simp only [DecodeRune, hn, if_false, hf, List.length_cons, hr, rune2]
  simp

theorem decodeRune_of_first3 (b0 b1 b2 lo hi : Nat) (t : GoString) (hn : 0x80 ≤ b0)
    (hf : first b0 = some (3, lo, hi)) (h1 : lo ≤ b1 ∧ b1 ≤ hi) (h2 : 0x80 ≤ b2 ∧ b2 ≤ 0xBF) :
    DecodeRune (b0 :: b1 :: b2 :: t) = (b0 % 16 * 4096 + b1 % 64 * 64 + b2 % 64, 3) := by
  have hn' : ¬ b0 < 0x80 := by omega
  have hr : ¬ (b1 < lo ∨ hi < b1) := by omega
  have hr2 : ¬ (b2 < 0x80 ∨ 0xBF < b2) := by omega
  simp only [DecodeRune, hn', if_false, hf, List.length_cons, hr, hr2, rune3]
  simp

theorem decodeRune_of_first4 (b0 b1 b2 b3 lo hi : Nat) (t : GoString) (hn : 0x80 ≤ b0)
    (hf : first b0 = some (4, lo, hi)) (h1 : lo ≤ b1 ∧ b1 ≤ hi) (h2 : 0x80 ≤ b2 ∧ b2 ≤ 0xBF)
    (h3 : 0x80 ≤ b3 ∧ b3 ≤ 0xBF) :
    DecodeRune (b0 :: b1 :: b2 :: b3 :: t)
      = (b0 % 8 * 262144 + b1 % 64 * 4096 + b2 % 64 * 64 + b3 % 64, 4) := by
  have hn' : ¬ b0 < 0x80 := by omega
  have hr : ¬ (b1 < lo ∨ hi < b1) := by omega
  have hr2 : ¬ (b2 < 0x80 ∨ 0xBF < b2) := by omega
  have hr3 : ¬ (b3 < 0x80 ∨ 0xBF < b3) := by omega
  simp only [DecodeRune, hn', if_false, hf, List.length_cons, hr, hr2, hr3, rune4]
  simp

theorem decodeRune_seq3 (b0 b1 b2 : Nat) (t : GoString) (h : Seq3 b0 b1 b2) :
    DecodeRune (b0 :: b1 :: b2 :: t) = (b0 % 16 * 4096 + b1 % 64 * 64 + b2 % 64, 3) := by
  obtain ⟨h01, h2⟩ := h
  rcases first_eq b0 (by omega) with h | h | h | h | h | h | h | h
  all_goals first
    | (exfalso; omega)
    | exact decodeRune_of_first3 b0 b1 b2 _ _ t (by omega) h.1 (by omega) h2

theorem decodeRune_seq4 (b0 b1 b2 b3 : Nat) (t : GoString) (h : Seq4 b0 b1 b2 b3) :
    DecodeRune (b0 :: b1 :: b2 :: b3 :: t)
      = (b0 % 8 * 262144 + b1 % 64 * 4096 + b2 % 64 * 64 + b3 % 64, 4) := by
  obtain ⟨h01, h2, h3⟩ := h
  rcases first_eq b0 (by omega) with h | h | h | h | h | h | h | h
  all_goals first
    | (exfalso; omega)
    | exact decodeRune_of_first4 b0 b1 b2 b3 _ _ t (by omega) h.1 (by omega) h2 h3

theorem encodeRune_seq2 (b0 b1 : Nat) (h : Seq2 b0 b1) :
    EncodeRune (b0 % 32 * 64 + b1 % 64) = [b0, b1] := by
  obtain ⟨⟨h0, h0'⟩, h1, h1'⟩ := h
  rw [encodeRune_eq]
  have c1 : ¬ b0 % 32 * 64 + b1 % 64 ≤ 0x7F := by omega
  have c2 : b0 % 32 * 64 + b1 % 64 ≤ 0x7FF := by omega
  simp only [c1, c2, if_true, if_false]
  congr 1
  · omega
  · congr 1; omega

theorem encodeRune_seq3 (b0 b1 b2 : Nat) (h : Seq3 b0 b1 b2) :
    EncodeRune (b0 % 16 * 4096 + b1 % 64 * 64 + b2 % 64) = [b0, b1, b2] := by
  obtain ⟨h01, h2, h2'⟩ := h
  rw [encodeRune_eq]
  have c1 : ¬ b0 % 16 * 4096 + b1 % 64 * 64 + b2 % 64 ≤ 0x7F := by omega
  have c2 : ¬ b0 % 16 * 4096 + b1 % 64 * 64 + b2 % 64 ≤ 0x7FF := by omega
  have c3 : ¬ (b0 % 16 * 4096 + b1 % 64 * 64 + b2 % 64 > 0x10FFFF ∨
      (0xD800 ≤ b0 % 16 * 4096 + b1 % 64 * 64 + b2 % 64 ∧
        b0 % 16 * 4096 + b1 % 64 * 64 + b2 % 64 ≤ 0xDFFF)) := by omega
  have c4 : b0 % 16 * 4096 + b1 % 64 * 64 + b2 % 64 ≤ 0xFFFF := by omega
  simp only [c1, c2, c3, c4, if_true, if_false]
  congr 1
  · omega
  · congr 1
    · omega
    · congr 1; omega

theorem encodeRune_seq4 (b0 b1 b2 b3 : Nat) (h : Seq4 b0 b1 b2 b3) :
    EncodeRune (b0 % 8 * 262144 + b1 % 64 * 4096 + b2 % 64 * 64 + b3 % 64)
      = [b0, b1, b2, b3] := by
  obtain ⟨h01, ⟨h2, h2'⟩, h3, h3'⟩ := h
  rw [encodeRune_eq]
  have c1 : ¬ b0 % 8 * 262144 + b1 % 64 * 4096 + b2 % 64 * 64 + b3 % 64 ≤ 0x7F := by omega
  have c2 : ¬ b0 % 8 * 262144 + b1 % 64 * 4096 + b2 % 64 * 64 + b3 % 64 ≤ 0x7FF := by omega
  have c3 : ¬ (b0 % 8 * 262144 + b1 % 64 * 4096 + b2 % 64 * 64 + b3 % 64 > 0x10FFFF ∨
      (0xD800 ≤ b0 % 8 * 262144 + b1 % 64 * 4096 + b2 % 64 * 64 + b3 % 64 ∧
        b0 % 8 * 262144 + b1 % 64 * 4096 + b2 % 64 * 64 + b3 % 64 ≤ 0xDFFF)) := by omega
  have c4 : ¬ b0 % 8 * 262144 + b1 % 64 * 4096 + b2 % 64 * 64 + b3 % 64 ≤ 0xFFFF := by omega
  simp only [c1, c2, c3, c4, if_true, if_false]
  congr 1
  · omega
  · congr 1
    · omega
    · congr 1
      · omega
      · congr 1; omega

theorem validFrom_cont (need lo hi c : Nat) (rest : GoString)
    (h : validFrom (need + 1) lo hi (c :: rest) = true) :
    (lo ≤ c ∧ c ≤ hi) ∧ validFrom need 0x80 0xBF rest = true := by
  rw [validFrom] at h
  simp only [Nat.add_one_ne_zero, if_false, Nat.add_sub_cancel] at h
  by_cases hc : c < lo ∨ hi < c
  · simp [hc] at h
  · simp only [hc, if_false] at h
    exact ⟨by omega, h⟩

theorem validFrom_nil (need lo hi : Nat) : validFrom (need + 1) lo hi [] = false := by
  simp [validFrom]

/-- One step of `ValidString`: a valid string starts with an ASCII byte or with a valid
sequence of two, three or four bytes, and what follows is valid. -/
theorem validString_cons (si : Nat) (rest : GoString) (h : ValidString (si :: rest) = true) :
    (si < 0x80 ∧ ValidString rest = true) ∨
    (∃ c1 t, rest = c1 :: t ∧ Seq2 si c1 ∧ ValidString t = true) ∨
    (∃ c1 c2 t, rest = c1 :: c2 :: t ∧ Seq3 si c1 c2 ∧ ValidString t = true) ∨
    (∃ c1 c2 c3 t, rest = c1 :: c2 :: c3 :: t ∧ Seq4 si c1 c2 c3 ∧ ValidString t = true) := by
  unfold ValidString at h ⊢
  rw [validFrom] at h
  simp only [if_true] at h
  by_cases hs : si < 0x80
  · left
    simp only [hs, if_true] at h
    exact ⟨hs, h⟩
  · right
    simp only [hs, if_false] at h
    have two : ∀ lo hi, validFrom (2 - 1) lo hi rest = true →
        ∃ c1 t, rest = c1 :: t ∧ (lo ≤ c1 ∧ c1 ≤ hi) ∧ validFrom 0 0x80 0xBF t = true := by
      intro lo hi hv
      cases rest with
      | nil => simp [validFrom] at hv
      | cons c1 t => exact ⟨c1, t, rfl, validFrom_cont 0 lo hi c1 t hv⟩
    have three : ∀ lo hi, validFrom (3 - 1) lo hi rest = true →
        ∃ c1 c2 t, rest = c1 :: c2 :: t ∧ (lo ≤ c1 ∧ c1 ≤ hi) ∧ (0x80 ≤ c2 ∧ c2 ≤ 0xBF) ∧
          validFrom 0 0x80 0xBF t = true := by
      intro lo hi hv
      cases rest with
      | nil => simp [validFrom] at hv
      | cons c1 t1 =>
        obtain ⟨h1, hv1⟩ := validFrom_cont 1 lo hi c1 t1 hv
        cases t1 with
        | nil => simp [validFrom] at hv1
        | cons c2 t => exact ⟨c1, c2, t, rfl, h1, validFrom_cont 0 _ _ c2 t hv1⟩
    have four : ∀ lo hi, validFrom (4 - 1) lo hi rest = true →
        ∃ c1 c2 c3 t, rest = c1 :: c2 :: c3 :: t ∧ (lo ≤ c1 ∧ c1 ≤ hi) ∧
          (0x80 ≤ c2 ∧ c2 ≤ 0xBF) ∧ (0x80 ≤ c3 ∧ c3 ≤ 0xBF) ∧
          validFrom 0 0x80 0xBF t = true := by
      intro lo hi hv
      cases rest with
      | nil => simp [validFrom] at hv
      | cons c1 t1 =>
        obtain ⟨h1, hv1⟩ := validFrom_cont 2 lo hi c1 t1 hv
        cases t1 with
        | nil => simp [validFrom] at hv1
        | cons c2 t2 =>
          obtain ⟨h2, hv2⟩ := validFrom_cont 1 _ _ c2 t2 hv1
          cases t2 with
          | nil => simp [validFrom] at hv2
          | cons c3 t => exact ⟨c1, c2, c3, t, rfl, h1, h2, validFrom_cont 0 _ _ c3 t hv2⟩
    rcases first_eq si (by omega) with hf | hf | hf | hf | hf | hf | hf | hf
    all_goals
      rw [hf.1] at h
      simp only at h
    · exact absurd h (by simp)
    · obtain ⟨c1, t, rfl, h1, hv⟩ := two _ _ h
      exact Or.inl ⟨c1, t, rfl, ⟨⟨by omega, by omega⟩, by omega, by omega⟩, hv⟩
    all_goals first
      | (obtain ⟨c1, c2, t, rfl, h1, h2, hv⟩ := three _ _ h
         exact Or.inr (Or.inl ⟨c1, c2, t, rfl, ⟨by omega, by omega, by omega⟩, hv⟩))
      | (obtain ⟨c1, c2, c3, t, rfl, h1, h2, h3, hv⟩ := four _ _ h
         exact Or.inr (Or.inr ⟨c1, c2, c3, t, rfl,
           ⟨by omega, ⟨by omega, by omega⟩, by omega, by omega⟩, hv⟩))

end utf8

/-! ## String literals: what `appendString` writes, the scanner reads back -/

namespace json

theorem hexValue_hex (n : Nat) (h : n < 16) : hexValue (hex n) = some n := by
  revert n; decide

/-- An escaped ASCII byte is read back as that byte. -/
theorem scanStringStep_escapeByte : ∀ b, b < 0x80 → htmlSafeSet b = false → ∀ X : GoString,
    ∃ c t, escapeByte b = c :: t ∧ scanStringStep c (t ++ X) = .emit [b] X := by
  intro b hb hs X
  have hcases : b = 34 ∨ b = 92 ∨ b = 8 ∨ b = 12 ∨ b = 10 ∨ b = 13 ∨ b = 9 ∨
      (b ≠ 34 ∧ b ≠ 92 ∧ b ≠ 8 ∧ b ≠ 12 ∧ b ≠ 10 ∧ b ≠ 13 ∧ b ≠ 9) := by omega
  rcases hcases with rfl | rfl | rfl | rfl | rfl | rfl | rfl | hne
  · exact ⟨92, [34], rfl, rfl⟩
  · exact ⟨92, [92], rfl, rfl⟩
  · exact ⟨92, [98], rfl, rfl⟩
  · exact ⟨92, [102], rfl, rfl⟩
  · exact ⟨92, [110], rfl, rfl⟩
  · exact ⟨92, [114], rfl, rfl⟩
  · exact ⟨92, [116], rfl, rfl⟩
  · refine ⟨92, [117, 48, 48, hex (b >>> 4), hex (b &&& 0xF)], ?_, ?_⟩
    · simp only [escapeByte]
      simp [hne]
    · have h1 : b >>> 4 < 16 := by rw [Nat.shiftRight_eq_div_pow]; norm_num; omega
      have h2 : b &&& 0xF < 16 := by
        have := Nat.and_pow_two_sub_one_eq_mod b 4
        norm_num at this
        rw [this]; omega
      have hval : (0 * 16 + 0) * 16 * 16 + b >>> 4 * 16 + (b &&& 0xF) = b := by
        have := Nat.and_pow_two_sub_one_eq_mod b 4
        norm_num at this
        rw [this, Nat.shiftRight_eq_div_pow]; norm_num; omega
      have hex0 : hexValue 48 = some 0 := by decide
      have hsc : scanHex 4 0 ([48, 48, hex (b >>> 4), hex (b &&& 0xF)] ++ X) = .ok (b, X) := by
        simp only [List.cons_append, List.nil_append, scanHex, hex0, hexValue_hex _ h1,
          hexValue_hex _ h2]
        congr 2
        omega
      have hsur : isSurrogate b = false := by
        simp only [isSurrogate, Bool.and_eq_false_iff, decide_eq_false_iff_not]
        left; omega
      have henc : utf8.EncodeRune b = [b] := by
        rw [utf8.encodeRune_eq]; simp; omega
      simp only [scanStringStep, List.cons_append, List.nil_append] at hsc ⊢
      simp [hsc, hsur, henc]

end json

namespace json

theorem appendStringLoop_nil (f : Nat) : appendStringLoop f [] = [] := by
  cases f <;> rfl

/-- What one turn of `appendString` writes for the first rune of a valid string, the
scanner reads back as the bytes of that rune. -/
theorem step_roundtrip (b : Nat) (t : GoString) (hv : utf8.ValidString (b :: t) = true) :
    ∃ (w t1 : GoString) (c : Nat) (o : GoString), b :: t = w ++ t1 ∧ w ≠ [] ∧
      utf8.ValidString t1 = true ∧
      appendStringStep b t = (c :: o, t1) ∧
      ∀ X, scanStringStep c (o ++ X) = .emit w X := by
  rcases utf8.validString_cons b t hv with ⟨hb, ht⟩ | ⟨c1, t1, rfl, hs, ht⟩ |
      ⟨c1, c2, t1, rfl, hs, ht⟩ | ⟨c1, c2, c3, t1, rfl, hs, ht⟩
  · -- an ASCII byte
    by_cases hsafe : htmlSafeSet b = true
    · refine ⟨[b], t, b, [], rfl, by simp, ht, by simp [appendStringStep, hb, hsafe], ?_⟩
      intro X
      have h1 : b ≠ 34 ∧ b ≠ 92 ∧ ¬ b < 0x20 := by
        simp only [htmlSafeSet, Bool.and_eq_true, decide_eq_true_eq, Bool.not_eq_true',
          Bool.or_eq_false_iff, beq_eq_false_iff_ne, ne_eq] at hsafe
        omega
      simp [scanStringStep, h1, hb]
    · have hsafe' : htmlSafeSet b = false := by simpa using hsafe
      obtain ⟨c, o, he, hsc⟩ := scanStringStep_escapeByte b hb hsafe' []
      refine ⟨[b], t, c, o, rfl, by simp, ht, by simp [appendStringStep, hb, hsafe', he], ?_⟩
      intro X
      obtain ⟨c', o', he', hsc'⟩ := scanStringStep_escapeByte b hb hsafe' X
      rw [he] at he'
      cases he'
      exact hsc'
  · -- two bytes
    have hd := utf8.decodeRune_seq2 b c1 (t1.take 2) hs
    have hd2 := fun X => utf8.decodeRune_seq2 b c1 X hs
    have he := utf8.encodeRune_seq2 b c1 hs
    obtain ⟨⟨h0, h0'⟩, h1, h1'⟩ := hs
    have hb : ¬ b < 0x80 := by omega
    have hr1 : ¬ (b % 32 * 64 + c1 % 64 = utf8.RuneError ∧ 2 = 1) := by omega
    have hr2 : ¬ (b % 32 * 64 + c1 % 64 = 0x2028 ∨ b % 32 * 64 + c1 % 64 = 0x2029) := by omega
    refine ⟨[b, c1], t1, b, [c1], rfl, by simp, ht, ?_, ?_⟩
    · have htake : (b :: c1 :: t1).take 4 = b :: c1 :: t1.take 2 := rfl
      simp only [appendStringStep, hb, if_false, htake, hd, hr1, hr2]
      rfl
    · intro X
      have h34 : b ≠ 34 ∧ b ≠ 92 ∧ ¬ b < 0x20 := by omega
      simp only [scanStringStep, h34.1, h34.2.1, h34.2.2, hb, if_false, List.cons_append,
        List.nil_append, hd2 X, he]
      rfl
  · -- three bytes
    have hd := utf8.decodeRune_seq3 b c1 c2 (t1.take 1) hs
    have hd2 := fun X => utf8.decodeRune_seq3 b c1 c2 X hs
    have he := utf8.encodeRune_seq3 b c1 c2 hs
    have hb : ¬ b < 0x80 := by
      obtain ⟨h01, _⟩ := hs; omega
    have h34 : b ≠ 34 ∧ b ≠ 92 ∧ ¬ b < 0x20 := by omega
    have hr1 : ¬ (b % 16 * 4096 + c1 % 64 * 64 + c2 % 64 = utf8.RuneError ∧ 3 = 1) := by omega
    have htake : (b :: c1 :: c2 :: t1).take 4 = b :: c1 :: c2 :: t1.take 1 := rfl
    have hscan : ∀ X, scanStringStep b ([c1, c2] ++ X) = .emit [b, c1, c2] X := by
      intro X
      simp only [scanStringStep, h34.1, h34.2.1, h34.2.2, hb, if_false, List.cons_append,
        List.nil_append, hd2 X, he]
      rfl
    by_cases hls : b % 16 * 4096 + c1 % 64 * 64 + c2 % 64 = 0x2028 ∨
        b % 16 * 4096 + c1 % 64 * 64 + c2 % 64 = 0x2029
    · -- U+2028 and U+2029 are written as escapes
      refine ⟨[b, c1, c2], t1, 92, [117, 50, 48, 50,
        hex ((b % 16 * 4096 + c1 % 64 * 64 + c2 % 64) &&& 0xF)], rfl, by simp, ht, ?_, ?_⟩
      · simp only [appendStringStep, hb, if_false, htake, hd, hr1, hls, if_true]
        rfl
      · intro X
        rcases hls with hr | hr
        · rw [hr] at he ⊢
          rw [← he]
          rfl
        · rw [hr] at he ⊢
          rw [← he]
          rfl
    · refine ⟨[b, c1, c2], t1, b, [c1, c2], rfl, by simp, ht, ?_, hscan⟩
      simp only [appendStringStep, hb, if_false, htake, hd, hr1, hls]
      rfl
  · -- four bytes
    have hd := utf8.decodeRune_seq4 b c1 c2 c3 (t1.take 0) hs
    have hd2 := fun X => utf8.decodeRune_seq4 b c1 c2 c3 X hs
    have he := utf8.encodeRune_seq4 b c1 c2 c3 hs
    have hrange : 0x10000 ≤ b % 8 * 262144 + c1 % 64 * 4096 + c2 % 64 * 64 + c3 % 64 := by
      obtain ⟨h01, h2, h3⟩ := hs; omega
    have hb : ¬ b < 0x80 := by
      obtain ⟨h01, _⟩ := hs; omega
    have h34 : b ≠ 34 ∧ b ≠ 92 ∧ ¬ b < 0x20 := by omega
    have hr1 : ¬ (b % 8 * 262144 + c1 % 64 * 4096 + c2 % 64 * 64 + c3 % 64 = utf8.RuneError
        ∧ 4 = 1) := by omega
    have hr2 : ¬ (b % 8 * 262144 + c1 % 64 * 4096 + c2 % 64 * 64 + c3 % 64 = 0x2028 ∨
        b % 8 * 262144 + c1 % 64 * 4096 + c2 % 64 * 64 + c3 % 64 = 0x2029) := by omega
    have htake : (b :: c1 :: c2 :: c3 :: t1).take 4 = b :: c1 :: c2 :: c3 :: t1.take 0 := rfl
    refine ⟨[b, c1, c2, c3], t1, b, [c1, c2, c3], rfl, by simp, ht, ?_, ?_⟩
    · simp only [appendStringStep, hb, if_false, htake, hd, hr1, hr2]
      rfl
    · intro X
      simp only [scanStringStep, h34.1, h34.2.1, h34.2.2, hb, if_false, List.cons_append,
        List.nil_append, hd2 X, he]
      rfl

end json

namespace json

theorem scanString_cons (g c : Nat) (rest : GoString) :
    scanString (g + 1) (c :: rest) =
      match scanStringStep c rest with
      | .done rest1 => .ok ([], rest1)
      | .emit bytes rest1 => prepend bytes (scanString g rest1)
      | .fail f => .error f := rfl

theorem scanString_appendStringLoop : ∀ (n : Nat) (s : GoString), s.length ≤ n →
    utf8.ValidString s = true → ∀ (f g : Nat) (rest : GoString), s.length ≤ f →
    (appendStringLoop f s).length + 1 ≤ g →
    scanString g (appendStringLoop f s ++ 34 :: rest) = .ok (s, rest) := by
  intro n
  induction n with
  | zero =>
    intro s hn _ f g rest _ hg
    have hs : s = [] := List.length_eq_zero.mp (by omega)
    subst hs
    rw [appendStringLoop_nil] at hg ⊢
    obtain ⟨g, rfl⟩ : ∃ g0, g = g0 + 1 := ⟨g - 1, by simp at hg; omega⟩
    simp [scanString, scanStringStep]
  | succ n ih =>
    intro s hn hv f g rest hf hg
    cases s with
    | nil =>
      rw [appendStringLoop_nil] at hg ⊢
      obtain ⟨g, rfl⟩ : ∃ g0, g = g0 + 1 := ⟨g - 1, by simp at hg; omega⟩
      simp [scanString, scanStringStep]
    | cons b t =>
      obtain ⟨w, t1, c, o, hsplit, hw, hv1, hstep, hscan⟩ := step_roundtrip b t hv
      have hlen : t1.length < (b :: t).length := by
        rw [hsplit, List.length_append]
        have : 0 < w.length := List.length_pos.mpr hw
        omega
      obtain ⟨f, rfl⟩ : ∃ f0, f = f0 + 1 := ⟨f - 1, by simp at hf; omega⟩
      have hloop : appendStringLoop (f + 1) (b :: t) = (c :: o) ++ appendStringLoop f t1 := by
        rw [appendStringLoop, hstep]
      rw [hloop] at hg ⊢
      simp only [List.length_append, List.length_cons] at hg
      obtain ⟨g, rfl⟩ : ∃ g0, g = g0 + 1 := ⟨g - 1, by omega⟩
      have hrec := ih t1 (by simp at hn hlen; omega) hv1 f g rest (by simp at hf hlen; omega)
        (by omega)
      have hshape : (c :: o ++ appendStringLoop f t1) ++ 34 :: rest
          = c :: (o ++ (appendStringLoop f t1 ++ 34 :: rest)) := by simp
      rw [hshape, scanString_cons, hscan]
      simp only [hrec, prepend, hsplit]

/-- What `appendString` writes for a valid UTF-8 string is read back as that string. -/
theorem scanString_appendString (s rest : GoString) (hv : utf8.ValidString s = true) :
    ∃ q, appendString s ++ rest = 34 :: q ∧ scanString q.length q = .ok (s, rest) := by
  refine ⟨appendStringLoop s.length s ++ 34 :: rest, by simp [appendString], ?_⟩
  exact scanString_appendStringLoop s.length s (Nat.le_refl _) hv _ _ rest (Nat.le_refl _)
    (by simp)

end json

/-! ## Number literals -/

namespace json

theorem spanDigits_append (ds r : GoString) (hds : ∀ d ∈ ds, isDigit d = true)
    (hr : r = [] ∨ ∃ x t, r = x :: t ∧ isDigit x = false) :
    spanDigits (ds ++ r) = (ds, r) := by
  induction ds with
  | nil =>
    rcases hr with rfl | ⟨x, t, rfl, hx⟩
    · rfl
    · simp [spanDigits, hx]
  | cons d ds ih =>
    have hd := hds d (List.mem_cons_self _ _)
    have := ih (fun x hx => hds x (List.mem_cons_of_mem _ hx))
    simp [spanDigits, hd, this]

theorem terminated_head (rest : GoString) (h : Terminated rest) :
    ∃ x t, rest = x :: t ∧ isDigit x = false ∧ x ≠ 46 ∧ x ≠ 101 ∧ x ≠ 69 := by
  obtain ⟨x, t, rfl, hx⟩ := h
  refine ⟨x, t, rfl, ?_, ?_, ?_, ?_⟩
  · simp only [isDigit, Bool.and_eq_false_iff, decide_eq_false_iff_not]
    omega
  all_goals omega

/-- The exponent of a number literal in front of the end of a value. -/
theorem scanExponent_lit (lit0 exp rest : GoString) (ht : Terminated rest)
    (hexp : exp = [] ∨ ∃ e sg d ds, exp = e :: sg ++ d :: ds ∧ (e = 101 ∨ e = 69) ∧
      (sg = [] ∨ sg = [43] ∨ sg = [45]) ∧ isDigit d = true ∧ ∀ x ∈ ds, isDigit x = true) :
    scanExponent lit0 (exp ++ rest) = .ok (lit0 ++ exp, rest) := by
  obtain ⟨x, t, hrest, hxd, hx46, hx101, hx69⟩ := terminated_head rest ht
  rcases hexp with rfl | ⟨e, sg, d, ds, rfl, he, hsg, hd, hds⟩
  · subst hrest
    simp [scanExponent, hx101, hx69]
  · have hspan : spanDigits (d :: (ds ++ rest)) = (d :: ds, rest) := by
      have := spanDigits_append (d :: ds) rest
        (by intro y hy; rcases List.mem_cons.mp hy with rfl | hy; exact hd; exact hds y hy)
        (Or.inr ⟨x, t, hrest, hxd⟩)
      simpa using this
    have hd' := hd
    simp only [isDigit, Bool.and_eq_true, decide_eq_true_eq] at hd'
    have hdne : ¬ (d = 43 ∨ d = 45) := by omega
    rcases hsg with rfl | rfl | rfl
    · simp only [scanExponent, List.cons_append, List.nil_append, he, if_true, hdne, if_false,
        List.length_nil, List.drop_zero, hd, hspan]
      simp
    · simp only [scanExponent, List.cons_append, List.nil_append, he, if_true,
        List.singleton_append]
      simp [hd, hspan]
    · simp only [scanExponent, List.cons_append, List.nil_append, he, if_true,
        List.singleton_append]
      simp [hd, hspan]

/-- The head of an exponent, or of the end of a value, is no digit and no point. -/
theorem exp_head (exp rest : GoString) (ht : Terminated rest)
    (hexp : exp = [] ∨ ∃ e sg d ds, exp = e :: sg ++ d :: ds ∧ (e = 101 ∨ e = 69) ∧
      (sg = [] ∨ sg = [43] ∨ sg = [45]) ∧ isDigit d = true ∧ ∀ x ∈ ds, isDigit x = true) :
    ∃ x t, exp ++ rest = x :: t ∧ isDigit x = false ∧ x ≠ 46 := by
  obtain ⟨x, t, hrest, hxd, hx46, _, _⟩ := terminated_head rest ht
  rcases hexp with rfl | ⟨e, sg, d, ds, rfl, he, _, _, _⟩
  · exact ⟨x, t, by simp [hrest], hxd, hx46⟩
  · refine ⟨e, sg ++ d :: (ds ++ rest), by simp, ?_, by omega⟩
    simp only [isDigit, Bool.and_eq_false_iff, decide_eq_false_iff_not]
    omega

/-- The fraction and exponent of a number literal in front of the end of a value. -/
theorem scanFraction_lit (lit0 frac exp rest : GoString) (ht : Terminated rest)
    (hfrac : frac = [] ∨ ∃ d ds, frac = 46 :: d :: ds ∧ isDigit d = true ∧
      ∀ x ∈ ds, isDigit x = true)
    (hexp : exp = [] ∨ ∃ e sg d ds, exp = e :: sg ++ d :: ds ∧ (e = 101 ∨ e = 69) ∧
      (sg = [] ∨ sg = [43] ∨ sg = [45]) ∧ isDigit d = true ∧ ∀ x ∈ ds, isDigit x = true) :
    scanFraction lit0 (frac ++ (exp ++ rest)) = .ok (lit0 ++ frac ++ exp, rest) := by
  obtain ⟨x, t, hhead, hxd, hx46⟩ := exp_head exp rest ht hexp
  rcases hfrac with rfl | ⟨d, ds, rfl, hd, hds⟩
  · rw [List.nil_append, hhead]
    have : scanFraction lit0 (x :: t) = scanExponent lit0 (x :: t) := by
      unfold scanFraction
      split
      · rename_i h; cases h; exact absurd rfl hx46
      · rfl
    rw [this, ← hhead, scanExponent_lit lit0 exp rest ht hexp]
    simp
  · have hspan : spanDigits (d :: (ds ++ (exp ++ rest))) = (d :: ds, exp ++ rest) := by
      have := spanDigits_append (d :: ds) (exp ++ rest)
        (by intro y hy; rcases List.mem_cons.mp hy with rfl | hy; exact hd; exact hds y hy)
        (Or.inr ⟨x, t, hhead, hxd⟩)
      simpa using this
    simp only [scanFraction, List.cons_append, hd, if_true, hspan]
    rw [scanExponent_lit _ exp rest ht hexp]

/-- Digits, fraction and exponent of a number literal in front of the end of a value. -/
theorem scanInteger_lit (lit0 int frac exp rest : GoString) (ht : Terminated rest)
    (hint : int = [48] ∨ ∃ c ds, int = c :: ds ∧ 49 ≤ c ∧ c ≤ 57 ∧ ∀ d ∈ ds, isDigit d = true)
    (hfrac : frac = [] ∨ ∃ d ds, frac = 46 :: d :: ds ∧ isDigit d = true ∧
      ∀ x ∈ ds, isDigit x = true)
    (hexp : exp = [] ∨ ∃ e sg d ds, exp = e :: sg ++ d :: ds ∧ (e = 101 ∨ e = 69) ∧
      (sg = [] ∨ sg = [43] ∨ sg = [45]) ∧ isDigit d = true ∧ ∀ x ∈ ds, isDigit x = true) :
    scanInteger lit0 (int ++ (frac ++ (exp ++ rest))) = .ok (lit0 ++ int ++ frac ++ exp, rest) := by
  have hhead : ∃ x t, frac ++ (exp ++ rest) = x :: t ∧ isDigit x = false := by
    rcases hfrac with rfl | ⟨d, ds, rfl, _, _⟩
    · obtain ⟨x, t, h, hx, _⟩ := exp_head exp rest ht hexp
      exact ⟨x, t, by simpa using h, hx⟩
    · exact ⟨46, d :: (ds ++ (exp ++ rest)), by simp, by decide⟩
  rcases hint with rfl | ⟨c, ds, rfl, hc1, hc2, hds⟩
  · simp only [scanInteger, List.singleton_append, if_true]
    rw [scanFraction_lit _ frac exp rest ht hfrac hexp]
  · have hc : isDigit c = true := by
      simp only [isDigit, Bool.and_eq_true, decide_eq_true_eq]; omega
    have hne : c ≠ 48 := by omega
    have hspan : spanDigits (c :: (ds ++ (frac ++ (exp ++ rest))))
        = (c :: ds, frac ++ (exp ++ rest)) := by
      have := spanDigits_append (c :: ds) (frac ++ (exp ++ rest))
        (by intro y hy; rcases List.mem_cons.mp hy with rfl | hy; exact hc; exact hds y hy)
        (Or.inr hhead)
      simpa using this
    simp only [scanInteger, List.cons_append, hne, if_false, hc, if_true, hspan]
    rw [scanFraction_lit _ frac exp rest ht hfrac hexp]

/-- A number literal begins with `-` or a digit, and in front of the end of a value the
scanner takes exactly the literal. -/
theorem numberLit_reads (lit : GoString) (h : NumberLit lit) :
    ∃ c t, lit = c :: t ∧
      ((c = 45 ∧ ∀ rest, Terminated rest → scanInteger [45] (t ++ rest) = .ok (lit, rest)) ∨
       (isDigit c = true ∧
          ∀ rest, Terminated rest → scanInteger [] (lit ++ rest) = .ok (lit, rest))) := by
  obtain ⟨sign, int, frac, exp, rfl, hsign, hint, hfrac, hexp⟩ := h
  rcases hsign with rfl | rfl
  · have hhd : ∃ c t, int = c :: t ∧ isDigit c = true := by
      rcases hint with rfl | ⟨c, ds, rfl, h1, h2, _⟩
      · exact ⟨48, [], rfl, by decide⟩
      · exact ⟨c, ds, rfl, by simp only [isDigit, Bool.and_eq_true, decide_eq_true_eq]; omega⟩
    obtain ⟨c, t, hct, hc⟩ := hhd
    refine ⟨c, t ++ frac ++ exp, by simp [hct], Or.inr ⟨hc, ?_⟩⟩
    intro rest ht
    have := scanInteger_lit [] int frac exp rest ht hint hfrac hexp
    simpa using this
  · refine ⟨45, int ++ frac ++ exp, by simp, Or.inl ⟨rfl, ?_⟩⟩
    intro rest ht
    have := scanInteger_lit [45] int frac exp rest ht hint hfrac hexp
    simpa using this

end json

/-! ## What the encoder writes, the scanner reads back -/

namespace json

theorem skipSpace_cons (c : Nat) (t : GoString) (h : isSpace c = false) :
    skipSpace (c :: t) = c :: t := by
  simp [skipSpace, h]

/-- The first byte of the text of a value: not white space and not a closing bracket. -/
theorem encode_head (v : JValue) (hn : v.Normal) :
    ∃ c t, v.encode = c :: t ∧ isSpace c = false ∧ c ≠ 93 ∧ c ≠ 125 := by
  cases v with
  | null => exact ⟨110, [117, 108, 108], by decide, by decide, by decide, by decide⟩
  | bool b =>
    cases b
    · exact ⟨102, [97, 108, 115, 101], by decide, by decide, by decide, by decide⟩
    · exact ⟨116, [114, 117, 101], by decide, by decide, by decide, by decide⟩
  | number lit =>
    obtain ⟨c, t, hl, h⟩ := numberLit_reads lit (by simpa [JValue.Normal] using hn)
    refine ⟨c, t, by simp [JValue.encode, hl], ?_⟩
    rcases h with ⟨rfl, _⟩ | ⟨hd, _⟩
    · decide
    · simp only [isDigit, Bool.and_eq_true, decide_eq_true_eq] at hd
      refine ⟨?_, by omega, by omega⟩
      simp only [isSpace, Bool.or_eq_false_iff, beq_eq_false_iff_ne, ne_eq]
      omega
  | string s =>
    exact ⟨34, appendStringLoop s.length s ++ [34], by simp [JValue.encode, appendString],
      by decide, by decide, by decide⟩
  | array es =>
    exact ⟨91, encodeElems es ++ [93], by simp [JValue.encode], by decide, by decide, by decide⟩
  | object ms =>
    exact ⟨123, encodeMembers ms ++ [125], by simp [JValue.encode], by decide, by decide,
      by decide⟩

theorem encodeMembers_single (k : GoString) (v : JValue) :
    encodeMembers [(k, v)] = appendString k ++ 58 :: v.encode := by
  simp [encodeMembers]

theorem encodeMembers_cons_cons (k : GoString) (v : JValue) (m : GoString × JValue)
    (ms : List (GoString × JValue)) :
    encodeMembers ((k, v) :: m :: ms)
      = appendString k ++ 58 :: v.encode ++ 44 :: encodeMembers (m :: ms) := by
  rw [encodeMembers]

theorem terminated_cons (c : Nat) (t : GoString) (h : c = 44 ∨ c = 93 ∨ c = 125 ∨ c = 10) :
    Terminated (c :: t) := ⟨c, t, rfl, h⟩

mutual
/-- The scanner reads the text of a normal value back as that value. -/
theorem scanValue_encode (v : JValue) (hn : v.Normal) (fuel depth : Nat) (rest : GoString)
    (hf : v.size ≤ fuel) (hd : depth + v.depth ≤ maxNestingDepth) (ht : Terminated rest) :
    scanValue fuel depth (v.encode ++ rest) = .ok (v, rest) := by
  obtain ⟨fuel, rfl⟩ : ∃ f0, fuel = f0 + 1 := ⟨fuel - 1, by cases v <;> simp [JValue.size] at hf <;> omega⟩
  cases v with
  | null =>
    have e : JValue.null.encode = [110, 117, 108, 108] := by decide
    rw [e, scanValue]
    rfl
  | bool b =>
    cases b
    · have e : (JValue.bool false).encode = [102, 97, 108, 115, 101] := by decide
      rw [e, scanValue]
      rfl
    · have e : (JValue.bool true).encode = [116, 114, 117, 101] := by decide
      rw [e, scanValue]
      rfl
  | number lit =>
    obtain ⟨c, t, hl, h⟩ := numberLit_reads lit (by simpa [JValue.Normal] using hn)
    rw [scanValue]
    simp only [JValue.encode]
    rcases h with ⟨hc, h⟩ | ⟨hdig, h⟩
    · subst hc
      have := h rest ht
      subst hl
      rw [List.cons_append, skipSpace_cons _ _ (by decide)]
      simp [this]
    · have := h rest ht
      have hdig' := hdig
      simp only [isDigit, Bool.and_eq_true, decide_eq_true_eq] at hdig'
      have hsp : isSpace c = false := by
        simp only [isSpace, Bool.or_eq_false_iff, beq_eq_false_iff_ne, ne_eq]
        omega
      subst hl
      rw [List.cons_append, skipSpace_cons _ _ hsp]
      rw [List.cons_append] at this
      have h1 : c ≠ 123 := by omega
      have h2 : c ≠ 91 := by omega
      have h3 : c ≠ 34 := by omega
      have h4 : c ≠ 45 := by omega
      simp [h1, h2, h3, h4, hdig, this]
  | string s =>
    have hv : utf8.ValidString s = true := by simpa [JValue.Normal] using hn
    obtain ⟨q, hq, hscan⟩ := scanString_appendString s rest hv
    rw [scanValue]
    simp only [JValue.encode, hq]
    rw [skipSpace_cons _ _ (by decide)]
    simp [hscan]
  | array es =>
    have hdep : depth + 1 + depthElems es ≤ maxNestingDepth := by
      simp only [JValue.depth] at hd; omega
    have hsz : sizeElems es ≤ fuel := by simp only [JValue.size] at hf; omega
    have hne : normalElems es := by simpa [JValue.Normal] using hn
    rw [scanValue]
    simp only [JValue.encode, List.cons_append, List.append_assoc]
    rw [skipSpace_cons _ _ (by decide)]
    have hgt : ¬ depth + 1 > maxNestingDepth := by omega
    cases es with
    | nil =>
      simp only [encodeElems, List.nil_append, List.singleton_append]
      rw [skipSpace_cons _ _ (by decide)]
      simp [hgt]
    | cons e es =>
      have hrec := scanElems_encode (e :: es) (by simp) hne fuel (depth + 1) rest hsz hdep
      obtain ⟨c, t, hc, hsp, h93, _⟩ := encode_head e hne.1
      have hhead : ∃ t2, encodeElems (e :: es) ++ 93 :: rest = c :: t2 := by
        cases es with
        | nil => exact ⟨t ++ 93 :: rest, by simp [encodeElems, hc]⟩
        | cons e2 es2 =>
          exact ⟨t ++ 44 :: (encodeElems (e2 :: es2) ++ 93 :: rest),
            by simp [encodeElems, hc]⟩
      obtain ⟨t2, ht2⟩ := hhead
      simp only [List.nil_append, List.singleton_append, ht2]
      rw [skipSpace_cons _ _ hsp]
      rw [ht2] at hrec
      simp [hgt, h93, hrec]
  | object ms =>
    have hdep : depth + 1 + depthMembers ms ≤ maxNestingDepth := by
      simp only [JValue.depth] at hd; omega
    have hsz : sizeMembers ms ≤ fuel := by simp only [JValue.size] at hf; omega
    have hne : normalMembers ms := by simpa [JValue.Normal] using hn
    rw [scanValue]
    simp only [JValue.encode, List.cons_append, List.append_assoc]
    rw [skipSpace_cons _ _ (by decide)]
    have hgt : ¬ depth + 1 > maxNestingDepth := by omega
    cases ms with
    | nil =>
      simp only [encodeMembers, List.nil_append, List.singleton_append]
      rw [skipSpace_cons _ _ (by decide)]
      simp [hgt]
    | cons m ms =>
      have hrec := scanMembers_encode (m :: ms) (by simp) hne fuel (depth + 1) rest hsz hdep
      have hhead : ∃ t2, encodeMembers (m :: ms) ++ 125 :: rest = 34 :: t2 := by
        obtain ⟨k, v⟩ := m
        cases ms with
        | nil =>
          exact ⟨appendStringLoop k.length k ++ 34 :: 58 :: (v.encode ++ 125 :: rest),
            by simp [encodeMembers, appendString]⟩
        | cons m2 ms2 =>
          exact ⟨appendStringLoop k.length k ++ 34 :: 58 :: (v.encode ++
              44 :: (encodeMembers (m2 :: ms2) ++ 125 :: rest)),
            by simp [encodeMembers, appendString]⟩
      obtain ⟨t2, ht2⟩ := hhead
      simp only [List.nil_append, List.singleton_append, ht2]
      rw [skipSpace_cons _ _ (by decide)]
      rw [ht2] at hrec
      simp [hgt, hrec]
/-- The scanner reads the elements of an array back. -/
theorem scanElems_encode (es : List JValue) (hes : es ≠ []) (hn : normalElems es)
    (fuel depth : Nat) (rest : GoString) (hf : sizeElems es ≤ fuel)
    (hd : depth + depthElems es ≤ maxNestingDepth) :
    scanElems fuel depth (encodeElems es ++ 93 :: rest) = .ok (es, rest) := by
  cases es with
  | nil => exact absurd rfl hes
  | cons v vs =>
    obtain ⟨fuel, rfl⟩ : ∃ f0, fuel = f0 + 1 := ⟨fuel - 1, by simp [sizeElems] at hf; omega⟩
    have hfv : v.size ≤ fuel := by simp only [sizeElems] at hf; omega
    have hfs : sizeElems vs ≤ fuel := by simp only [sizeElems] at hf; omega
    have hdv : depth + v.depth ≤ maxNestingDepth := by
      simp only [depthElems] at hd; omega
    have hds : depth + depthElems vs ≤ maxNestingDepth := by
      simp only [depthElems] at hd; omega
    rw [scanElems]
    cases vs with
    | nil =>
      have hv := scanValue_encode v hn.1 fuel depth (93 :: rest) hfv hdv
        (terminated_cons _ _ (by simp))
      simp only [encodeElems]
      rw [hv]
      simp only
      rw [skipSpace_cons _ _ (by decide)]
      simp
    | cons w ws =>
      have hrec := scanElems_encode (w :: ws) (by simp) hn.2 fuel depth rest hfs hds
      have hv := scanValue_encode v hn.1 fuel depth
        (44 :: (encodeElems (w :: ws) ++ 93 :: rest)) hfv hdv (terminated_cons _ _ (by simp))
      simp only [encodeElems, List.append_assoc, List.cons_append] at hv hrec ⊢
      rw [hv]
      simp only
      rw [skipSpace_cons _ _ (by decide)]
      simp [hrec]
/-- The scanner reads the members of an object back. -/
theorem scanMembers_encode (ms : List (GoString × JValue)) (hms : ms ≠ [])
    (hn : normalMembers ms) (fuel depth : Nat) (rest : GoString) (hf : sizeMembers ms ≤ fuel)
    (hd : depth + depthMembers ms ≤ maxNestingDepth) :
    scanMembers fuel depth (encodeMembers ms ++ 125 :: rest) = .ok (ms, rest) := by
  cases ms with
  | nil => exact absurd rfl hms
  | cons m ms =>
    obtain ⟨k, v⟩ := m
    obtain ⟨fuel, rfl⟩ : ∃ f0, fuel = f0 + 1 := ⟨fuel - 1, by simp [sizeMembers] at hf; omega⟩
    have hfv : v.size ≤ fuel := by simp only [sizeMembers] at hf; omega
    have hfs : sizeMembers ms ≤ fuel := by simp only [sizeMembers] at hf; omega
    have hdv : depth + v.depth ≤ maxNestingDepth := by
      simp only [depthMembers] at hd; omega
    have hds : depth + depthMembers ms ≤ maxNestingDepth := by
      simp only [depthMembers] at hd; omega
    rw [scanMembers]
    cases ms with
    | nil =>
      have hv := scanValue_encode v hn.2.1 fuel depth (125 :: rest) hfv hdv
        (terminated_cons _ _ (by simp))
      obtain ⟨q, hq, hscan⟩ := scanString_appendString k (58 :: (v.encode ++ 125 :: rest)) hn.1
      rw [encodeMembers_single]
      simp only [List.append_assoc, List.cons_append] at hq ⊢
      rw [hq, skipSpace_cons _ _ (by decide)]
      simp only [ne_eq, not_true_eq_false, if_false, hscan]
      rw [skipSpace_cons _ _ (by decide)]
      simp only [ne_eq, not_true_eq_false, if_false, hv]
      rw [skipSpace_cons _ _ (by decide)]
      simp
    | cons m2 ms2 =>
      have hrec := scanMembers_encode (m2 :: ms2) (by simp) hn.2.2 fuel depth rest hfs hds
      have hv := scanValue_encode v hn.2.1 fuel depth
        (44 :: (encodeMembers (m2 :: ms2) ++ 125 :: rest)) hfv hdv
        (terminated_cons _ _ (by simp))
      obtain ⟨q, hq, hscan⟩ := scanString_appendString k
        (58 :: (v.encode ++ 44 :: (encodeMembers (m2 :: ms2) ++ 125 :: rest))) hn.1
      rw [encodeMembers_cons_cons]
      simp only [List.append_assoc, List.cons_append] at hq hv hrec ⊢
      rw [hq, skipSpace_cons _ _ (by decide)]
      simp only [ne_eq, not_true_eq_false, if_false, hscan]
      rw [skipSpace_cons _ _ (by decide)]
      simp only [ne_eq, not_true_eq_false, if_false, hv]
      rw [skipSpace_cons _ _ (by decide)]
      simp [hrec]
end

end json

namespace json

theorem encodeElems_cons_cons (v w : JValue) (ws : List JValue) :
    encodeElems (v :: w :: ws) = v.encode ++ 44 :: encodeElems (w :: ws) := by
  rw [encodeElems]

theorem encodeElems_single (v : JValue) : encodeElems [v] = v.encode := by
  simp [encodeElems]

mutual
/-- The text of a normal value is at least as long as the value is large. -/
theorem size_le_length (v : JValue) (hn : v.Normal) : v.size ≤ v.encode.length := by
  cases v with
  | null => decide
  | bool b => cases b <;> decide
  | number lit =>
    obtain ⟨c, t, hl, _⟩ := numberLit_reads lit (by simpa [JValue.Normal] using hn)
    simp [JValue.size, JValue.encode, hl]
  | string s => simp [JValue.size, JValue.encode, appendString]
  | array es =>
    have := sizeElems_le_length es (by simpa [JValue.Normal] using hn)
    simp only [JValue.size, JValue.encode, List.length_cons, List.length_append,
      List.length_singleton]
    omega
  | object ms =>
    have := sizeMembers_le_length ms (by simpa [JValue.Normal] using hn)
    simp only [JValue.size, JValue.encode, List.length_cons, List.length_append,
      List.length_singleton]
    omega
theorem sizeElems_le_length (es : List JValue) (hn : normalElems es) :
    sizeElems es ≤ (encodeElems es).length + 1 := by
  cases es with
  | nil => simp [sizeElems]
  | cons v vs =>
    have hv := size_le_length v hn.1
    cases vs with
    | nil =>
      rw [encodeElems_single]
      simp only [sizeElems]
      omega
    | cons w ws =>
      have hrec := sizeElems_le_length (w :: ws) hn.2
      rw [encodeElems_cons_cons]
      simp only [List.length_append, List.length_cons]
      rw [sizeElems]
      omega
theorem sizeMembers_le_length (ms : List (GoString × JValue)) (hn : normalMembers ms) :
    sizeMembers ms ≤ (encodeMembers ms).length + 1 := by
  cases ms with
  | nil => simp [sizeMembers]
  | cons m ms =>
    obtain ⟨k, v⟩ := m
    have hv := size_le_length v hn.2.1
    cases ms with
    | nil =>
      rw [encodeMembers_single]
      simp only [sizeMembers, List.length_append, List.length_cons]
      omega
    | cons m2 ms2 =>
      have hrec := sizeMembers_le_length (m2 :: ms2) hn.2.2
      rw [encodeMembers_cons_cons]
      simp only [List.length_append, List.length_cons]
      rw [sizeMembers]
      omega
end

/-- The text that `Encoder.Encode` writes for a normal value, its compact form and a
newline, is valid JSON and holds that value. -/
theorem parse_encode (v : JValue) (hn : v.Normal) (hd : v.depth ≤ maxNestingDepth) :
    parse (v.encode ++ [10]) = .ok v := by
  have hsz := size_le_length v hn
  have h := scanValue_encode v hn (2 * (v.encode ++ [10]).length + 2) 0 [10]
    (by simp; omega) (by omega) (terminated_cons _ _ (by simp))
  unfold parse
  rw [h]
  simp [skipSpace, isSpace]

end json

/-! ## Maps written and read back -/

namespace strings

theorem less_irrefl : ∀ a : GoString, Less a a = false
  | [] => rfl
  | x :: xs => by simp [Less, less_irrefl xs]

theorem less_asymm : ∀ a b : GoString, Less a b = true → Less b a = false
  | [], [], h => by simp [Less] at h
  | [], _ :: _, _ => rfl
  | _ :: _, [], h => by simp [Less] at h
  | x :: xs, y :: ys, h => by
    simp only [Less, Bool.or_eq_true, decide_eq_true_eq, Bool.and_eq_true] at h
    simp only [Less, Bool.or_eq_false_iff, decide_eq_false_iff_not, Bool.and_eq_false_iff]
    rcases h with h | ⟨h1, h2⟩
    · exact ⟨by omega, Or.inl (by omega)⟩
    · exact ⟨by omega, Or.inr (less_asymm xs ys h2)⟩

end strings

theorem GoMap.insertEntry_append {V : Type} (k : GoString) (v : V) :
    ∀ acc : List (GoString × V), (∀ a ∈ acc, strings.Less a.1 k = true) →
      GoMap.insertEntry k v acc = acc ++ [(k, v)]
  | [], _ => rfl
  | (k0, v0) :: rest, h => by
    have h0 : strings.Less k0 k = true := h (k0, v0) (List.mem_cons_self _ _)
    have hne : k ≠ k0 := by
      intro e
      rw [e, strings.less_irrefl] at h0
      exact absurd h0 (by simp)
    have hnl : strings.Less k k0 = false := strings.less_asymm k0 k h0
    simp only [GoMap.insertEntry, hne, if_false, hnl, Bool.false_eq_true, List.cons_append]
    rw [GoMap.insertEntry_append k v rest (fun a ha => h a (List.mem_cons_of_mem _ ha))]

namespace config

theorem unmarshalPtr_marshalPtr {α : Type} (enc : α → Except json.Error json.JValue)
    (dec : json.JValue → α × Option json.Error) (v : Option α) (j : json.JValue)
    (hj : marshalPtr enc v = .ok j)
    (hgood : ∀ x, v = some x → ∀ j, enc x = .ok j → j ≠ .null ∧ dec j = (x, none)) :
    unmarshalPtr dec j = (v, none) := by
  cases v with
  | none =>
    simp only [marshalPtr, Except.ok.injEq] at hj
    subst hj
    rfl
  | some x =>
    obtain ⟨hnn, hdec⟩ := hgood x rfl j hj
    cases j with
    | null => exact absurd rfl hnn
    | _ => simp [unmarshalPtr, hdec]

/-- The entries of a map: what the encoder writes for them is normal, no deeper than their
values, and read back as the same entries behind those that the map already holds. -/
theorem entries_roundtrip {α : Type} (enc : α → Except json.Error json.JValue)
    (dec : json.JValue → α × Option json.Error) (d : Nat) :
    ∀ (es : List (GoString × Option α)) (js : List (GoString × json.JValue)),
    marshalEntries enc es = .ok js →
    (∀ k v, (k, v) ∈ es → utf8.ValidString k = true ∧ ∀ x, v = some x → ∀ j, enc x = .ok j →
      j ≠ .null ∧ j.Normal ∧ j.depth ≤ d ∧ dec j = (x, none)) →
    json.normalMembers js ∧ json.depthMembers js ≤ d ∧
    ∀ acc, (∀ a ∈ acc, ∀ e ∈ es, strings.Less a.1 e.1 = true) →
      (es.map Prod.fst).Pairwise (fun a b => strings.Less a b = true) →
      unmarshalEntries dec js acc = (acc ++ es, none) := by
  intro es
  induction es with
  | nil =>
    intro js hj _
    simp only [marshalEntries, Except.ok.injEq] at hj
    subst hj
    exact ⟨trivial, Nat.zero_le _, fun acc _ _ => by simp [unmarshalEntries]⟩
  | cons e es ih =>
    intro js hj hgood
    obtain ⟨k, v⟩ := e
    simp only [marshalEntries] at hj
    cases hv : marshalPtr enc v with
    | error err => simp [hv] at hj
    | ok j =>
      cases hrest : marshalEntries enc es with
      | error err => simp [hv, hrest] at hj
      | ok js0 =>
        simp only [hv, hrest, Except.ok.injEq] at hj
        subst hj
        obtain ⟨hn, hd, hun⟩ := ih js0 hrest
          (fun k0 v0 hm => hgood k0 v0 (List.mem_cons_of_mem _ hm))
        obtain ⟨hk, hvgood⟩ := hgood k v (List.mem_cons_self _ _)
        have hjprops : j.Normal ∧ j.depth ≤ d := by
          cases v with
          | none =>
            simp only [marshalPtr, Except.ok.injEq] at hv
            subst hv
            exact ⟨trivial, Nat.zero_le _⟩
          | some x =>
            have := hvgood x rfl j hv
            exact ⟨this.2.1, this.2.2.1⟩
        refine ⟨⟨hk, hjprops.1, hn⟩, ?_, ?_⟩
        · simp only [json.depthMembers]
          exact Nat.max_le.mpr ⟨hjprops.2, hd⟩
        · intro acc hacc hsorted
          have hptr : unmarshalPtr dec j = (v, none) :=
            unmarshalPtr_marshalPtr enc dec v j hv (fun x hx j0 hj0 =>
              ⟨(hvgood x hx j0 hj0).1, (hvgood x hx j0 hj0).2.2.2⟩)
          simp only [List.map_cons, List.pairwise_cons] at hsorted
          have hins : GoMap.insertEntry k v acc = acc ++ [(k, v)] :=
            GoMap.insertEntry_append k v acc
              (fun a ha => hacc a ha (k, v) (List.mem_cons_self _ _))
          have hnext := hun (acc ++ [(k, v)]) (by
            intro a ha e he
            rcases List.mem_append.mp ha with ha | ha
            · exact hacc a ha e (List.mem_cons_of_mem _ he)
            · simp only [List.mem_singleton] at ha
              subst ha
              exact hsorted.1 e.1 (List.mem_map_of_mem _ he)) hsorted.2
          simp only [unmarshalEntries, hptr, hins, hnext, json.saveError]
          simp

/-- A map of pointers: what the encoder writes for it is normal, one level deeper than its
values at most, and read back as the same map into a map without entries. -/
theorem map_roundtrip {α : Type} (enc : α → Except json.Error json.JValue)
    (dec : json.JValue → α × Option json.Error) (d : Nat) (typeName strct field : GoString)
    (m : GoMap (Option α)) (j : json.JValue) (hj : marshalMap enc m = .ok j)
    (hwf : GoMap.WF m)
    (hgood : ∀ k v, (k, v) ∈ m.getD [] → utf8.ValidString k = true ∧ ∀ x, v = some x →
      ∀ j, enc x = .ok j → j ≠ .null ∧ j.Normal ∧ j.depth ≤ d ∧ dec j = (x, none))
    (cur : GoMap (Option α)) (hcur : cur.getD [] = []) :
    j.Normal ∧ j.depth ≤ d + 1 ∧ unmarshalMap typeName strct field dec j cur = (m, none) := by
  cases m with
  | none =>
    simp only [marshalMap, Except.ok.injEq] at hj
    subst hj
    exact ⟨trivial, Nat.zero_le _, rfl⟩
  | some es =>
    simp only [marshalMap] at hj
    cases hes : marshalEntries enc es with
    | error err => simp [hes] at hj
    | ok js =>
      simp only [hes, Except.ok.injEq] at hj
      subst hj
      obtain ⟨hn, hd, hun⟩ := entries_roundtrip enc dec d es js hes hgood
      refine ⟨hn, ?_, ?_⟩
      · simp only [json.JValue.depth]; omega
      · have := hun [] (by simp) hwf
        simp only [unmarshalMap, hcur, this, List.nil_append]

end config

/-! ## The configuration written and read back -/

namespace json

theorem depth_string (s : GoString) : (JValue.string s).depth = 0 := by
  rw [JValue.depth]
  intro es h; cases h
  intro ms h; cases h

theorem depth_object (ms : List (GoString × JValue)) :
    (JValue.object ms).depth = 1 + depthMembers ms := by
  rw [JValue.depth]

theorem depthMembers_le (d : Nat) : ∀ ms : List (GoString × JValue),
    (∀ m ∈ ms, m.2.depth ≤ d) → depthMembers ms ≤ d
  | [], _ => by
    rw [depthMembers]; omega
  | (k, v) :: ms, h => by
    rw [depthMembers]
    exact Nat.max_le.mpr ⟨h (k, v) (List.mem_cons_self _ _),
      depthMembers_le d ms (fun m hm => h m (List.mem_cons_of_mem _ hm))⟩

end json

namespace config

theorem findField_server :
    json.findField serverConfigFields (str "accessKey") = some 0 ∧
    json.findField serverConfigFields (str "secretKey") = some 1 ∧
    json.findField serverConfigFields (str "tokenKey") = some 2 ∧
    json.findField serverConfigFields (str "url") = some 3 ∧
    json.findField serverConfigFields (str "project") = some 4 ∧
    json.findField serverConfigFields (str "cacert") = some 5 ∧
    json.findField serverConfigFields (str "kubeCredentials") = some 6 ∧
    json.findField serverConfigFields (str "kubeConfigs") = some 7 := by
  decide

theorem findField_config :
    json.findField configFields (str "Servers") = some 0 ∧
    json.findField configFields (str "CurrentServer") = some 2 := by
  decide

theorem fieldNames_valid :
    utf8.ValidString (str "accessKey") = true ∧ utf8.ValidString (str "secretKey") = true ∧
    utf8.ValidString (str "tokenKey") = true ∧ utf8.ValidString (str "url") = true ∧
    utf8.ValidString (str "project") = true ∧ utf8.ValidString (str "cacert") = true ∧
    utf8.ValidString (str "kubeCredentials") = true ∧
    utf8.ValidString (str "kubeConfigs") = true ∧
    utf8.ValidString (str "Servers") = true ∧ utf8.ValidString (str "CurrentServer") = true := by
  decide

/-- A `ServerConfig` that round-trips: what the encoder writes for it is an object that is
normal, at most two levels deeper than the stored values, and decoded into a new
`ServerConfig` to the same value. -/
theorem serverConfig_roundtrip {EC KC : Type} (ec : Codec EC) (kc : Codec KC)
    (sc : ServerConfig EC KC) (h : ServerConfig.RoundTrips ec kc sc) (j : json.JValue)
    (hj : ServerConfig.marshal ec kc sc = .ok j) (strct field : GoString) :
    j ≠ .null ∧ j.Normal ∧ j.depth ≤ json.maxNestingDepth - 4 + 2 ∧
      ServerConfig.unmarshal ec kc strct field j {} = (sc, none) := by
  obtain ⟨h1, h2, h3, h4, h5, h6, ⟨hwf7, hg7⟩, ⟨hwf8, hg8⟩⟩ := h
  unfold ServerConfig.marshal at hj
  cases hc : marshalMap ec.marshal sc.KubeCredentials with
  | error err => simp [hc] at hj
  | ok creds =>
    cases hk : marshalMap kc.marshal sc.KubeConfigs with
    | error err => simp [hc, hk] at hj
    | ok configs =>
      simp only [hc, hk, Except.ok.injEq] at hj
      subst hj
      have hgood7 : ∀ k v, (k, v) ∈ sc.KubeCredentials.getD [] → utf8.ValidString k = true ∧
          ∀ x, v = some x → ∀ j, ec.marshal x = .ok j →
            j ≠ .null ∧ j.Normal ∧ j.depth ≤ json.maxNestingDepth - 4 ∧
              ec.unmarshal j = (x, none) := by
        intro k v hm
        refine ⟨(hg7 k v hm).1, fun x hx j hj => ?_⟩
        have := (hg7 k v hm).2 x hx j hj
        exact ⟨this.1, this.2.1, by have := this.2.2.1; omega, this.2.2.2⟩
      have hgood8 : ∀ k v, (k, v) ∈ sc.KubeConfigs.getD [] → utf8.ValidString k = true ∧
          ∀ x, v = some x → ∀ j, kc.marshal x = .ok j →
            j ≠ .null ∧ j.Normal ∧ j.depth ≤ json.maxNestingDepth - 4 ∧
              kc.unmarshal j = (x, none) := by
        intro k v hm
        refine ⟨(hg8 k v hm).1, fun x hx j hj => ?_⟩
        have := (hg8 k v hm).2 x hx j hj
        exact ⟨this.1, this.2.1, by have := this.2.2.1; omega, this.2.2.2⟩
      have m7 := fun tn st fl => map_roundtrip ec.marshal ec.unmarshal
        (json.maxNestingDepth - 4) tn st fl sc.KubeCredentials creds hc hwf7 hgood7 none rfl
      have m8 := fun tn st fl => map_roundtrip kc.marshal kc.unmarshal
        (json.maxNestingDepth - 4) tn st fl sc.KubeConfigs configs hk hwf8 hgood8 none rfl
      obtain ⟨f0, f1, f2, f3, f4, f5, f6, f7⟩ := findField_server
      obtain ⟨n0, n1, n2, n3, n4, n5, n6, n7, _, _⟩ := fieldNames_valid
      refine ⟨by simp, ?_, ?_, ?_⟩
      · simp only [json.JValue.Normal, json.normalMembers]
        exact ⟨n0, h1, n1, h2, n2, h3, n3, h4, n4, h5, n5, h6, n6, (m7 [] [] []).1, n7,
          (m8 [] [] []).1, trivial⟩
      · have d7 := (m7 [] [] []).2.1
        have d8 := (m8 [] [] []).2.1
        rw [json.depth_object]
        have : json.depthMembers [
            (str "accessKey", json.JValue.string sc.AccessKey),
            (str "secretKey", .string sc.SecretKey),
            (str "tokenKey", .string sc.TokenKey),
            (str "url", .string sc.URL),
            (str "project", .string sc.Project),
            (str "cacert", .string sc.CACerts),
            (str "kubeCredentials", creds),
            (str "kubeConfigs", configs)] ≤ json.maxNestingDepth - 4 + 1 := by
          apply json.depthMembers_le
          intro m hm
          simp only [List.mem_cons, List.mem_singleton, List.not_mem_nil, or_false] at hm
          rcases hm with rfl | rfl | rfl | rfl | rfl | rfl | rfl | rfl
          all_goals first
            | (rw [json.depth_string]; omega)
            | exact d7
            | exact d8
        omega
      · simp only [ServerConfig.unmarshal, ServerConfig.unmarshalFields,
          ServerConfig.unmarshalField, f0, f1, f2, f3, f4, f5, f6, f7, json.decodeString,
          (m7 _ _ _).2.2, (m8 _ _ _).2.2, json.saveError]

end config

namespace config

/-- A `Config` that round-trips: what the encoder writes for it once its `Path` is cleared
is normal, within the nesting limit of the decoder, and decoded into the fresh `Config` of
`LoadFromPath` to the same servers and current server. -/
theorem config_roundtrip {EC KC : Type} (ec : Codec EC) (kc : Codec KC) (c : Config EC KC)
    (h : Config.RoundTrips ec kc c) (j : json.JValue)
    (hj : Config.marshal ec kc { c with Path := [] } = .ok j) (p : GoString) :
    j.Normal ∧ j.depth ≤ json.maxNestingDepth ∧
      Config.unmarshal ec kc j { Path := p, Servers := some [] }
        = ({ Servers := c.Servers, Path := p, CurrentServer := c.CurrentServer }, none) := by
  obtain ⟨hcur, hwf, hg⟩ := h
  obtain ⟨servers, hs, rfl⟩ := marshal_cleared_path ec kc c j hj
  have hgood : ∀ k v, (k, v) ∈ c.Servers.getD [] → utf8.ValidString k = true ∧
      ∀ x, v = some x → ∀ j, ServerConfig.marshal ec kc x = .ok j →
        j ≠ .null ∧ j.Normal ∧ j.depth ≤ json.maxNestingDepth - 4 + 2 ∧
          (fun j => ServerConfig.unmarshal ec kc (str "Config") (str "Servers") j {}) j
            = (x, none) := by
    intro k v hm
    exact ⟨(hg k v hm).1, fun x hx j hj =>
      serverConfig_roundtrip ec kc x ((hg k v hm).2 x hx) j hj _ _⟩
  obtain ⟨hn, hd, hun⟩ := map_roundtrip (ServerConfig.marshal ec kc)
    (fun j => ServerConfig.unmarshal ec kc (str "Config") (str "Servers") j {})
    (json.maxNestingDepth - 4 + 2) (str "config.ServerConfig") (str "Config") (str "Servers")
    c.Servers servers hs hwf hgood (some []) rfl
  obtain ⟨f0, f2⟩ := findField_config
  obtain ⟨_, _, _, _, _, _, _, _, n8, n9⟩ := fieldNames_valid
  refine ⟨?_, ?_, ?_⟩
  · simp only [json.JValue.Normal, json.normalMembers]
    exact ⟨n8, hn, n9, hcur, trivial⟩
  · rw [json.depth_object]
    have : json.depthMembers [(str "Servers", servers),
        (str "CurrentServer", json.JValue.string c.CurrentServer)]
          ≤ json.maxNestingDepth - 4 + 2 + 1 := by
      apply json.depthMembers_le
      intro m hm
      simp only [List.mem_cons, List.mem_singleton, List.not_mem_nil, or_false] at hm
      rcases hm with rfl | rfl
      · exact hd
      · rw [json.depth_string]; omega
    have hmax : json.maxNestingDepth = 10000 := rfl
    omega
  · simp only [Config.unmarshal, Config.unmarshalFields, Config.unmarshalField, f0, f2,
      json.decodeString, hun, json.saveError]

/-- A successful `Write` leaves at the path of the `Config` the text of the `Config` with
its `Path` cleared, followed by a newline. -/
theorem write_ok_file {EC KC : Type} (ec : Codec EC) (kc : Codec KC) (c : Config EC KC)
    (fs : os.FileSystem) (hw : (c.Write ec kc fs).err = none) :
    ∃ v, Config.marshal ec kc { c with Path := [] } = .ok v ∧
      (c.Write ec kc fs).fs.files c.Path = some (v.encode ++ [10]) := by
  unfold Config.Write at hw ⊢
  cases hm : os.MkdirAll fs (path.Dir c.Path) 0o700 with
  | some err => simp [hm] at hw
  | none =>
    simp only [hm] at hw ⊢
    cases hc : os.Create fs c.Path with
    | error err => simp [hc] at hw
    | ok fs1 =>
      have hfs1 : fs1 = { fs with files := fun n => if n = c.Path then some [] else fs.files n } := by
        unfold os.Create at hc
        cases hce : fs.createErr c.Path with
        | some e => simp [hce] at hc
        | none => simpa [hce] using hc.symm
      simp only [hc] at hw ⊢
      cases hj : Config.marshal ec kc { c with Path := [] } with
      | error e => simp [hj] at hw
      | ok v =>
        simp only [hj] at hw ⊢
        refine ⟨v, rfl, ?_⟩
        subst hfs1
        unfold os.Write at hw ⊢
        cases hwe : fs.writeErr c.Path with
        | some en => simp [hwe] at hw
        | none => simp [hwe]

/-- Claim C4 as stated fails: a `Config` whose `CurrentServer` is the single byte `0xFF`,
which is not valid UTF-8, is written without error (the encoder replaces the byte by
U+FFFD) and loaded without error, and the loaded `Config` is not the original one. -/
theorem write_then_load_counterexample :
    (({ Path := str "/x", CurrentServer := [0xFF] } : Config Unit Unit).Write
      unitCodec unitCodec emptyFS).err = none ∧
    LoadFromPath unitCodec unitCodec
      (({ Path := str "/x", CurrentServer := [0xFF] } : Config Unit Unit).Write
        unitCodec unitCodec emptyFS).fs (str "/x")
      = ({ Path := str "/x", CurrentServer := [0xEF, 0xBF, 0xBD] }, none) ∧
    ({ Path := str "/x", CurrentServer := [0xEF, 0xBF, 0xBD] } : Config Unit Unit)
      ≠ { Path := str "/x", CurrentServer := [0xFF] } := by
  decide!

/-- Claim C4, amended. For every `Config` whose strings (server names and map keys
included) are valid UTF-8, whose maps are well-formed and whose stored `ExecCredential`
and `api.Config` values survive the way through JSON: if `Write` succeeds and the file it
wrote can be read, `LoadFromPath` on the path of the `Config` succeeds and returns the
same `Config`, with the same `Servers`, `CurrentServer` and `Path`. -/
theorem write_then_load {EC KC : Type} (ec : Codec EC) (kc : Codec KC) (c : Config EC KC)
    (fs : os.FileSystem) (hrt : Config.RoundTrips ec kc c)
    (hw : (c.Write ec kc fs).err = none)
    (hread : (c.Write ec kc fs).fs.readErr c.Path = none) :
    LoadFromPath ec kc (c.Write ec kc fs).fs c.Path = (c, none) := by
  obtain ⟨v, hv, hfile⟩ := write_ok_file ec kc c fs hw
  obtain ⟨hn, hd, hun⟩ := config_roundtrip ec kc c hrt v hv c.Path
  have hparse := json.parse_encode v hn hd
  have hrd : os.ReadFile (c.Write ec kc fs).fs c.Path = .ok (v.encode ++ [10]) := by
    simp [os.ReadFile, hread, hfile]
  simp only [LoadFromPath, hrd, Unmarshal, hparse, hun]

theorem unitCodec_roundTrips : unitCodec.RoundTrips () := by
  intro j hj
  simp only [unitCodec, Except.ok.injEq] at hj
  subst hj
  exact ⟨by simp, trivial, by decide, rfl⟩

end config

namespace config

theorem twoServerConfig_roundTrips : Config.RoundTrips unitCodec unitCodec twoServerConfig := by
  refine ⟨by decide, ?_, ?_⟩
  · show List.Pairwise _ _
    decide
  · intro k v hm
    have hm' : (k, v) = (str "dev", none) ∨ (k, v) = (str "prod", some tokenServer) := by
      simpa [twoServerConfig] using hm
    rcases hm' with h | h
    · cases h
      exact ⟨by decide, fun x hx => by cases hx⟩
    · cases h
      refine ⟨by decide, fun x hx => ?_⟩
      cases hx
      refine ⟨by decide, by decide, by decide, by decide, by decide, by decide, ?_, ?_⟩
      · refine ⟨?_, ?_⟩
        · show List.Pairwise _ _
          decide
        · intro k v hm
          have hm' : (k, v) = (str "c-abc123", some ()) := by
            simpa [tokenServer] using hm
          cases hm'
          exact ⟨by decide, fun x _ => unitCodec_roundTrips⟩
      · exact ⟨trivial, fun k v hm => by simp [tokenServer, sampleServer] at hm⟩

/-- An instance of the amended claim C4: a configuration with two servers, a `nil` entry,
a stored credential and strings outside ASCII is written and loaded back unchanged. -/
theorem write_then_load_witness :
    Config.RoundTrips unitCodec unitCodec twoServerConfig ∧
    (twoServerConfig.Write unitCodec unitCodec emptyFS).err = none ∧
    (twoServerConfig.Write unitCodec unitCodec emptyFS).fs.readErr twoServerConfig.Path = none ∧
    LoadFromPath unitCodec unitCodec (twoServerConfig.Write unitCodec unitCodec emptyFS).fs
      twoServerConfig.Path = (twoServerConfig, none) :=
  ⟨twoServerConfig_roundTrips, by decide!, by decide!,
   write_then_load unitCodec unitCodec twoServerConfig emptyFS twoServerConfig_roundTrips
     (by decide!) (by decide!)⟩

end config
